import Mathlib

/-!
# Verification of the link-checker's link/anchor resolution engine

A shallow embedding of the grammY `link-checker` repository (Deno/TypeScript)
into Lean 4, together with theorems settling the specification claims about
it.  JavaScript strings are modelled as `List Char`; the platform's WHATWG
`URL` class is modelled by an executable parser/serializer covering the
structure this code depends on (scheme, authority, path, query, fragment);
percent-encoding normalisation, dot-segment removal and host case folding are
not modelled.  All definitions are executable.
-/

set_option maxRecDepth 10000

/-- JavaScript string, modelled as a list of characters. -/
abbrev JStr := List Char

/-- Convert a Lean string literal to the `JStr` model. -/
def str (s : String) : JStr := s.data

/-- `haystack.startsWith(needle)` (JS `String.prototype.startsWith`). -/
def jsStartsWith (needle hay : JStr) : Bool :=
  match needle, hay with
  | [], _ => true
  | _ :: _, [] => false
  | n :: ns, h :: hs => n = h && jsStartsWith ns hs

/-- `haystack.endsWith(needle)` (JS `String.prototype.endsWith`). -/
def jsEndsWith (needle hay : JStr) : Bool :=
  jsStartsWith needle.reverse hay.reverse

/-- First index at which `needle` occurs in `hay` (JS `indexOf`, as `Option`). -/
def indexOfSub (hay needle : JStr) : Option Nat :=
  match hay with
  | [] => if needle = [] then some 0 else none
  | _ :: hs =>
    if jsStartsWith needle hay then some 0
    else (indexOfSub hs needle).map (· + 1)

/-- `haystack.includes(needle)` (JS `String.prototype.includes`). -/
def hasSub (hay needle : JStr) : Bool :=
  (indexOfSub hay needle).isSome

/-- Split at the first occurrence of character `c`: returns the part before it
and, when `c` occurs, the part after it (JS `indexOf` + two `substring`s). -/
def breakAt (c : Char) : JStr → JStr × Option JStr
  | [] => ([], none)
  | x :: xs =>
    if x = c then ([], some xs)
    else
      let r := breakAt c xs
      (x :: r.1, r.2)

/-- Split at the last occurrence of character `c`: returns the part before it
and, when `c` occurs, the part after it (JS `lastIndexOf` + two `substring`s). -/
def breakAtLast (c : Char) : JStr → JStr × Option JStr
  | [] => ([], none)
  | x :: xs =>
    let r := breakAtLast c xs
    match r.2 with
    | some b => (x :: r.1, some b)
    | none => if x = c then ([], some xs) else (x :: r.1, none)

/-- JS `String.prototype.split(c)`: list of segments (empty segments kept;
the result is always non-empty). -/
def splitChar (c : Char) : JStr → List JStr
  | [] => [[]]
  | x :: xs =>
    if x = c then [] :: splitChar c xs
    else
      match splitChar c xs with
      | [] => [[x]]   -- unreachable: splitChar never returns []
      | a :: rest => (x :: a) :: rest

/-- Join a list of segments with the character `c` (JS `Array.prototype.join`). -/
def joinChar (c : Char) : List JStr → JStr
  | [] => []
  | [a] => a
  | a :: rest => a ++ c :: joinChar c rest

/-- ASCII lower-casing of a string (JS `toLowerCase`, ASCII fragment). -/
def lowerStr (s : JStr) : JStr := s.map Char.toLower

/-- JS `String.prototype.replace(pattern, replacement)`: replaces only the
first occurrence of `pattern`; the string is returned unchanged when `pattern`
does not occur. -/
def replaceFirst (pattern replacement : JStr) : JStr → JStr
  | [] => if pattern = [] then replacement else []
  | x :: xs =>
    if jsStartsWith pattern (x :: xs) then replacement ++ (x :: xs).drop pattern.length
    else x :: replaceFirst pattern replacement xs

/-- 0-based occurrence test: `needle` occurs in `hay` starting at index `i`. -/
def occursAt (hay needle : JStr) (i : Nat) : Bool :=
  jsStartsWith needle (hay.drop i)

/-- Total model of `decodeURIComponent`: percent-decodes `%XX` hex escapes
byte-wise (multi-byte UTF-8 sequences and malformed escapes, on which the
platform function would throw, are left as-is; all inputs relevant here are
ASCII). -/
def decodeURIComponentTotal : JStr → JStr
  | '%' :: h1 :: h2 :: rest =>
    if h1.isDigit || ('a' ≤ h1 && h1 ≤ 'f') || ('A' ≤ h1 && h1 ≤ 'F') then
      if h2.isDigit || ('a' ≤ h2 && h2 ≤ 'f') || ('A' ≤ h2 && h2 ≤ 'F') then
        Char.ofNat (16 * (if h1.isDigit then h1.toNat - '0'.toNat
                          else if 'a' ≤ h1 then h1.toNat - 'a'.toNat + 10
                          else h1.toNat - 'A'.toNat + 10)
                    + (if h2.isDigit then h2.toNat - '0'.toNat
                       else if 'a' ≤ h2 then h2.toNat - 'a'.toNat + 10
                       else h2.toNat - 'A'.toNat + 10))
          :: decodeURIComponentTotal rest
      else '%' :: decodeURIComponentTotal (h1 :: h2 :: rest)
    else '%' :: decodeURIComponentTotal (h1 :: h2 :: rest)
  | c :: rest => c :: decodeURIComponentTotal rest
  | [] => []

/-!
## Model of the platform WHATWG `URL` class

The repository relies on the runtime's `URL` for: `URL.canParse`, the
component getters (`protocol`, `host`, `hostname`, `pathname`, `hash`,
`searchParams`, `href`), fragment removal via `url.hash = ""`, and the
`hostname` setter.  The model below parses `scheme://host[:port]path?query`
with the fragment being everything after the first `#`; special schemes are
`http` and `https`.  Percent-encoding, dot-segment removal, IPv6 hosts,
userinfo and host case folding are not modelled.
-/

/-- A parsed URL record. -/
structure URLRec where
  /-- lower-cased scheme, without the trailing `:` -/
  scheme : JStr
  /-- host name without port (empty for non-special schemes) -/
  hostname : JStr
  /-- optional port digits (never empty, never the scheme default) -/
  port : Option JStr
  /-- path (starts with `/` for special schemes) -/
  pathname : JStr
  /-- query without the leading `?` (`some []` for a lone `?`) -/
  query : Option JStr
  /-- fragment without the leading `#` (`some []` for a lone `#`) -/
  fragment : Option JStr
deriving DecidableEq

/-- Is the scheme a special scheme handled with an authority? -/
def isSpecialScheme (s : JStr) : Bool := s = str "http" || s = str "https"

/-- Valid scheme syntax: a letter followed by letters/digits/`+`/`-`/`.`. -/
def validScheme : JStr → Bool
  | [] => false
  | c :: rest =>
    c.isAlpha && rest.all (fun d => d.isAlpha || d.isDigit || d = '+' || d = '-' || d = '.')

/-- The default port of a special scheme, as digits. -/
def defaultPort (scheme : JStr) : JStr :=
  if scheme = str "http" then str "80" else if scheme = str "https" then str "443" else []

/-- Parse everything before the fragment of a URL string; the produced record
has `fragment := none`.  `none` models the `URL` constructor throwing. -/
def parsePreFragment (pre : JStr) : Option URLRec :=
  match breakAt ':' pre with
  | (_, none) => none
  | (sch, some rest) =>
    if validScheme sch then
      let scheme := lowerStr sch
      if isSpecialScheme scheme then
        match rest with
        | '/' :: '/' :: rest' =>
          let auth := rest'.takeWhile (fun c => ¬(c = '/' ∨ c = '?'))
          let tail := rest'.dropWhile (fun c => ¬(c = '/' ∨ c = '?'))
          let hp := breakAt ':' auth
          if hp.1 = [] then none
          else
            let port : Option (Option JStr) :=
              match hp.2 with
              | none => some none
              | some p =>
                if p = [] then some none
                else if p.all Char.isDigit then
                  if p = defaultPort scheme then some none else some (some p)
                else none
            match port with
            | none => none
            | some port =>
              let pq :=
                match tail with
                | [] => ((str "/"), (none : Option JStr))
                | '?' :: q => ((str "/"), some q)
                | _ =>
                  match breakAt '?' tail with
                  | (p, q) => (p, q)
              some { scheme := scheme, hostname := hp.1, port := port,
                     pathname := pq.1, query := pq.2, fragment := none }
        | _ => none
      else
        let pq := breakAt '?' rest
        some { scheme := scheme, hostname := [], port := none,
               pathname := pq.1, query := pq.2, fragment := none }
    else none

/-- Parse a URL string: the fragment is everything after the first `#`;
`none` models the `URL` constructor throwing. -/
def parseURL (s : JStr) : Option URLRec :=
  let pf := breakAt '#' s
  (parsePreFragment pf.1).map (fun u => { u with fragment := pf.2 })

/-- `URL.canParse`. -/
def canParseURL (s : JStr) : Bool := (parseURL s).isSome

/-- Serialize a URL record (`url.href` / `url.toString()`). -/
def serializeURL (u : URLRec) : JStr :=
  u.scheme ++ ':' ::
    (if isSpecialScheme u.scheme then
      '/' :: '/' :: u.hostname ++ (match u.port with | none => [] | some p => ':' :: p)
     else []) ++
    u.pathname ++
    (match u.query with | none => [] | some q => '?' :: q) ++
    (match u.fragment with | none => [] | some f => '#' :: f)

/-- `url.protocol` getter (scheme plus `:`). -/
def URLRec.protocol (u : URLRec) : JStr := u.scheme ++ [':']

/-- `url.host` getter (`hostname[:port]`). -/
def URLRec.host (u : URLRec) : JStr :=
  u.hostname ++ (match u.port with | none => [] | some p => ':' :: p)

/-- `url.hash` getter: empty for an absent or empty fragment, otherwise the
fragment with a leading `#`. -/
def URLRec.hash (u : URLRec) : JStr :=
  match u.fragment with
  | none => []
  | some [] => []
  | some f => '#' :: f

/-- `url.hash = ""`: removes the fragment entirely. -/
def URLRec.clearHash (u : URLRec) : URLRec := { u with fragment := none }

/-- The entries of `url.searchParams` (empty `&`-segments are dropped). -/
def URLRec.searchParamsList (u : URLRec) : List (JStr × JStr) :=
  match u.query with
  | none => []
  | some q =>
    ((splitChar '&' q).filter (· ≠ [])).map (fun kv =>
      match breakAt '=' kv with
      | (k, none) => (k, [])
      | (k, some v) => (k, v))

/-- `url.searchParams.size`. -/
def URLRec.searchParamsSize (u : URLRec) : Nat := u.searchParamsList.length

/-- `url.searchParams.get(name)` (`none` models `null`). -/
def URLRec.searchParamsGet (u : URLRec) (name : JStr) : Option JStr :=
  (u.searchParamsList.find? (fun kv => kv.1 = name)).map (·.2)

/-- Well-formedness of a URL record (Boolean): exactly the records the parser
can produce, and on which serialization round-trips. -/
def URLRec.WFb (u : URLRec) : Bool :=
  validScheme u.scheme && lowerStr u.scheme = u.scheme &&
  ¬ (u.query.getD []).contains '#' &&
  (if isSpecialScheme u.scheme then
    u.hostname ≠ [] &&
    u.hostname.all (fun c => ¬(c = '/' || c = ':' || c = '?' || c = '#')) &&
    (match u.port with
     | none => true
     | some p => p ≠ [] && p.all Char.isDigit && p ≠ defaultPort u.scheme) &&
    u.pathname.head? = some '/' && ¬ u.pathname.contains '?' && ¬ u.pathname.contains '#'
  else
    u.hostname = [] && u.port = none &&
    ¬ u.pathname.contains '?' && ¬ u.pathname.contains '#')

/-- Well-formedness of a URL record. -/
def URLRec.WF (u : URLRec) : Prop := u.WFb = true

instance (u : URLRec) : Decidable u.WF := by
  unfold URLRec.WF
  exact inferInstance

/-- Association-list lookup (JS `RECORD[key]`). -/
def assoc {α β : Type} [DecidableEq α] (l : List (α × β)) (k : α) : Option β :=
  (l.find? (fun p => p.1 = k)).map (·.2)

/-!
## `src/constants.ts`
-/

/-- `VALID_REDIRECTIONS` (known-pair override table). -/
def VALID_REDIRECTIONS : List (JStr × JStr) :=
  [ (str "https://localtunnel.me/", str "https://theboroer.github.io/localtunnel-www/"),
    (str "https://nodejs.org/", str "https://nodejs.org/en"),
    (str "https://api.telegram.org/", str "https://core.telegram.org/bots"),
    (str "https://telegram.me/name-of-your-bot?start=custom-payload", str "https://telegram.org/"),
    (str "http://telegram.me/addstickers/", str "https://telegram.org/") ]

/-- `MANUAL_REDIRECTIONS`. -/
def MANUAL_REDIRECTIONS : List JStr := [str "https://accounts.google.com/signup"]

/-- `ACCEPTABLE_NOT_OK_STATUS`. -/
def ACCEPTABLE_NOT_OK_STATUS : List (JStr × Nat) :=
  [ (str "https://dash.cloudflare.com/login", 403),
    (str "https://dash.cloudflare.com/?account=workers", 403),
    (str "https://api.telegram.org/file/bot", 404) ]

/-- `CLOUDFLARE_PROTECTED` (hostname list used by `checkExternalUrl`). -/
def CLOUDFLARE_PROTECTED : List JStr := [str "www.scaleway.com"]

/-!
## `src/types.ts` — the `Issue` tagged union
-/

/-- The tagged variants of `Issue` (`from`/`to` of `redirected` are renamed
`fromUrl`/`toUrl`, since `from` is a Lean keyword). -/
inductive Issue where
  | unknown_link_format (reference : JStr)
  | empty_dom (reference : JStr)
  | empty_anchor (reference : JStr)
  | no_response (reference : JStr)
  | not_ok_response (reference : JStr) (status : Nat) (statusText : JStr)
  | disallow_extension (reference : JStr) (extension : JStr)
  | wrong_extension (reference : JStr) (actual expected : JStr)
  | linked_file_not_found (filepath : JStr) (reference : JStr)
  | redirected (fromUrl toUrl : JStr)
  | missing_anchor (reference : JStr) (anchor : JStr) (allAnchors : List JStr)
  | local_alt_available (reference : JStr) (reason : JStr)
  | inaccessible (reference : JStr) (reason : JStr)
deriving DecidableEq

/-- The `type` discriminant strings of `Issue`, as an enumeration. -/
inductive IssueType where
  | unknown_link_format | empty_dom | empty_anchor | no_response
  | not_ok_response | disallow_extension | wrong_extension
  | linked_file_not_found | redirected | missing_anchor
  | local_alt_available | inaccessible
deriving DecidableEq

/-- `issue.type`. -/
def Issue.type : Issue → IssueType
  | .unknown_link_format _ => .unknown_link_format
  | .empty_dom _ => .empty_dom
  | .empty_anchor _ => .empty_anchor
  | .no_response _ => .no_response
  | .not_ok_response .. => .not_ok_response
  | .disallow_extension .. => .disallow_extension
  | .wrong_extension .. => .wrong_extension
  | .linked_file_not_found .. => .linked_file_not_found
  | .redirected .. => .redirected
  | .missing_anchor .. => .missing_anchor
  | .local_alt_available .. => .local_alt_available
  | .inaccessible .. => .inaccessible

/-- `FIXABLE_ISSUE_TYPES` from `src/constants.ts`. -/
def FIXABLE_ISSUE_TYPES : List IssueType :=
  [.redirected, .missing_anchor, .empty_anchor, .wrong_extension, .disallow_extension]

/-- `isFixableIssueType` from the fixer CLI. -/
def isFixableIssueType (t : IssueType) : Bool := FIXABLE_ISSUE_TYPES.contains t

/-- Result of `parseLink`: `{ root, anchor? }`. -/
structure ParsedLink where
  root : JStr
  anchor : Option JStr
deriving DecidableEq

namespace Part000
/-!
## `src/unnamed/part_000` (the final iteration's `utilities.ts`)
-/

/-- `parseLink` from `src/unnamed/part_000` (lines 45–55): always splits at
the **first** `#` and percent-decodes the anchor; the commented-out
`URL.canParse` branch is dead code there. -/
def parseLink (href : JStr) : ParsedLink :=
  match breakAt '#' href with
  | (_, none) => { root := href, anchor := none }
  | (a, some b) => { root := a, anchor := some (decodeURIComponentTotal b) }

/-- `getPossibleMatches` from `src/unnamed/part_000`.  The Jaro–Winkler
`distance ≥ MINIMUM_DISTANCE (0.8)` test on the two lower-cased strings is an
external floating-point dependency, abstracted as the Boolean parameter
`close`. -/
def getPossibleMatches (close : JStr → JStr → Bool) (anchor : JStr)
    (allAnchors : List JStr) : List JStr :=
  allAnchors.filter (fun possible => close (lowerStr anchor) (lowerStr possible))

end Part000

namespace Utilities
/-!
## `src/utilities.ts` (lines 25–35)
-/

/-- `parseLink` from `src/utilities.ts` lines 25–35: when the string is not a
parseable absolute URL, split at the **last** `#`; otherwise parse it as a
URL, take the fragment from `url.hash`, and take the root as the `href` of the
URL with its hash cleared.  Anchors are not percent-decoded here. -/
def parseLink (href : JStr) : ParsedLink :=
  if ¬ canParseURL href then
    match breakAtLast '#' href with
    | (_, none) => { root := href, anchor := none }
    | (a, some b) => { root := a, anchor := some b }
  else
    match parseURL href with
    | none => { root := href, anchor := none }  -- unreachable: canParseURL href
    | some url =>
      let anchor := if url.hash = [] then none else some (url.hash.drop 1)
      { root := serializeURL url.clearHash, anchor := anchor }

/-- Reconstruction `root + (anchor ? "#" + anchor : "")` from the spec. -/
def parseLinkRecon (href : JStr) : JStr :=
  let p := parseLink href
  p.root ++ (match p.anchor with | none => [] | some a => '#' :: a)

end Utilities

namespace Fetch
/-!
## `src/fetch.ts`
-/

/-- Outcome of one `fetch` attempt: a thrown network-level exception, or a
response carrying a status code. -/
inductive FetchOutcome where
  | exception
  | response (status : Nat)
deriving DecidableEq

/-- Result of the retry loop: the final response status (if any), the number
of fetch attempts made, and the list of delays slept. -/
structure FetchRun where
  response : Option Nat
  attempts : Nat
  sleeps : List Nat
deriving DecidableEq

/-- The body of `getFetchWithRetries`'s `do`–`while` loop; `trace n` is the
outcome of the `n`-th fetch attempt (attempts numbered from 0), `retries` and
`response` are the loop variables (`info.response`).  `retryDelay` is 3000ms.
On an exception `info.response` keeps its previous value, and when
`retryOnFail` is false the loop `break`s out of the `catch`. -/
def getFetchWithRetriesGo (retryOnFail : Bool) (maxRetries : Nat)
    (trace : Nat → FetchOutcome) (retries : Nat) (response : Option Nat) : FetchRun :=
  let sleepsHere : List Nat := if retries > 0 then [3000] else []
  let fetched : Option Nat × Bool :=
    match trace retries with
    | .exception => (response, ¬ retryOnFail)
    | .response s => (some s, false)
  if fetched.2 then
    { response := fetched.1, attempts := 1, sleeps := sleepsHere }
  else
    let response' : Option Nat :=
      match fetched.1 with
      | some s => if retries ≤ maxRetries ∧ (s = 408 ∨ 500 ≤ s) then none else some s
      | none => none
    if h : retries < maxRetries ∧ response' = none then
      let rest := getFetchWithRetriesGo retryOnFail maxRetries trace (retries + 1) response'
      { response := rest.response, attempts := rest.attempts + 1,
        sleeps := sleepsHere ++ rest.sleeps }
    else
      { response := response', attempts := 1, sleeps := sleepsHere }
termination_by maxRetries - retries
decreasing_by
  have := h.1
  omega

/-- `getFetchWithRetries(retryOnFail, maxRetries, ...)` applied to a URL whose
successive fetch attempts behave as `trace`. -/
def getFetchWithRetries (retryOnFail : Bool) (maxRetries : Nat)
    (trace : Nat → FetchOutcome) : FetchRun :=
  getFetchWithRetriesGo retryOnFail maxRetries trace 0 none

/-- `transformURL`: rewrite `t.me` hosts to `telegram.me`; `none` models the
`URL` constructor throwing on an unparseable link. -/
def transformURL (link : JStr) : Option JStr :=
  (parseURL link).map (fun url =>
    serializeURL (if url.hostname = str "t.me" then { url with hostname := str "telegram.me" } else url))

/-- The inner `general` decision table of `isValidRedirection` (`from`/`to`
renamed `fromU`/`toU`; `from` is a Lean keyword). -/
def generalRedirect (fromU toU : URLRec) : Bool :=
  let segsFrom := splitChar '/' fromU.pathname
  let segsTo := splitChar '/' toU.pathname
  -- For www and https checks' general calls.
  (serializeURL fromU = serializeURL toU) ||
  -- A third-party Deno module redirected to the latest version.
  (fromU.hostname = str "deno.land" && toU.hostname = str "deno.land" &&
    ((jsStartsWith (str "/x/") fromU.pathname &&
        (match segsFrom.get? 2 with
         | some seg => ¬ hasSub seg (str "@")
         | none => false) &&
      jsStartsWith (str "/x/") toU.pathname &&
        (match segsTo.get? 2 with
         | some seg => hasSub seg (str "@")
         | none => false)) ||
     (jsStartsWith (str "/std/") fromU.pathname && jsStartsWith (str "/std@") toU.pathname))) ||
  -- Shortened youtu.be links redirecting to the ?v= query form.
  (fromU.hostname = str "youtu.be" && toU.hostname = str "www.youtube.com" &&
    toU.pathname = str "/watch" && toU.searchParamsGet (str "v") = some (fromU.pathname.drop 1)) ||
  -- Simply a slash was removed or added.
  (fromU.host = toU.host &&
    (toU.pathname ++ ['/'] = fromU.pathname || fromU.pathname ++ ['/'] = toU.pathname)) ||
  -- Maybe some search params were appended.
  (fromU.host = toU.host && fromU.pathname = toU.pathname &&
    fromU.searchParamsSize ≠ toU.searchParamsSize) ||
  -- Login redirections.
  ((toU.hostname = str "accounts.google.com" &&
      (segsTo.contains (str "signin") || segsTo.contains (str "signup"))) ||
   (toU.hostname = str "github.com" && jsStartsWith (str "/login") toU.pathname))

/-- `isValidRedirection`.  The `www` and `https` passes rebuild a URL from the
textually modified `href` and re-run only `general` on it (a parse failure of
the modified string models the `URL` constructor throwing, in which case the
pass does not succeed). -/
def isValidRedirection (fromU toU : URLRec) : Bool :=
  -- --- Known cases ---
  if assoc VALID_REDIRECTIONS (serializeURL fromU) = some (serializeURL toU) then true
  else
    -- --- Special Cases ---
    -- (1) Added a www to the domain and any of the above.
    let www := (str "www." ++ fromU.host = toU.host) &&
      (match parseURL (replaceFirst (str "://") (str "://www.") (serializeURL fromU)) with
       | some u => generalRedirect u toU
       | none => false)
    -- (2) Protocol changed to https from http.
    let https := (fromU.protocol = str "http:") && (toU.protocol = str "https:") &&
      (match parseURL (replaceFirst (str "http") (str "https") (serializeURL fromU)) with
       | some u => generalRedirect u toU
       | none => false)
    generalRedirect fromU toU || www || https

/-- `www.` prepended to the host, at the URL-record level. -/
def wwwURL (u : URLRec) : URLRec := { u with hostname := str "www." ++ u.hostname }

/-- Scheme upgraded `http → https`, at the URL-record level (an explicit
`:443` port becomes the default of the new scheme and is dropped, as the
platform `URL` normalisation would). -/
def httpsURL (u : URLRec) : URLRec :=
  { u with scheme := str "https",
           port := if u.port = some (str "443") then none else u.port }

/-- The *claimed* decision table of one pass: the known-pair override lookup
together with the general table (claim C5 asserts every pass includes the
known-pair lookup). -/
def fullDecisionTable (fromU toU : URLRec) : Bool :=
  (assoc VALID_REDIRECTIONS (serializeURL fromU) = some (serializeURL toU)) ||
  generalRedirect fromU toU

/-- `isValidRedirection` as claim C5 describes it: the whole decision table —
including the known-pair lookup — re-tested on the original pair, the
`www.`-prefixed `from`, and the `https`-upgraded `from`. -/
def isValidRedirectionClaimed (fromU toU : URLRec) : Bool :=
  fullDecisionTable fromU toU || fullDecisionTable (wwwURL fromU) toU ||
  fullDecisionTable (httpsURL fromU) toU

end Fetch

/-- Replace the value under key `k` (or append the binding when absent) —
JS `obj[k] = v` on a plain object. -/
def assocSet {α β : Type} [DecidableEq α] (l : List (α × β)) (k : α) (v : β) : List (α × β) :=
  if (assoc l k).isSome then l.map (fun p => if p.1 = k then (k, v) else p) else l ++ [(k, v)]

namespace GroupLinks
/-!
## `src/group_links.ts`
-/

/-- Lexicographic character-code order on strings; models the branch-name
ordering produced by `localeCompare` (of which only the facts that it is a
total order and that a proper prefix precedes its extensions are used). -/
def lexLe : JStr → JStr → Bool
  | [], _ => true
  | _ :: _, [] => false
  | a :: as, b :: bs => if a = b then lexLe as bs else decide (a < b)

/-- `lexLe` as a relation. -/
def lexLeP (a b : JStr) : Prop := lexLe a b = true

instance : DecidableRel lexLeP := fun a b => by
  unfold lexLeP
  exact inferInstance

/-- `isGithubReadmeWithAnchorUrl` ("tree" is the key). -/
def isGithubReadmeWithAnchorUrl (url : URLRec) : Bool :=
  if url.hostname ≠ str "github.com" || url.hash.length < 2 then false   -- fast path
  else if url.hash = str "#readme" then true
  else
    let segments := splitChar '/' url.pathname
    let segments := if segments.getLast? = some [] then segments.dropLast else segments
    segments.length = 3 || (segments.get? 3 = some (str "tree") && segments.length ≥ 5)

/-- `isGithubRenderableFileWithAnchorUrl` ("blob" is the key). -/
def isGithubRenderableFileWithAnchorUrl (url : URLRec) : Bool :=
  if url.hostname ≠ str "github.com" then false   -- fast path
  else
    let segments := splitChar '/' url.pathname
    let segments := if segments.getLast? = some [] then segments.dropLast else segments
    url.hash.length > 1 && segments.get? 3 = some (str "blob") && segments.length > 5

/-- `parseGithubUrl`. -/
def parseGithubUrl (url : URLRec) : JStr × JStr :=
  let segments := splitChar '/' url.pathname
  let segments := (segments.reverse.dropWhile (fun s => s.all (fun c => c.isWhitespace))).reverse
  let repository := joinChar '/' ((segments.drop 1).take 2)
  let path := if segments.length = 3 then [] else joinChar '/' (segments.drop 4)
  (repository, path)

/-- Result of `parseGithubFilepathWithBranch`. -/
structure BranchFilepath where
  branch : Option JStr
  filepath : JStr
deriving DecidableEq

/-- `parseGithubFilepathWithBranch`: sort the branch names (the source sorts
in place with `localeCompare`), and for each branch collect the segments that
agree position-wise with the path's segments; a branch whose segments all
agree overwrites `finalSegments`.  The branch is the joined final segments
(`undefined` when empty), and the filepath is the path with the branch and its
separating slash sliced off (an empty-string branch is falsy in JS and slices
nothing). -/
def parseGithubFilepathWithBranch (path : JStr) (branches : List JStr) : BranchFilepath :=
  let sortedBranches := branches.insertionSort lexLeP
  let finalSegments := sortedBranches.foldl (fun finalSegments branch =>
    let branchSegs := splitChar '/' branch
    let pathSegs := splitChar '/' path
    let currentSegs := (List.range branchSegs.length).filterMap (fun i =>
      match branchSegs.get? i with
      | some seg => if pathSegs.get? i = some seg then some seg else none
      | none => none)
    if branchSegs.length = currentSegs.length then currentSegs else finalSegments) []
  let branch := if finalSegments.length > 0 then some (joinChar '/' finalSegments) else none
  let filepath := path.drop (match branch with
    | some b => if b ≠ [] then b.length + 1 else 0
    | none => 0)
  { branch := branch, filepath := filepath }

/-- `getBranches`, driven by a page oracle (`pages n` is the branch-name list
the API returns for page `n`) and fuel (the source loop is unbounded); returns
the collected names and the list of pages requested.  The page size is 100. -/
def getBranchesGo (pages : Nat → List JStr) (page : Nat) : Nat → List JStr × List Nat
  | 0 => ([], [])
  | fuel + 1 =>
    let branches := pages page
    if branches.length < 100 then (branches, [page])
    else
      let rest := getBranchesGo pages (page + 1) fuel
      (branches ++ rest.1, page :: rest.2)

/-- `getBranches` (pagination starts at page 1). -/
def getBranches (pages : Nat → List JStr) (fuel : Nat) : List JStr × List Nat :=
  getBranchesGo pages 1 fuel

/-- A grouped GitHub renderable-file link. -/
structure GithubFileLink where
  repository : JStr
  path : JStr
  /-- Original link referenced in the document -/
  originalReference : JStr
  /-- Is the file a directory README file -/
  isDirREADME : Bool
deriving DecidableEq

/-- Per-repository resolution cache: branch list plus
`(branch, filepath) → anchors` and `(branch, filepath) → issues`. -/
structure GithubRepoData where
  allBranches : List JStr
  anchors : List ((JStr × JStr) × List JStr)
  issues : List ((JStr × JStr) × List Issue)
deriving DecidableEq

/-- `GroupedLinksResolved.githubRenderableFiles`. -/
abbrev GroupedLinksResolved := List (JStr × GithubRepoData)

/-- One fetch performed by the group resolver. -/
inductive ApiFetch where
  | branchPage (repo : JStr) (page : Nat)
  | readme (repo filepath branch : JStr)
  | contents (repo filepath branch : JStr)
deriving DecidableEq

/-- The GitHub API and DOM collaborators of the resolver, as oracles:
`branchPages` feeds `getBranches`, `readmeHtml`/`contentsHtml` are the content
API (`none` models a 404 or missing response), and `domAnchors` is
`domParser.parseFromString` followed by `getAnchors` (`none` models a DOM
parse failure). -/
structure GithubApi where
  branchPages : JStr → Nat → List JStr
  readmeHtml : JStr → JStr → JStr → Option JStr
  contentsHtml : JStr → JStr → JStr → Option JStr
  domAnchors : JStr → Option (List JStr)

/-- Push an issue onto `repoData.issues[branch][filepath]` (which the caller
has initialised with `??= []`). -/
def pushRepoIssue (d : GithubRepoData) (key : JStr × JStr) (i : Issue) : GithubRepoData :=
  { d with issues := assocSet d.issues key ((assoc d.issues key).getD [] ++ [i]) }

/-- The body of `resolveGroupedLinks`'s loop for a single GitHub renderable
file link: the updated cache plus the list of API fetches performed for this
link.  (The source's `missing_anchor` pushes here carry no `allAnchors` set;
they are modelled with an empty one.) -/
def resolveOneGithubFile (api : GithubApi) (fuel : Nat) (resolved : GroupedLinksResolved)
    (link : GithubFileLink) : GroupedLinksResolved × List ApiFetch :=
  let parsed := Part000.parseLink link.originalReference
  let reference := parsed.root
  let anchor := parsed.anchor
  if anchor = some (str "#readme") && link.isDirREADME then (resolved, [])   -- fast path
  else
    let fetchedBranches :=
      if (assoc resolved link.repository).isSome then none
      else some (getBranches (api.branchPages link.repository) fuel)
    let resolved :=
      match fetchedBranches with
      | none => resolved
      | some fetched =>
        assocSet resolved link.repository { allBranches := fetched.1, anchors := [], issues := [] }
    let ev0 :=
      match fetchedBranches with
      | none => []
      | some fetched => fetched.2.map (ApiFetch.branchPage link.repository)
    let repoData := (assoc resolved link.repository).getD
      { allBranches := [], anchors := [], issues := [] }
    let bf := parseGithubFilepathWithBranch link.path repoData.allBranches
    let branch := bf.branch.getD []
    let filepath := bf.filepath
    let key := (branch, filepath)
    -- issues[branch][filepath] ??= []
    let repoData :=
      if (assoc repoData.issues key).isSome then repoData
      else { repoData with issues := assocSet repoData.issues key [] }
    -- If its an already fetched file
    let anchorsCached := assoc repoData.anchors key
    let missingInCache : Bool :=
      match anchor, anchorsCached with
      | some a, some cached => ! cached.contains a
      | _, _ => false
    if missingInCache then
      let repoData := pushRepoIssue repoData key
        (Issue.missing_anchor reference ((anchor).getD []) [])
      (assocSet resolved link.repository repoData, ev0)
    else
      -- Haven't been fetched before. Manage that:
      let content :=
        if link.isDirREADME then api.readmeHtml link.repository filepath branch
        else api.contentsHtml link.repository filepath branch
      let ev1 :=
        if link.isDirREADME then [ApiFetch.readme link.repository filepath branch]
        else [ApiFetch.contents link.repository filepath branch]
      match content with
      | none =>
        let repoData := pushRepoIssue repoData key
          (Issue.not_ok_response reference 404 (str "Not found"))
        (assocSet resolved link.repository repoData, ev0 ++ ev1)
      | some html =>
        match api.domAnchors html with
        | none =>
          let repoData := pushRepoIssue repoData key (Issue.empty_dom reference)
          (assocSet resolved link.repository repoData, ev0 ++ ev1)
        | some allAnchors =>
          let repoData :=
            match anchor with
            | some a =>
              if ¬ allAnchors.contains a then
                pushRepoIssue repoData key (Issue.missing_anchor reference a [])
              else repoData
            | none => repoData
          let repoData := { repoData with anchors := assocSet repoData.anchors key allAnchors }
          (assocSet resolved link.repository repoData, ev0 ++ ev1)

/-- `groupLinks`: classify external links, putting GitHub renderable-file
links (directory READMEs via the `tree`/`#readme` pattern, other renderable
files via the `blob` pattern) into the GitHub group.  Links on which the `URL`
constructor would throw cannot occur here (the caller only passes validated
absolute URLs); they are returned in `other`. -/
def groupLinks (urls : List JStr) : List GithubFileLink × List JStr :=
  urls.foldl (fun acc href =>
    match parseURL href with
    | none => (acc.1, acc.2 ++ [href])
    | some url =>
      if isGithubReadmeWithAnchorUrl url then
        (acc.1 ++ [{ repository := (parseGithubUrl url).1, path := (parseGithubUrl url).2,
                     originalReference := href, isDirREADME := true }], acc.2)
      else if isGithubRenderableFileWithAnchorUrl url then
        (acc.1 ++ [{ repository := (parseGithubUrl url).1, path := (parseGithubUrl url).2,
                     originalReference := href, isDirREADME := false }], acc.2)
      else (acc.1, acc.2 ++ [href])) ([], [])

end GroupLinks

namespace Issues
/-!
## `src/issues.ts`
-/

/-- `getSearchString` (final iteration): the `from` URL for `redirected`, the
`reference` for every other kind. -/
def getSearchString (issue : Issue) : JStr :=
  match issue with
  | .redirected fromUrl _ => fromUrl
  | .not_ok_response reference _ _ => reference
  | .no_response reference => reference
  | .missing_anchor reference _ _ => reference
  | .empty_dom reference => reference
  | .disallow_extension reference _ => reference
  | .wrong_extension reference _ _ => reference
  | .linked_file_not_found _ reference => reference
  | .unknown_link_format reference => reference
  | .empty_anchor reference => reference
  | .local_alt_available reference _ => reference
  | .inaccessible reference _ => reference

/-- The `while (haystack.includes(needle))` loop of `getColumns`, with fuel.
Each iteration pushes `haystack.indexOf(needle) + 1` — an index *relative to
the already-sliced haystack* — and then slices the haystack just past the
found start. -/
def getColumnsGo (needle : JStr) : Nat → JStr → List Nat
  | 0, _ => []
  | fuel + 1, hay =>
    match indexOfSub hay needle with
    | none => []
    | some i => (i + 1) :: getColumnsGo needle fuel (hay.drop (i + 1))

/-- `getColumns`.  Fuel `haystack.length + 1` suffices because every iteration
drops at least one character (for the degenerate empty needle on an exhausted
haystack the source loops forever; the model stops). -/
def getColumns (hay needle : JStr) : List Nat :=
  getColumnsGo needle (hay.length + 1) hay

/-- One chunk step of `findStringLocations`' `for await` loop.  State:
`(tempLine, currentLine, locations)`. -/
def findStringLocationsStep (searchString : JStr)
    (st : JStr × Nat × List (Nat × List Nat × JStr)) (chunk : JStr) :
    JStr × Nat × List (Nat × List Nat × JStr) :=
  let lines := splitChar '\n' chunk
  let tempLine := st.1 ++ lines.headD []        -- tempLine += lines.shift()
  let rest := lines.tail
  if rest.length ≤ 1 then (tempLine, st.2.1, st.2.2)
  else
    let locations :=
      if hasSub tempLine searchString then
        st.2.2 ++ [(st.2.1, getColumns tempLine searchString, tempLine)]
      else st.2.2
    let currentLine := st.2.1 + 1
    let newTemp := rest.getLastD []             -- tempLine = lines.pop()
    let middle := rest.dropLast
    let final := middle.foldl (fun acc line =>
      ((if hasSub line searchString then
          acc.2 ++ [(acc.1, getColumns line searchString, line)]
        else acc.2) |> fun locs => (acc.1 + 1, locs))) (currentLine, locations)
    (newTemp, final.1, final.2)

/-- `findStringLocations`, as a function of the sequence of chunks the file
stream yields (the chunking is runtime-determined; a small file arrives as a
single chunk).  Note that the final `tempLine` is never examined after the
loop. -/
def findStringLocations (chunks : List JStr) (searchString : JStr) :
    List (Nat × List Nat × JStr) :=
  (chunks.foldl (findStringLocationsStep searchString) ([], 1, [])).2.2

end Issues

namespace Website
/-!
## `src/website.ts`
-/

/-- Model of `extname` from `deps/std/path` (Node-compatible): the extension
of the basename, empty when there is no dot or the only dot is leading. -/
def extnameJS (p : JStr) : JStr :=
  let base := match breakAtLast '/' p with
    | (a, none) => a
    | (_, some b) => b
  if base = str ".." then []
  else match breakAtLast '.' base with
    | (_, none) => []
    | ([], some _) => []
    | (_ :: _, some suf) => '.' :: suf

/-- The path-library collaborators of `checkRelativeLink` (`join`, `relative`,
`resolve` from `deps/std/path`), abstracted as parameters. -/
structure PathLib where
  joinP : List JStr → JStr
  relativeP : JStr → JStr → JStr
  resolveP : JStr → JStr

/-- The root/anchor computation of `checkRelativeLink`, up to the extension
policy: the decoded link, the normalized-and-processed `root`, the `anchor`,
and the extension-policy issues pushed along the way. -/
def relativeLinkParts (pl : PathLib) (localLink : JStr) (dirRoot dirCurrent : JStr)
    (indexFile : JStr) (isCleanUrl allowHtmlExtension : Bool) :
    JStr × JStr × Option JStr × List Issue :=
  let localLink := decodeURIComponentTotal localLink
  let normalizedLocalLink := decodeURIComponentTotal
    (if jsStartsWith (str "/") localLink then
       pl.relativeP (pl.resolveP dirCurrent) (pl.resolveP (pl.joinP [dirRoot, str "./", localLink]))
     else localLink)
  let parsed := Part000.parseLink normalizedLocalLink
  let root := parsed.root
  let anchor := parsed.anchor
  if isCleanUrl then
    if extnameJS root = str ".html" then
      (localLink, root.take (root.length - 4) ++ str "md", anchor,
       [Issue.disallow_extension localLink (str "html")])
    else if extnameJS root = str ".md" then
      (localLink, root, anchor, [Issue.disallow_extension localLink (str "md")])
    else if jsEndsWith (str "/") root then
      (localLink, root ++ indexFile, anchor, [])
    else if ((! hasSub localLink (str "#")) && jsEndsWith (str "/") localLink)
        || hasSub localLink (str "/#") then
      (localLink, root ++ '/' :: indexFile, anchor, [])
    else
      (localLink, root ++ str ".md", anchor, [])
  else
    let step1 : JStr × List Issue :=
      if extnameJS root = str ".html" then
        (root.take (root.length - 4) ++ str "md",
         if ! allowHtmlExtension then
           [Issue.wrong_extension localLink (str ".html") (str ".md")]
         else [])
      else (root, [])
    let root := step1.1
    let root :=
      if extnameJS root ≠ str ".md" then
        (if ! jsEndsWith (str "/") root then root ++ ['/'] else root) ++ indexFile
      else root
    (localLink, root, anchor, step1.2)

/-- Result of `checkRelativeLink`, extended with the log of `lstat` calls
made. -/
structure CheckRelativeResult where
  anchor : Option JStr
  issues : List Issue
  path : JStr
  statCalls : List JStr
deriving DecidableEq

/-- `checkRelativeLink`: after computing the candidate `root`, a root
containing `//` raises `NotFound` *before* `Deno.lstat` is consulted; the
`NotFound` handler reports `linked_file_not_found`.  The filesystem is the
oracle `fsExists` (any other `lstat` error would propagate and is not
modelled). -/
def checkRelativeLink (pl : PathLib) (fsExists : JStr → Bool) (localLink : JStr)
    (dirRoot dirCurrent : JStr) (indexFile : JStr) (isCleanUrl allowHtmlExtension : Bool) :
    CheckRelativeResult :=
  let parts := relativeLinkParts pl localLink dirRoot dirCurrent indexFile
    isCleanUrl allowHtmlExtension
  let decodedLink := parts.1
  let root := parts.2.1
  let anchor := parts.2.2.1
  let issues := parts.2.2.2
  let path := pl.joinP [dirCurrent, root]
  let notFoundIssue := Issue.linked_file_not_found (pl.resolveP path)
    (decodeURIComponentTotal decodedLink)
  if hasSub root (str "//") then
    { anchor := anchor, issues := issues ++ [notFoundIssue], path := path, statCalls := [] }
  else if fsExists path then
    { anchor := anchor, issues := issues, path := path, statCalls := [path] }
  else
    { anchor := anchor, issues := issues ++ [notFoundIssue], path := path, statCalls := [path] }

/-- An event of the crawl, as seen by the used-anchor map: registration of a
key for a read file or a local link target, or one external (non-grouped)
link occurrence inside a file. -/
inductive CrawlEvent where
  | registerKey (key : JStr)
  | externalLink (filepath : JStr) (link : JStr)
deriving DecidableEq

/-- The crawl state relevant to external-link fetching: the key set of
`usedAnchors`, the `externalLinkIssues` cache, the per-file `issues` record,
and the chronological log of roots fetched (the per-root anchor sets and the
`allAnchors` record do not influence fetching and are omitted). -/
structure CrawlState where
  usedRoots : List JStr
  externalLinkIssues : List (JStr × List Issue)
  fileIssues : List (JStr × List Issue)
  fetchLog : List JStr
deriving DecidableEq

/-- `issues[filepath] ??= []; issues[filepath].push(...newIssues)`. -/
def pushFileIssues (filepath : JStr) (newIssues : List Issue)
    (m : List (JStr × List Issue)) : List (JStr × List Issue) :=
  match assoc m filepath with
  | some l => assocSet m filepath (l ++ newIssues)
  | none => m ++ [(filepath, newIssues)]

/-- One step of `readMarkdownFiles`' external-link loop (the `deno.land`
`local_alt_available` report, which touches neither `usedAnchors` nor the
fetch, is omitted).  `checkIssues root` is the issue list
`checkExternalUrl(root, …).issues` would produce — `checkExternalUrl` always
returns an object, so a fetched root is never deleted from `usedAnchors`. -/
def crawlStep (checkIssues : JStr → List Issue) (s : CrawlState) :
    CrawlEvent → CrawlState
  | .registerKey k =>
    if k ∈ s.usedRoots then s else { s with usedRoots := k :: s.usedRoots }
  | .externalLink filepath link =>
    let root := (Part000.parseLink link).root
    let s :=
      match assoc s.externalLinkIssues root with
      | some cached =>
        if cached.length > 0 then
          { s with fileIssues := pushFileIssues filepath cached s.fileIssues }
        else s
      | none => s
    if root ∈ s.usedRoots then s
    else
      let fetchedIssues := checkIssues root
      { usedRoots := root :: s.usedRoots,
        externalLinkIssues :=
          if fetchedIssues.length > 0 then s.externalLinkIssues ++ [(root, fetchedIssues)]
          else s.externalLinkIssues,
        fileIssues :=
          if fetchedIssues.length > 0 then pushFileIssues filepath fetchedIssues s.fileIssues
          else s.fileIssues,
        fetchLog := s.fetchLog ++ [root] }

/-- The external-link part of a whole crawl: fold `crawlStep` over the events
of all documents in traversal order. -/
def crawlExternalLinks (checkIssues : JStr → List Issue) (s0 : CrawlState)
    (events : List CrawlEvent) : CrawlState :=
  events.foldl (crawlStep checkIssues) s0

end Website

namespace Fetch
/-!
## `src/fetch.ts` — `checkExternalUrl`
-/

/-- The response fields `checkExternalUrl` inspects: status, status text,
headers, final URL (`response.url`), and body text. -/
structure Resp where
  status : Nat
  statusText : JStr
  headers : List (JStr × JStr)
  rurl : JStr
  body : JStr

/-- The `ResponseInfo` produced by `fetchWithRetries`. -/
structure RespInfo where
  response : Option Resp
  redirected : Bool
  redirectedUrl : JStr

/-- `Response.ok`: status in the 200–299 range. -/
def respOk (r : Resp) : Bool := 200 ≤ r.status && r.status ≤ 299

/-- `response.headers.has(name)` (header names stored lower-cased). -/
def headerHas (r : Resp) (name : JStr) : Bool := (assoc r.headers name).isSome

/-- `response.headers.get(name)`. -/
def headerGet (r : Resp) (name : JStr) : Option JStr := assoc r.headers name

/-- The Cloudflare-warning reason strings (presentation text, abbreviated). -/
def cloudflareReasonProtected : JStr :=
  str "The website is protected by Cloudflare DDoS Protection Services."

/-- Reason used when the Cloudflare signature fires for an unlisted host. -/
def cloudflareReasonUnlisted : JStr :=
  str "The website is protected by Cloudflare DDoS Protection Services. (unlisted host)"

/-- Reason used when a listed host shows no Cloudflare signature. -/
def cloudflareReasonStale : JStr :=
  str "The site currently seems to not have Cloudflare protection enabled."

/-- Result of `checkExternalUrl`, extended with the URL actually fetched. -/
structure CheckExternalResult where
  issues : List Issue
  anchors : Option (List JStr)
  fetchedUrl : JStr

/-- `checkExternalUrl`, as a function of the URL, the `ResponseInfo` the
retrying fetch produced for the transformed URL, and the DOM collaborator
`domAnchors` (`domParser.parseFromString` + `getAnchors`; `none` models a
parse failure, which the `catch` turns into `empty_dom`).  The result is
`none` when the `URL` constructor would throw (unparseable `url` or
`redirectedUrl`); content-type inspection only logs and is omitted. -/
def checkExternalUrl (domAnchors : JStr → Option (List JStr)) (url : JStr)
    (info : RespInfo) : Option CheckExternalResult :=
  match Fetch.transformURL url with
  | none => none
  | some transformed =>
    match info.response with
    | none =>
      some { issues := [Issue.no_response url], anchors := none, fetchedUrl := transformed }
    | some response =>
      match parseURL url with
      | none => none
      | some u =>
        let hostname := u.hostname
        if response.status = 403 &&
            (headerHas response (str "cf-ray") || headerHas response (str "cf-mitigated") ||
             headerGet response (str "server") = some (str "cloudflare")) then
          some { issues := [Issue.inaccessible url
                   (if ! CLOUDFLARE_PROTECTED.contains hostname then cloudflareReasonUnlisted
                    else cloudflareReasonProtected)],
                 anchors := none, fetchedUrl := transformed }
        else
          let issues0 : List Issue :=
            if CLOUDFLARE_PROTECTED.contains hostname then
              [Issue.inaccessible url cloudflareReasonStale]
            else []
          if info.redirected && MANUAL_REDIRECTIONS.contains transformed then
            some { issues := issues0, anchors := none, fetchedUrl := transformed }
          else
            let redirectIssues : Option (List Issue) :=
              if info.redirected then
                match parseURL transformed, parseURL info.redirectedUrl with
                | some a, some b =>
                  some (if ! isValidRedirection a b then
                          [Issue.redirected url response.rurl]
                        else [])
                | _, _ => none
              else some []
            match redirectIssues with
            | none => none
            | some redirectIssues =>
              let issues1 := issues0 ++ redirectIssues
              if ! respOk response && assoc ACCEPTABLE_NOT_OK_STATUS url ≠ some response.status then
                some { issues := issues1 ++
                         [Issue.not_ok_response url response.status response.statusText],
                       anchors := none, fetchedUrl := transformed }
              else
                match domAnchors response.body with
                | none =>
                  some { issues := issues1 ++ [Issue.empty_dom url],
                         anchors := none, fetchedUrl := transformed }
                | some anchors =>
                  some { issues := issues1, anchors := some anchors,
                         fetchedUrl := transformed }

end Fetch

namespace Fixer
/-!
## The `--fix` loop of the final CLI (`src/unnamed/part_007`)
-/

/-- `Location` from `src/types.ts`. -/
structure Location where
  line : Nat
  columns : List Nat
deriving DecidableEq

/-- `Stack` from `src/types.ts`. -/
structure Stack where
  filepath : JStr
  locations : List Location
deriving DecidableEq

/-- `IssueWithStack`. -/
structure IssueWithStack where
  issue : Issue
  stack : List Stack
deriving DecidableEq

/-- One group of `grouped` (`Record<Issue["type"], IssueWithStack[]>` entry);
every record in `recs` has `gtype` as its issue type. -/
structure TypedGroup where
  gtype : IssueType
  recs : List IssueWithStack
deriving DecidableEq

/-- The `grouped` map, in key order. -/
abbrev Grouped := List TypedGroup

/-- `getFixedString`.  The Jaro–Winkler similarity test of
`getPossibleMatches` is the Boolean parameter `close`.  For non-fixable kinds
the source throws; call sites guard with `isFixableIssueType`, modelled as
`none`. -/
def getFixedString (close : JStr → JStr → Bool) (issue : Issue) :
    Option (JStr × JStr) :=
  match issue with
  | .redirected fromUrl toUrl => some (fromUrl, toUrl)
  | .missing_anchor reference anchor allAnchors =>
    let root := (Part000.parseLink (decodeURIComponentTotal reference)).root
    match Part000.getPossibleMatches close anchor allAnchors with
    | [] => none
    | possible :: _ => some (reference, root ++ '#' :: possible)
  | .empty_anchor reference => some (reference, reference.take (reference.length - 1))
  | .wrong_extension reference actual expected =>
    let root := (Part000.parseLink reference).root
    some (root, root.take (root.length - actual.length) ++ expected)
  | .disallow_extension reference extension =>
    let root := (Part000.parseLink reference).root
    some (root, root.take (root.length - (extension.length + 1)))
  | _ => none

/-- The per-issue field rewrite of the "update all issues with same
references" step (`String.prototype.replace`: first occurrence only). -/
def updateIssueStrings (old new : JStr) : Issue → Issue
  | .redirected fromUrl toUrl => .redirected (replaceFirst old new fromUrl) toUrl
  | .empty_anchor reference => .empty_anchor (replaceFirst old new reference)
  | .missing_anchor reference anchor allAnchors =>
    .missing_anchor (replaceFirst old new reference) anchor allAnchors
  | .disallow_extension reference extension =>
    .disallow_extension (replaceFirst old new reference) extension
  | .wrong_extension reference actual expected =>
    .wrong_extension (replaceFirst old new reference) actual expected
  | i => i

/-- Update one record: only when every file in its own stack is among the
places just rewritten (`fixedPlaces`). -/
def updateRec (fixedPlaces : List JStr) (old new : JStr) (r : IssueWithStack) :
    IssueWithStack :=
  if r.stack.any (fun st => ! fixedPlaces.contains st.filepath) then r
  else { r with issue := updateIssueStrings old new r.issue }

/-- Update one group: the `break` on the first non-fixable issue skips whole
(homogeneous) non-fixable groups. -/
def updateGroup (fixedPlaces : List JStr) (old new : JStr) (g : TypedGroup) :
    TypedGroup :=
  if isFixableIssueType g.gtype then
    { g with recs := g.recs.map (updateRec fixedPlaces old new) }
  else g

/-- A pending cross-reference update: the rewritten places and the
`(old, new)` pair. -/
abbrev RefUpdate := List JStr × JStr × JStr

/-- Apply a chronological list of cross-reference updates to a group. -/
def applyUpdatesGroup (updates : List RefUpdate) (g : TypedGroup) : TypedGroup :=
  updates.foldl (fun g u => updateGroup u.1 u.2.1 u.2.2 g) g

/-- Result of processing one fixable group's records. -/
structure RecsResult where
  before : Grouped
  recs : List IssueWithStack
  updates : List RefUpdate
  cnt : Nat

/-- Process the records of one fixable group in order.  For each record with
a fix string: its non-`ref/` stack entries are rewritten on disk and removed
(their count is the number of fixes made), the record is deleted when its
stack empties, and the cross-reference update is applied to every group
(`before` here; later groups receive the collected `updates` list) and to the
current group's records. -/
def processRecs (close : JStr → JStr → Bool) (before : Grouped)
    (done : List IssueWithStack) (todo : List IssueWithStack) (cnt : Nat) :
    RecsResult :=
  match todo with
  | [] => { before := before, recs := done, updates := [], cnt := cnt }
  | r :: rest =>
    match getFixedString close r.issue with
    | none => processRecs close before (done ++ [r]) rest cnt
    | some (old, new) =>
      let fixedPlaces :=
        (r.stack.filter (fun st => ! jsStartsWith (str "ref/") st.filepath)).map (·.filepath)
      let newStack := r.stack.filter (fun st => jsStartsWith (str "ref/") st.filepath)
      let c := r.stack.length - newStack.length
      let done' := done ++ (if newStack.isEmpty then [] else [{ r with stack := newStack }])
      let res := processRecs close
        (before.map (updateGroup fixedPlaces old new))
        (done'.map (updateRec fixedPlaces old new))
        (rest.map (updateRec fixedPlaces old new))
        (cnt + c)
      { res with updates := (fixedPlaces, old, new) :: res.updates }
termination_by todo.length
decreasing_by
  all_goals simp

/-- Process the groups in key order (a round of the fix loop): non-fixable
types are skipped; after a fixable group is processed, its group is deleted
when it has no records left, and the pending cross-reference updates are
applied to the remaining groups. -/
def processGroups (close : JStr → JStr → Bool) (done : Grouped) :
    (todo : Grouped) → Nat → Grouped × Nat
  | [], cnt => (done, cnt)
  | g :: rest, cnt =>
    if isFixableIssueType g.gtype then
      let res := processRecs close done [] g.recs 0
      let doneWithGroup := res.before ++
        (if res.recs.isEmpty then [] else [{ gtype := g.gtype, recs := res.recs }])
      processGroups close doneWithGroup (rest.map (applyUpdatesGroup res.updates))
        (cnt + res.cnt)
    else processGroups close (done ++ [g]) rest cnt
termination_by todo => todo.length
decreasing_by
  all_goals simp

/-- One round of the `do`–`while (fixesMadeThisRound != 0)` loop: the updated
`grouped` map and the number of fixes (file rewrites) made this round. -/
def fixRound (close : JStr → JStr → Bool) (g : Grouped) : Grouped × Nat :=
  processGroups close [] g 0

/-- The fix loop, with fuel: keep running rounds until a round makes zero
fixes.  Returns the final state and the total number of fixes made. -/
def fixRunGo (close : JStr → JStr → Bool) : Nat → Grouped → Grouped × Nat
  | 0, g => (g, 0)
  | fuel + 1, g =>
    let r := fixRound close g
    if r.2 = 0 then (r.1, 0)
    else
      let rest := fixRunGo close fuel r.1
      (rest.1, r.2 + rest.2)

/-- Total number of stack entries across the whole `grouped` map. -/
def totalStackSize (g : Grouped) : Nat :=
  (g.map (fun tg => (tg.recs.map (fun r => r.stack.length)).sum)).sum

/-- A complete run of the fixer: every round with a non-zero fix count makes
the total stack size strictly smaller, so `totalStackSize g + 1` rounds always
reach the zero-fix round the source loop stops at. -/
def fixRun (close : JStr → JStr → Bool) (g : Grouped) : Grouped × Nat :=
  fixRunGo close (totalStackSize g + 1) g

/-- Every deduplicated record has at least one occurrence: true of every
state `processIssues` builds, and preserved by the fixer (a record whose
stack empties is deleted on the spot). -/
def StacksNonempty (g : Grouped) : Prop :=
  ∀ tg ∈ g, ∀ r ∈ tg.recs, r.stack ≠ []

/-- The record-list form of `StacksNonempty`. -/
def RecsNonempty (l : List IssueWithStack) : Prop :=
  ∀ r ∈ l, r.stack ≠ []

/-- Every group of the `grouped` map has at least one record: true of the
map `processIssues` builds (a group is created with its first record), and
preserved by the fixer (a group whose record list empties is deleted). -/
def GroupsNonempty (g : Grouped) : Prop :=
  ∀ tg ∈ g, tg.recs ≠ []

/-- Total number of stack entries in a record list. -/
def sizeRecs (l : List IssueWithStack) : Nat :=
  (l.map (fun r => r.stack.length)).sum

end Fixer

/-!
## Auxiliary definitions used in theorem statements
-/

/-- Drop an empty fragment (`…#` and `…` serialize to URLs the code treats
identically: `url.hash` is empty for both). -/
def URLRec.dropEmptyFragment (u : URLRec) : URLRec :=
  if u.fragment = some [] then { u with fragment := none } else u

/-- Is a fetch outcome one the retry policy retries on: a network-level
exception, or a response with status 408 or ≥ 500? -/
def Fetch.FetchOutcome.retryable : Fetch.FetchOutcome → Bool
  | .exception => true
  | .response s => s = 408 || decide (500 ≤ s)

/-- A branch name is a path-prefix-match against a path: its `/`-segments are
a position-wise prefix of the path's `/`-segments. -/
def GroupLinks.branchMatches (path branch : JStr) : Prop :=
  splitChar '/' branch <+: splitChar '/' path

instance (path branch : JStr) : Decidable (GroupLinks.branchMatches path branch) := by
  unfold GroupLinks.branchMatches
  exact inferInstance

/-- The retry-policy contract of the fetch loop, for the sub-run starting at
attempt index `retries` (with `retryOnFail = true`): at least one and at most
`maxRetries + 1 - retries` attempts; a fixed 3-second delay before every
retry (and before the first attempt of a sub-run that is itself a retry);
every non-final attempt had a retryable outcome; a returned response is the
final attempt's status and is not retryable (not a 408/5xx); and if every
attempt throws, the returned response is `none`. -/
def Fetch.fetchRunSpec (maxRetries : Nat) (trace : Nat → Fetch.FetchOutcome)
    (retries : Nat) (run : Fetch.FetchRun) : Prop :=
  1 ≤ run.attempts
  ∧ retries + run.attempts ≤ maxRetries + 1
  ∧ run.sleeps = (if retries > 0 then [3000] else []) ++
      List.replicate (run.attempts - 1) 3000
  ∧ (∀ i, retries ≤ i → i + 1 < retries + run.attempts → (trace i).retryable = true)
  ∧ (∀ s, run.response = some s →
      trace (retries + run.attempts - 1) = .response s ∧ ¬(s = 408 ∨ 500 ≤ s))
  ∧ ((∀ i, retries ≤ i → i ≤ maxRetries → trace i = .exception) → run.response = none)

/-!
# Theorems
-/

/-- Claim C10: for every local relative link whose normalized root path
contains two consecutive slashes `//`, `checkRelativeLink` reports a
`linked_file_not_found` issue without consulting the filesystem — for *any*
filesystem oracle, including one on which a file exists at the joined
candidate path. -/
theorem c10_double_slash_skips_lstat
    (pl : Website.PathLib) (fsExists : JStr → Bool)
    (localLink dirRoot dirCurrent indexFile : JStr)
    (isCleanUrl allowHtmlExtension : Bool)
    (h : hasSub (Website.relativeLinkParts pl localLink dirRoot dirCurrent indexFile
          isCleanUrl allowHtmlExtension).2.1 (str "//") = true) :
    (Website.checkRelativeLink pl fsExists localLink dirRoot dirCurrent indexFile
        isCleanUrl allowHtmlExtension).statCalls = [] ∧
    (∃ fp ref, Issue.linked_file_not_found fp ref ∈
      (Website.checkRelativeLink pl fsExists localLink dirRoot dirCurrent indexFile
        isCleanUrl allowHtmlExtension).issues) := by
  unfold Website.checkRelativeLink
  simp only [h, if_true]
  refine ⟨?_, _, _, List.mem_append_right _ (List.mem_singleton.mpr rfl)⟩
  simp

/-- Witness for C10 at a concrete input: link `./a//b.md` in extension mode,
over a filesystem where every path exists. -/
theorem c10_double_slash_skips_lstat_witness :
    (Website.checkRelativeLink
        { joinP := joinChar '/', relativeP := fun _ b => b, resolveP := id }
        (fun _ => true) (str "./a//b.md") (str ".") (str ".") (str "README.md")
        false false).statCalls = [] ∧
    (∃ fp ref, Issue.linked_file_not_found fp ref ∈
      (Website.checkRelativeLink
        { joinP := joinChar '/', relativeP := fun _ b => b, resolveP := id }
        (fun _ => true) (str "./a//b.md") (str ".") (str ".") (str "README.md")
        false false).issues) :=
  c10_double_slash_skips_lstat _ _ _ _ _ _ _ _ (by decide)

/-- Claim C8 (code bug): the locator does *not* find every line and 1-based
column of the search string.  (1) A search string occurring only on the last
line of a file is never located — the final `tempLine` is never examined —
even though the occurrence is there (`occursAt … 4`), so the record's own
PANIK invariant ("search strings have at least one occurrence in the
corresponding file") is violated.  (2) Columns after the first in a line are
relative to the already-sliced haystack: for `"x ab ab"` and needle `"ab"`
the occurrences are at 1-based columns 3 and 6, but `getColumns` reports
`[3, 3]` and never the true column 6. -/
theorem c8_locator_misses_occurrences :
    Issues.findStringLocations [str "see https://example.com for details"]
        (str "https://example.com") = []
    ∧ occursAt (str "see https://example.com for details") (str "https://example.com") 4 = true
    ∧ Issues.findStringLocations [str "x ab ab\ny\n"] (str "ab") = [(1, [3, 3], str "x ab ab")]
    ∧ occursAt (str "x ab ab") (str "ab") 2 = true
    ∧ occursAt (str "x ab ab") (str "ab") 5 = true
    ∧ ¬ (6 ∈ Issues.getColumns (str "x ab ab") (str "ab"))
    ∧ Issues.getSearchString (Issue.redirected (str "http://a/x") (str "http://b/y")) =
        str "http://a/x" := by
  decide

/-- Claim C6 (code bug): for the directory-README link
`https://github.com/o/r#readme` — which `groupLinks` groups as a
directory-README-style link, and whose URL anchor is literally `#readme` —
the resolver does *not* skip resolution: `parseLink` strips the `#` from the
anchor, so the fast-path comparison `anchor === "#readme"` fails, and the
resolver fetches the repository branch list and the README through the
content API. -/
theorem c6_readme_fast_path_not_taken :
    (parseURL (str "https://github.com/o/r#readme")).map
        GroupLinks.isGithubReadmeWithAnchorUrl = some true
    ∧ (parseURL (str "https://github.com/o/r#readme")).map URLRec.hash =
        some (str "#readme")
    ∧ GroupLinks.groupLinks [str "https://github.com/o/r#readme"] =
        ([{ repository := str "o/r", path := [],
            originalReference := str "https://github.com/o/r#readme",
            isDirREADME := true }], [])
    ∧ (GroupLinks.resolveOneGithubFile
        { branchPages := fun _ _ => [], readmeHtml := fun _ _ _ => some [],
          contentsHtml := fun _ _ _ => some [], domAnchors := fun _ => some [] }
        5 []
        { repository := str "o/r", path := [],
          originalReference := str "https://github.com/o/r#readme",
          isDirREADME := true }).2 =
      [GroupLinks.ApiFetch.branchPage (str "o/r") 1,
       GroupLinks.ApiFetch.readme (str "o/r") [] []] := by
  decide

namespace Fetch

theorem fetchGo_stop_nonretry (maxRetries : Nat) (trace : Nat → FetchOutcome)
    (retries : Nat) (s : Nat) (h : trace retries = .response s)
    (hnr : ¬(s = 408 ∨ 500 ≤ s)) :
    getFetchWithRetriesGo true maxRetries trace retries none =
      { response := some s, attempts := 1,
        sleeps := if retries > 0 then [3000] else [] } := by
  rw [getFetchWithRetriesGo]
  simp [h, hnr]

theorem fetchGo_step_exception (maxRetries : Nat) (trace : Nat → FetchOutcome)
    (retries : Nat) (h : trace retries = .exception) (hlt : retries < maxRetries) :
    getFetchWithRetriesGo true maxRetries trace retries none =
      { response := (getFetchWithRetriesGo true maxRetries trace (retries + 1) none).response,
        attempts := (getFetchWithRetriesGo true maxRetries trace (retries + 1) none).attempts + 1,
        sleeps := (if retries > 0 then [3000] else []) ++
          (getFetchWithRetriesGo true maxRetries trace (retries + 1) none).sleeps } := by
  rw [getFetchWithRetriesGo]
  simp [h, hlt]

theorem fetchGo_step_retry_response (maxRetries : Nat) (trace : Nat → FetchOutcome)
    (retries : Nat) (s : Nat) (h : trace retries = .response s)
    (hr : s = 408 ∨ 500 ≤ s) (hlt : retries < maxRetries) :
    getFetchWithRetriesGo true maxRetries trace retries none =
      { response := (getFetchWithRetriesGo true maxRetries trace (retries + 1) none).response,
        attempts := (getFetchWithRetriesGo true maxRetries trace (retries + 1) none).attempts + 1,
        sleeps := (if retries > 0 then [3000] else []) ++
          (getFetchWithRetriesGo true maxRetries trace (retries + 1) none).sleeps } := by
  rw [getFetchWithRetriesGo]
  simp [h, hr, hlt, Nat.le_of_lt hlt]

theorem fetchGo_stop_exception_at_max (maxRetries : Nat) (trace : Nat → FetchOutcome)
    (h : trace maxRetries = .exception) :
    getFetchWithRetriesGo true maxRetries trace maxRetries none =
      { response := none, attempts := 1,
        sleeps := if maxRetries > 0 then [3000] else [] } := by
  rw [getFetchWithRetriesGo]
  simp [h]

theorem fetchGo_stop_retry_at_max (maxRetries : Nat) (trace : Nat → FetchOutcome)
    (s : Nat) (h : trace maxRetries = .response s) (hr : s = 408 ∨ 500 ≤ s) :
    getFetchWithRetriesGo true maxRetries trace maxRetries none =
      { response := none, attempts := 1,
        sleeps := if maxRetries > 0 then [3000] else [] } := by
  rw [getFetchWithRetriesGo]
  simp [h, hr]

theorem fetchGo_spec_step (maxRetries : Nat) (trace : Nat → FetchOutcome) (retries : Nat)
    (hretry : (trace retries).retryable = true)
    (hEq : getFetchWithRetriesGo true maxRetries trace retries none =
      { response := (getFetchWithRetriesGo true maxRetries trace (retries + 1) none).response,
        attempts := (getFetchWithRetriesGo true maxRetries trace (retries + 1) none).attempts + 1,
        sleeps := (if retries > 0 then [3000] else []) ++
          (getFetchWithRetriesGo true maxRetries trace (retries + 1) none).sleeps })
    (IH : fetchRunSpec maxRetries trace (retries + 1)
      (getFetchWithRetriesGo true maxRetries trace (retries + 1) none)) :
    fetchRunSpec maxRetries trace retries
      (getFetchWithRetriesGo true maxRetries trace retries none) := by
  obtain ⟨ih1, ih2, ih3, ih4, ih5, ih6⟩ := IH
  rw [fetchRunSpec, hEq]
  refine ⟨by simp, by dsimp only; omega, ?_, ?_, ?_, ?_⟩
  · dsimp only
    rw [ih3]
    obtain ⟨m, hm⟩ :
        ∃ m, (getFetchWithRetriesGo true maxRetries trace (retries + 1) none).attempts = m + 1 :=
      ⟨(getFetchWithRetriesGo true maxRetries trace (retries + 1) none).attempts - 1, by omega⟩
    rw [hm]
    simp [List.replicate_succ]
  · intro i h1 h2
    dsimp only at h2
    rcases Nat.eq_or_lt_of_le h1 with h | h
    · subst h
      exact hretry
    · exact ih4 i h (by omega)
  · intro s hs
    dsimp only at hs ⊢
    have hidx : retries + ((getFetchWithRetriesGo true maxRetries trace (retries + 1) none).attempts + 1) - 1 =
        retries + 1 + (getFetchWithRetriesGo true maxRetries trace (retries + 1) none).attempts - 1 := by
      omega
    rw [hidx]
    exact ih5 s hs
  · intro hexc
    simp only
    exact ih6 (fun i hi1 hi2 => hexc i (by omega) hi2)

theorem fetchGo_spec (maxRetries : Nat) (trace : Nat → FetchOutcome) :
    ∀ k retries, maxRetries - retries = k → retries ≤ maxRetries →
      fetchRunSpec maxRetries trace retries
        (getFetchWithRetriesGo true maxRetries trace retries none) := by
  intro k
  induction k with
  | zero =>
    intro retries hk hle
    have hEq : retries = maxRetries := by omega
    subst hEq
    cases htr : trace retries with
    | exception =>
      rw [fetchRunSpec, fetchGo_stop_exception_at_max _ _ htr]
      refine ⟨by simp, by simp, by simp, ?_, by simp, fun _ => rfl⟩
      intro i h1 h2
      dsimp only at h2
      omega
    | response s =>
      by_cases hr : s = 408 ∨ 500 ≤ s
      · rw [fetchRunSpec, fetchGo_stop_retry_at_max _ _ _ htr hr]
        refine ⟨by simp, by simp, by simp, ?_, by simp, fun _ => rfl⟩
        intro i h1 h2
        dsimp only at h2
        omega
      · rw [fetchRunSpec, fetchGo_stop_nonretry _ _ _ _ htr hr]
        refine ⟨by simp, by simp, by simp, ?_, ?_, ?_⟩
        · intro i h1 h2
          dsimp only at h2
          omega
        · intro s' hs'
          simp only [Option.some.injEq] at hs'
          subst hs'
          exact ⟨by simpa using htr, hr⟩
        · intro hexc
          have := hexc retries (Nat.le_refl _) hle
          rw [htr] at this
          cases this
  | succ k ih =>
    intro retries hk hle
    have hlt : retries < maxRetries := by omega
    have IH := ih (retries + 1) (by omega) (by omega)
    cases htr : trace retries with
    | exception =>
      exact fetchGo_spec_step _ _ _ (by simp [htr, FetchOutcome.retryable])
        (fetchGo_step_exception _ _ _ htr hlt) IH
    | response s =>
      by_cases hr : s = 408 ∨ 500 ≤ s
      · refine fetchGo_spec_step _ _ _ ?_ (fetchGo_step_retry_response _ _ _ _ htr hr hlt) IH
        simp only [htr, FetchOutcome.retryable]
        rcases hr with hr | hr
        · simp [hr]
        · simp [hr]
      · rw [fetchRunSpec, fetchGo_stop_nonretry _ _ _ _ htr hr]
        refine ⟨by simp, by dsimp only; omega, by simp, ?_, ?_, ?_⟩
        · intro i h1 h2
          dsimp only at h2
          omega
        · intro s' hs'
          simp only [Option.some.injEq] at hs'
          subst hs'
          exact ⟨by simpa using htr, hr⟩
        · intro hexc
          have := hexc retries (Nat.le_refl _) hle
          rw [htr] at this
          cases this

end Fetch

/-- Claim C4: with the configuration every caller uses
(`RETRY_FAILED_FETCH = true`, `MAX_RETRIES = 5`), the fetcher makes at most 6
attempts (1 initial + at most 5 retries) with a fixed 3000 ms delay between
attempts; every attempt that is followed by another had a retryable outcome
(a network-level exception, or status 408 or ≥ 500), so no other non-OK
status is ever retried; a returned response is the final attempt's and is not
a 408/5xx; exhaustion with no response at all returns a null response; and
`checkExternalUrl` turns a null response into a single `no_response` issue —
not a `not_ok_response`. -/
theorem c4_retry_policy (trace : Nat → Fetch.FetchOutcome)
    (domAnchors : JStr → Option (List JStr)) (url transformed : JStr)
    (info : Fetch.RespInfo)
    (hurl : Fetch.transformURL url = some transformed)
    (hresp : info.response = none) :
    (1 ≤ (Fetch.getFetchWithRetries true 5 trace).attempts
      ∧ (Fetch.getFetchWithRetries true 5 trace).attempts ≤ 6)
    ∧ (Fetch.getFetchWithRetries true 5 trace).sleeps =
        List.replicate ((Fetch.getFetchWithRetries true 5 trace).attempts - 1) 3000
    ∧ (∀ i, i + 1 < (Fetch.getFetchWithRetries true 5 trace).attempts →
        (trace i).retryable = true)
    ∧ (∀ s, (Fetch.getFetchWithRetries true 5 trace).response = some s →
        trace ((Fetch.getFetchWithRetries true 5 trace).attempts - 1) = .response s
          ∧ ¬(s = 408 ∨ 500 ≤ s))
    ∧ ((∀ i, i ≤ 5 → trace i = .exception) →
        (Fetch.getFetchWithRetries true 5 trace).response = none)
    ∧ Fetch.checkExternalUrl domAnchors url info =
        some { issues := [Issue.no_response url], anchors := none,
               fetchedUrl := transformed } := by
  obtain ⟨h1, h2, h3, h4, h5, h6⟩ := Fetch.fetchGo_spec 5 trace 5 0 rfl (by omega)
  unfold Fetch.getFetchWithRetries
  refine ⟨⟨h1, by omega⟩, by simpa using h3, ?_, ?_, ?_, ?_⟩
  · intro i hi
    exact h4 i (by omega) (by omega)
  · intro s hs
    have := h5 s hs
    simpa using this
  · intro hexc
    exact h6 (fun i _ hi => hexc i hi)
  · simp only [Fetch.checkExternalUrl, hurl, hresp]

/-- Witness for C4: a trace of nothing but network exceptions exhausts all 6
attempts and yields a null response, which `checkExternalUrl` reports as
exactly one `no_response` issue. -/
theorem c4_retry_policy_witness :
    (Fetch.getFetchWithRetries true 5 (fun _ => Fetch.FetchOutcome.exception)).response = none
    ∧ Fetch.checkExternalUrl (fun _ => none) (str "https://t.me/x")
        { response := none, redirected := false, redirectedUrl := [] } =
      some { issues := [Issue.no_response (str "https://t.me/x")], anchors := none,
             fetchedUrl := str "https://telegram.me/x" } := by
  have h := c4_retry_policy (fun _ => Fetch.FetchOutcome.exception) (fun _ => none)
    (str "https://t.me/x") (str "https://telegram.me/x")
    { response := none, redirected := false, redirectedUrl := [] } (by decide) rfl
  exact ⟨h.2.2.2.2.1 (fun i _ => rfl), h.2.2.2.2.2⟩

/-- The fetch log of one external-link step: a fetch happens exactly when the
link's root is not yet a key of `usedAnchors`. -/

theorem crawlStep_externalLink_log (checkIssues : JStr → List Issue)
    (s : Website.CrawlState) (f l : JStr) :
    (Website.crawlStep checkIssues s (.externalLink f l)).fetchLog =
      s.fetchLog ++ (if (Part000.parseLink l).root ∈ s.usedRoots then []
                     else [(Part000.parseLink l).root]) := by
  unfold Website.crawlStep
  cases hca : assoc s.externalLinkIssues ((Part000.parseLink l).root) with
  | none =>
    by_cases hmem : (Part000.parseLink l).root ∈ s.usedRoots <;>
      simp [hca, hmem]
  | some cached =>
    by_cases hc : cached.length > 0 <;>
      by_cases hmem : (Part000.parseLink l).root ∈ s.usedRoots <;>
        simp [hca, hmem, hc]

theorem crawlStep_externalLink_used (checkIssues : JStr → List Issue)
    (s : Website.CrawlState) (f l : JStr) :
    (Website.crawlStep checkIssues s (.externalLink f l)).usedRoots =
      (if (Part000.parseLink l).root ∈ s.usedRoots then []
       else [(Part000.parseLink l).root]) ++ s.usedRoots := by
  unfold Website.crawlStep
  cases hca : assoc s.externalLinkIssues ((Part000.parseLink l).root) with
  | none =>
    by_cases hmem : (Part000.parseLink l).root ∈ s.usedRoots <;>
      simp [hca, hmem]
  | some cached =>
    by_cases hc : cached.length > 0 <;>
      by_cases hmem : (Part000.parseLink l).root ∈ s.usedRoots <;>
        simp [hca, hmem, hc]

theorem crawlStep_externalLink_cache (checkIssues : JStr → List Issue)
    (s : Website.CrawlState) (f l : JStr) :
    (Website.crawlStep checkIssues s (.externalLink f l)).externalLinkIssues =
      s.externalLinkIssues ++
      (if (Part000.parseLink l).root ∈ s.usedRoots then []
       else if (checkIssues ((Part000.parseLink l).root)).length > 0 then
         [(((Part000.parseLink l).root), checkIssues ((Part000.parseLink l).root))]
       else []) := by
  unfold Website.crawlStep
  cases hca : assoc s.externalLinkIssues ((Part000.parseLink l).root) with
  | none =>
    by_cases hmem : (Part000.parseLink l).root ∈ s.usedRoots
    · simp [hca, hmem]
    · by_cases hl : (checkIssues ((Part000.parseLink l).root)).length > 0 <;>
        simp [hca, hmem, hl]
  | some cached =>
    by_cases hc : cached.length > 0 <;>
      by_cases hmem : (Part000.parseLink l).root ∈ s.usedRoots <;>
        (try by_cases hl : (checkIssues ((Part000.parseLink l).root)).length > 0) <;>
          simp [hca, hmem, hc, *]

theorem crawlStep_registerKey_log (checkIssues : JStr → List Issue)
    (s : Website.CrawlState) (k : JStr) :
    (Website.crawlStep checkIssues s (.registerKey k)).fetchLog = s.fetchLog ∧
    (Website.crawlStep checkIssues s (.registerKey k)).externalLinkIssues =
      s.externalLinkIssues ∧
    (Website.crawlStep checkIssues s (.registerKey k)).usedRoots =
      (if k ∈ s.usedRoots then [] else [k]) ++ s.usedRoots := by
  unfold Website.crawlStep
  by_cases hmem : k ∈ s.usedRoots <;> simp [hmem]

theorem assoc_append {α β : Type} [DecidableEq α] (l1 l2 : List (α × β)) (k : α) :
    assoc (l1 ++ l2) k = ((assoc l1 k).orElse (fun _ => assoc l2 k)) := by
  unfold assoc
  rw [List.find?_append]
  cases List.find? (fun p => decide (p.1 = k)) l1 <;> simp

/-- Claim C1: over any crawl (any traversal order of documents and links,
with arbitrary key registrations interleaved), each canonical external root
URL is fetched at most once (the fetch log has no duplicates and no fetched
root was initially cached); every cached issue list a later reference reuses
is exactly the list the single fetch of that root produced (and is non-empty);
and a single external-link step fetches exactly when its root is not yet a key
of `usedAnchors` — the first document referencing a not-yet-seen root triggers
the fetch, every later reference leaves the fetch log unchanged. -/
theorem c1_fetch_at_most_once (checkIssues : JStr → List Issue)
    (events : List Website.CrawlEvent) (s0 : Website.CrawlState)
    (hlog : s0.fetchLog = []) (hcache : s0.externalLinkIssues = []) :
    (Website.crawlExternalLinks checkIssues s0 events).fetchLog.Nodup
    ∧ (∀ r, r ∈ (Website.crawlExternalLinks checkIssues s0 events).fetchLog →
        r ∉ s0.usedRoots)
    ∧ (∀ r lst,
        assoc (Website.crawlExternalLinks checkIssues s0 events).externalLinkIssues r =
          some lst → lst = checkIssues r ∧ lst ≠ [])
    ∧ (∀ s f l, (Website.crawlStep checkIssues s (.externalLink f l)).fetchLog =
        s.fetchLog ++ (if (Part000.parseLink l).root ∈ s.usedRoots then []
                       else [(Part000.parseLink l).root])) := by
  have main : ∀ (evs : List Website.CrawlEvent) (s : Website.CrawlState),
      s.fetchLog.Nodup →
      (∀ r ∈ s.fetchLog, r ∈ s.usedRoots) →
      (∀ r ∈ s.fetchLog, r ∉ s0.usedRoots) →
      (∀ r ∈ s0.usedRoots, r ∈ s.usedRoots) →
      (∀ r lst, assoc s.externalLinkIssues r = some lst →
        lst = checkIssues r ∧ lst ≠ []) →
      (Website.crawlExternalLinks checkIssues s evs).fetchLog.Nodup
      ∧ (∀ r ∈ (Website.crawlExternalLinks checkIssues s evs).fetchLog, r ∉ s0.usedRoots)
      ∧ (∀ r lst,
          assoc (Website.crawlExternalLinks checkIssues s evs).externalLinkIssues r =
            some lst → lst = checkIssues r ∧ lst ≠ []) := by
    intro evs
    induction evs with
    | nil =>
      intro s h1 h2 h3 h4 h5
      exact ⟨h1, h3, h5⟩
    | cons e rest ih =>
      intro s h1 h2 h3 h4 h5
      show (Website.crawlExternalLinks checkIssues (Website.crawlStep checkIssues s e) rest).fetchLog.Nodup ∧ _
      cases e with
      | registerKey k =>
        obtain ⟨e1, e2, e3⟩ := crawlStep_registerKey_log checkIssues s k
        refine ih _ (by rw [e1]; exact h1) (by rw [e1, e3]; intro r hr; simp; exact Or.inr (h2 r hr))
          (by rw [e1]; exact h3) ?_ (by rw [e2]; exact h5)
        rw [e3]
        intro r hr
        simp
        exact Or.inr (h4 r hr)
      | externalLink f l =>
        have e1 := crawlStep_externalLink_log checkIssues s f l
        have e2 := crawlStep_externalLink_used checkIssues s f l
        have e3 := crawlStep_externalLink_cache checkIssues s f l
        by_cases hmem : (Part000.parseLink l).root ∈ s.usedRoots
        · rw [if_pos hmem] at e1 e2 e3
          simp only [List.append_nil, List.nil_append] at e1 e2 e3
          exact ih _ (by rw [e1]; exact h1) (by rw [e1, e2]; exact h2)
            (by rw [e1]; exact h3) (by rw [e2]; exact h4) (by rw [e3]; exact h5)
        · rw [if_neg hmem] at e1 e2 e3
          refine ih _ ?_ ?_ ?_ ?_ ?_
          · rw [e1]
            refine List.Nodup.append h1 (List.nodup_singleton _) ?_
            intro a ha hb
            simp at hb
            subst hb
            exact hmem (h2 _ ha)
          · rw [e1, e2]
            intro r hr
            simp only [List.mem_append] at hr
            rcases hr with hr | hr
            · simp
              exact Or.inr (h2 r hr)
            · simp at hr
              simp [hr]
          · rw [e1]
            intro r hr
            simp only [List.mem_append] at hr
            rcases hr with hr | hr
            · exact h3 r hr
            · simp at hr
              rw [hr]
              intro hin
              exact hmem (h4 _ hin)
          · rw [e2]
            intro r hr
            simp
            exact Or.inr (h4 r hr)
          · rw [e3]
            intro r lst hl
            rw [assoc_append] at hl
            cases hfind : assoc s.externalLinkIssues r with
            | some v =>
              rw [hfind] at hl
              simp at hl
              subst hl
              exact h5 r v hfind
            | none =>
              rw [hfind] at hl
              simp at hl
              by_cases hc : (checkIssues ((Part000.parseLink l).root)).length > 0
              · rw [if_pos hc] at hl
                unfold assoc at hl
                simp at hl
                obtain ⟨hr, hv⟩ := hl
                subst hr
                subst hv
                refine ⟨rfl, ?_⟩
                intro hnil
                rw [hnil] at hc
                simp at hc
              · rw [if_neg hc] at hl
                unfold assoc at hl
                simp at hl
  have res := main events s0 (by rw [hlog]; exact List.nodup_nil)
    (by rw [hlog]; intro r hr; cases hr) (by rw [hlog]; intro r hr; cases hr)
    (fun r hr => hr) (by rw [hcache]; intro r lst hl; unfold assoc at hl; simp at hl)
  exact ⟨res.1, res.2.1, res.2.2, crawlStep_externalLink_log checkIssues⟩

/-- Witness for C1: two documents referencing the same external URL (with
different anchors) produce a duplicate-free fetch log. -/
theorem c1_fetch_at_most_once_witness :
    (Website.crawlExternalLinks (fun _ => []) ⟨[], [], [], []⟩
      [.externalLink (str "a.md") (str "https://x.y/p#s"),
       .externalLink (str "b.md") (str "https://x.y/p#t")]).fetchLog.Nodup :=
  (c1_fetch_at_most_once (fun _ => [])
    [.externalLink (str "a.md") (str "https://x.y/p#s"),
     .externalLink (str "b.md") (str "https://x.y/p#t")]
    ⟨[], [], [], []⟩ rfl rfl).1

/-! URL model lemmas -/

theorem breakAt_not_mem (c : Char) (s : JStr) (h : c ∉ s) : breakAt c s = (s, none) := by
  induction s with
  | nil => rfl
  | cons x xs ih =>
    simp only [List.mem_cons, not_or] at h
    simp only [breakAt]
    rw [ih h.2, if_neg (show ¬ x = c from fun hx => h.1 hx.symm)]

theorem breakAt_append (c : Char) (a b : JStr) (h : c ∉ a) :
    breakAt c (a ++ c :: b) = (a, some b) := by
  induction a with
  | nil => simp [breakAt]
  | cons x xs ih =>
    simp only [List.mem_cons, not_or] at h
    simp only [List.cons_append, breakAt]
    have := ih h.2
    simp only [List.append_eq] at this ⊢
    rw [this, if_neg (show ¬ x = c from fun hx => h.1 hx.symm)]

theorem takeWhile_dropWhile_split (p : Char → Bool) (a b : JStr)
    (ha : ∀ x ∈ a, p x = true) (hb : ∀ y, b.head? = some y → p y = false) :
    (a ++ b).takeWhile p = a ∧ (a ++ b).dropWhile p = b := by
  induction a with
  | nil =>
    cases b with
    | nil => simp
    | cons y ys =>
      have := hb y rfl
      simp [List.takeWhile, List.dropWhile, this]
  | cons x xs ih =>
    have hx := ha x (by simp)
    obtain ⟨ih1, ih2⟩ := ih (fun z hz => ha z (by simp [hz]))
    simp [List.takeWhile, List.dropWhile, hx, ih1, ih2]

theorem breakAt_recon (c : Char) :
    ∀ (s a b : JStr), breakAt c s = (a, some b) → s = a ++ c :: b ∧ c ∉ a := by
  intro s
  induction s with
  | nil => intro a b h; simp [breakAt] at h
  | cons x xs ih =>
    intro a b h
    simp only [breakAt] at h
    by_cases hx : x = c
    · rw [if_pos hx] at h
      rw [Prod.mk.injEq] at h
      obtain ⟨h1, h2⟩ := h
      injection h2 with h2
      subst h1
      subst h2
      subst hx
      exact ⟨rfl, List.not_mem_nil _⟩
    · rw [if_neg hx] at h
      rcases hr : breakAt c xs with ⟨a', ob⟩
      rw [hr] at h
      cases ob with
      | none => rw [Prod.mk.injEq] at h; cases h.2
      | some b' =>
        rw [Prod.mk.injEq] at h
        obtain ⟨h1, h2⟩ := h
        injection h2 with h2
        obtain ⟨hs, hna⟩ := ih a' b' hr
        subst h2
        subst h1
        subst hs
        refine ⟨by simp, ?_⟩
        intro hm
        rcases List.mem_cons.mp hm with h | h
        · exact hx h.symm
        · exact hna h

theorem breakAt_recon_none (c : Char) :
    ∀ (s a : JStr), breakAt c s = (a, none) → a = s ∧ c ∉ s := by
  intro s
  induction s with
  | nil =>
    intro a h
    simp only [breakAt] at h
    rw [Prod.mk.injEq] at h
    exact ⟨h.1.symm, List.not_mem_nil _⟩
  | cons x xs ih =>
    intro a h
    simp only [breakAt] at h
    by_cases hx : x = c
    · rw [if_pos hx] at h
      rw [Prod.mk.injEq] at h
      cases h.2
    · rw [if_neg hx] at h
      rcases hr : breakAt c xs with ⟨a', ob⟩
      rw [hr] at h
      cases ob with
      | some b' => rw [Prod.mk.injEq] at h; cases h.2
      | none =>
        rw [Prod.mk.injEq] at h
        obtain ⟨h1, _⟩ := h
        obtain ⟨ha, hm⟩ := ih a' hr
        subst h1
        refine ⟨by rw [ha], ?_⟩
        intro hmem
        rcases List.mem_cons.mp hmem with h | h
        · exact hx h.symm
        · exact hm h

theorem breakAtLast_recon_none (c : Char) :
    ∀ (s a : JStr), breakAtLast c s = (a, none) → a = s ∧ c ∉ s := by
  intro s
  induction s with
  | nil =>
    intro a h
    simp only [breakAtLast] at h
    rw [Prod.mk.injEq] at h
    exact ⟨h.1.symm, List.not_mem_nil _⟩
  | cons x xs ih =>
    intro a h
    simp only [breakAtLast] at h
    rcases hr : breakAtLast c xs with ⟨a', ob⟩
    rw [hr] at h
    cases ob with
    | some b' => simp only at h; rw [Prod.mk.injEq] at h; cases h.2
    | none =>
      simp only at h
      by_cases hx : x = c
      · rw [if_pos hx] at h; rw [Prod.mk.injEq] at h; cases h.2
      · rw [if_neg hx] at h
        rw [Prod.mk.injEq] at h
        obtain ⟨h1, _⟩ := h
        obtain ⟨ha, hm⟩ := ih a' hr
        subst h1
        refine ⟨by rw [ha], ?_⟩
        intro hmem
        rcases List.mem_cons.mp hmem with h | h
        · exact hx h.symm
        · exact hm h

theorem breakAtLast_recon (c : Char) :
    ∀ (s a b : JStr), breakAtLast c s = (a, some b) → s = a ++ c :: b ∧ c ∉ b := by
  intro s
  induction s with
  | nil => intro a b h; simp [breakAtLast] at h
  | cons x xs ih =>
    intro a b h
    simp only [breakAtLast] at h
    rcases hr : breakAtLast c xs with ⟨a', ob⟩
    rw [hr] at h
    cases ob with
    | some b' =>
      simp only at h
      rw [Prod.mk.injEq] at h
      obtain ⟨h1, h2⟩ := h
      injection h2 with h2
      obtain ⟨hs, hnb⟩ := ih a' b' hr
      subst h2
      subst h1
      exact ⟨by simp [hs], hnb⟩
    | none =>
      simp only at h
      by_cases hx : x = c
      · rw [if_pos hx] at h
        rw [Prod.mk.injEq] at h
        obtain ⟨h1, h2⟩ := h
        injection h2 with h2
        obtain ⟨_, hm⟩ := breakAtLast_recon_none c xs a' hr
        subst h2
        subst h1
        subst hx
        exact ⟨rfl, hm⟩
      · rw [if_neg hx] at h
        rw [Prod.mk.injEq] at h
        cases h.2

/-! Character lemmas (ASCII case mapping) -/

theorem uint32_le_iff (a b : UInt32) : a ≤ b ↔ a.toNat ≤ b.toNat := by
  rw [UInt32.le_def, BitVec.le_def]
  rfl

theorem charToNat_ofNat_valid (n : Nat) (h : n.isValidChar) : (Char.ofNat n).toNat = n := by
  rw [Char.ofNat, dif_pos h]
  simp [Char.toNat, Char.ofNatAux, UInt32.toNat, BitVec.toNat_ofNatLt]

theorem char_isUpper_iff (c : Char) : c.isUpper = true ↔ 65 ≤ c.toNat ∧ c.toNat ≤ 90 := by
  simp only [Char.isUpper, Char.toNat, Bool.and_eq_true, decide_eq_true_eq, uint32_le_iff]
  constructor
  · intro ⟨h1, h2⟩
    exact ⟨by simpa using h1, by simpa using h2⟩
  · intro ⟨h1, h2⟩
    exact ⟨by simpa using h1, by simpa using h2⟩

theorem char_isLower_iff (c : Char) : c.isLower = true ↔ 97 ≤ c.toNat ∧ c.toNat ≤ 122 := by
  simp only [Char.isLower, Char.toNat, Bool.and_eq_true, decide_eq_true_eq, uint32_le_iff]
  constructor
  · intro ⟨h1, h2⟩
    exact ⟨by simpa using h1, by simpa using h2⟩
  · intro ⟨h1, h2⟩
    exact ⟨by simpa using h1, by simpa using h2⟩

theorem char_isDigit_iff (c : Char) : c.isDigit = true ↔ 48 ≤ c.toNat ∧ c.toNat ≤ 57 := by
  simp only [Char.isDigit, Char.toNat, Bool.and_eq_true, decide_eq_true_eq, uint32_le_iff]
  constructor
  · intro ⟨h1, h2⟩
    exact ⟨by simpa using h1, by simpa using h2⟩
  · intro ⟨h1, h2⟩
    exact ⟨by simpa using h1, by simpa using h2⟩

theorem toLower_of_not_upper (c : Char) (h : ¬(65 ≤ c.toNat ∧ c.toNat ≤ 90)) :
    Char.toLower c = c := by
  rw [Char.toLower, if_neg (by omega)]

theorem toNat_toLower_of_upper (c : Char) (h : 65 ≤ c.toNat ∧ c.toNat ≤ 90) :
    (Char.toLower c).toNat = c.toNat + 32 := by
  rw [Char.toLower, if_pos (by omega)]
  exact charToNat_ofNat_valid _ (Or.inl (by omega))

theorem toLower_isAlpha (c : Char) (h : c.isAlpha = true) :
    (Char.toLower c).isAlpha = true := by
  simp only [Char.isAlpha, Bool.or_eq_true] at h ⊢
  rcases h with h | h
  · rw [char_isUpper_iff] at h
    right
    rw [char_isLower_iff, toNat_toLower_of_upper c h]
    omega
  · rw [char_isLower_iff] at h
    right
    rw [char_isLower_iff, toLower_of_not_upper c (by omega)]
    exact h

theorem toLower_idem (c : Char) : Char.toLower (Char.toLower c) = Char.toLower c := by
  by_cases h : 65 ≤ c.toNat ∧ c.toNat ≤ 90
  · have := toNat_toLower_of_upper c h
    rw [toLower_of_not_upper _ (by omega)]
  · rw [toLower_of_not_upper c h, toLower_of_not_upper c h]

theorem toLower_isDigit (c : Char) (h : c.isDigit = true) : Char.toLower c = c := by
  rw [char_isDigit_iff] at h
  exact toLower_of_not_upper c (by omega)

theorem validScheme_lowerStr (s : JStr) (h : validScheme s = true) :
    validScheme (lowerStr s) = true := by
  cases s with
  | nil => cases h
  | cons c rest =>
    simp only [validScheme, Bool.and_eq_true, List.all_eq_true] at h
    obtain ⟨hc, hrest⟩ := h
    simp only [lowerStr, List.map_cons, validScheme, Bool.and_eq_true, List.all_eq_true]
    refine ⟨toLower_isAlpha c hc, ?_⟩
    intro d hd
    rw [List.mem_map] at hd
    obtain ⟨d', hd', rfl⟩ := hd
    have := hrest d' hd'
    simp only [Bool.or_eq_true, decide_eq_true_eq] at this ⊢
    rcases this with (((h | h) | h) | h) | h
    · exact Or.inl (Or.inl (Or.inl (Or.inl (toLower_isAlpha d' h))))
    · rw [toLower_isDigit d' h]
      exact Or.inl (Or.inl (Or.inl (Or.inr h)))
    · subst h; decide
    · subst h; decide
    · subst h; decide

theorem lowerStr_idem (s : JStr) : lowerStr (lowerStr s) = lowerStr s := by
  simp only [lowerStr, List.map_map]
  exact List.map_congr_left (fun c _ => toLower_idem c)

theorem validScheme_not_mem (s : JStr) (h : validScheme s = true) (c : Char)
    (hc : c.isAlpha = false) (hc2 : c.isDigit = false)
    (hc3 : c ≠ '+') (hc4 : c ≠ '-') (hc5 : c ≠ '.') : c ∉ s := by
  cases s with
  | nil => exact List.not_mem_nil _
  | cons x rest =>
    simp only [validScheme, Bool.and_eq_true, List.all_eq_true] at h
    obtain ⟨hx, hrest⟩ := h
    intro hmem
    rcases List.mem_cons.mp hmem with rfl | hmem
    · rw [hx] at hc
      cases hc
    · have := hrest c hmem
      simp only [Bool.or_eq_true, decide_eq_true_eq] at this
      rcases this with (((h | h) | h) | h) | h
      · rw [h] at hc; cases hc
      · rw [h] at hc2; cases hc2
      · exact hc3 h
      · exact hc4 h
      · exact hc5 h

theorem hash_not_mem_scheme (s : JStr) (h : validScheme s = true) : '#' ∉ s :=
  validScheme_not_mem s h '#' (by decide) (by decide) (by decide) (by decide) (by decide)

theorem colon_not_mem_scheme (s : JStr) (h : validScheme s = true) : ':' ∉ s :=
  validScheme_not_mem s h ':' (by decide) (by decide) (by decide) (by decide) (by decide)

theorem digits_not_mem (p : JStr) (h : p.all Char.isDigit = true) (c : Char)
    (hc : c.isDigit = false) : c ∉ p := by
  intro hmem
  rw [List.all_eq_true] at h
  have := h c hmem
  rw [this] at hc
  cases hc

theorem contains_false_not_mem (l : JStr) (c : Char) (h : l.contains c = false) : c ∉ l := by
  intro hmem
  have : List.elem c l = true := List.elem_iff.mpr hmem
  rw [List.contains, this] at h
  cases h

theorem parsePre_serialize (u : URLRec) (h : u.WF) (hf : u.fragment = none) :
    parsePreFragment (serializeURL u) = some u := by
  obtain ⟨scheme, hostname, port, pathname, query, fragment⟩ := u
  simp only at hf
  subst hf
  rw [URLRec.WF, URLRec.WFb] at h
  by_cases hsp : isSpecialScheme scheme = true
  · rw [if_pos hsp] at h
    simp only [Bool.and_eq_true, decide_eq_true_eq, Bool.not_eq_true'] at h
    obtain ⟨⟨⟨hA, hB⟩, hC⟩, ⟨⟨⟨⟨hH1, hH2⟩, hP⟩, hPath1⟩, hPath2⟩, hPath3⟩ := h
    rw [Bool.not_eq_true] at hPath2 hPath3
    have hPathQ : '?' ∉ pathname := contains_false_not_mem _ _ hPath2
    have hcolon : ':' ∉ scheme := colon_not_mem_scheme scheme hA
    have hHost : ∀ c ∈ hostname, c ≠ '/' ∧ c ≠ ':' ∧ c ≠ '?' ∧ c ≠ '#' := by
      intro c hc
      have := List.all_eq_true.mp hH2 c hc
      simp only [decide_eq_true_eq, Bool.or_eq_true, not_or, decide_eq_true_iff] at this
      exact ⟨this.1.1.1, this.1.1.2, this.1.2, this.2⟩
    have hHostC : ':' ∉ hostname := fun hm => (hHost _ hm).2.1 rfl
    obtain ⟨pr, hpr⟩ : ∃ pr, pathname = '/' :: pr := by
      cases pathname with
      | nil => cases hPath1
      | cons x xs =>
        injection hPath1 with h1
        exact ⟨xs, by rw [h1]⟩
    have hsplit : ∀ (pp : JStr), (∀ x ∈ pp, (decide ¬(x = '/' ∨ x = '?')) = true) →
        ((hostname ++ pp) ++ pathname).takeWhile (fun c => decide ¬(c = '/' ∨ c = '?')) =
          hostname ++ pp ∧
        ((hostname ++ pp) ++ pathname).dropWhile (fun c => decide ¬(c = '/' ∨ c = '?')) =
          pathname := by
      intro pp hpp
      refine takeWhile_dropWhile_split _ (hostname ++ pp) pathname ?_ ?_
      · intro x hx
        rcases List.mem_append.mp hx with hx | hx
        · have := hHost x hx
          simp [this.1, this.2.2.1]
        · exact hpp x hx
      · intro y hy
        rw [hpr] at hy
        injection hy with hy
        subst hy
        decide
    have hs0 := hsplit [] (by intro x hx; cases hx)
    rw [List.append_nil] at hs0
    cases port with
    | none =>
      cases query with
      | none =>
        simp only [serializeURL, hsp, if_true, List.append_nil, List.cons_append,
          List.nil_append, List.append_assoc, parsePreFragment]
        have hba : breakAt ':' (scheme ++ ':' :: '/' :: '/' :: (hostname ++ pathname)) =
            (scheme, some ('/' :: '/' :: (hostname ++ pathname))) :=
          breakAt_append ':' scheme _ hcolon
        rw [hba]
        dsimp only
        simp only [hA, hB, hsp, if_true]
        rw [hs0.1, hs0.2]
        rw [breakAt_not_mem ':' hostname hHostC]
        dsimp only
        rw [if_neg hH1]
        rw [hpr]
        have hbq : breakAt '?' ('/' :: pr) = ('/' :: pr, none) := by
          rw [← hpr]
          exact breakAt_not_mem '?' pathname hPathQ
        rw [hbq]
        rfl
      | some q =>
        simp only [serializeURL, hsp, if_true, List.append_nil, List.cons_append,
          List.nil_append, List.append_assoc, parsePreFragment]
        have hba : breakAt ':'
            (scheme ++ ':' :: '/' :: '/' :: (hostname ++ (pathname ++ '?' :: q))) =
            (scheme, some ('/' :: '/' :: (hostname ++ (pathname ++ '?' :: q)))) :=
          breakAt_append ':' scheme _ hcolon
        rw [hba]
        dsimp only
        simp only [hA, hB, hsp, if_true]
        have hs1 : (hostname ++ (pathname ++ '?' :: q)).takeWhile
              (fun c => decide ¬(c = '/' ∨ c = '?')) = hostname ∧
            (hostname ++ (pathname ++ '?' :: q)).dropWhile
              (fun c => decide ¬(c = '/' ∨ c = '?')) = pathname ++ '?' :: q := by
          refine takeWhile_dropWhile_split _ hostname _ ?_ ?_
          · intro x hx
            have := hHost x hx
            simp [this.1, this.2.2.1]
          · intro y hy
            rw [hpr] at hy
            simp only [List.cons_append, List.head?_cons] at hy
            injection hy with hy
            subst hy
            decide
        rw [hs1.1, hs1.2]
        rw [breakAt_not_mem ':' hostname hHostC]
        dsimp only
        rw [if_neg hH1]
        rw [hpr]
        simp only [List.cons_append]
        have hbq : breakAt '?' ('/' :: (pr ++ '?' :: q)) = ('/' :: pr, some q) := by
          have hb := breakAt_append '?' pathname q hPathQ
          rw [hpr] at hb
          simpa using hb
        rw [hbq]
        rfl
    | some p =>
      simp only [Bool.and_eq_true, decide_eq_true_eq, ne_eq] at hP
      obtain ⟨⟨hP1, hP2⟩, hP3⟩ := hP
      have hpmem : ∀ x ∈ ':' :: p, (decide ¬(x = '/' ∨ x = '?')) = true := by
        intro x hx
        rcases List.mem_cons.mp hx with hx | hx
        · subst hx; decide
        · have hd := List.all_eq_true.mp hP2 x hx
          simp only [decide_eq_true_eq, not_or]
          constructor
          · intro he; rw [he] at hd; exact absurd hd (by decide)
          · intro he; rw [he] at hd; exact absurd hd (by decide)
      have hauth : breakAt ':' (hostname ++ ':' :: p) = (hostname, some p) :=
        breakAt_append ':' hostname p hHostC
      cases query with
      | none =>
        simp only [serializeURL, hsp, if_true, List.append_nil, List.cons_append,
          List.nil_append, List.append_assoc, parsePreFragment]
        have hba : breakAt ':'
            (scheme ++ ':' :: '/' :: '/' :: (hostname ++ ':' :: (p ++ pathname))) =
            (scheme, some ('/' :: '/' :: (hostname ++ ':' :: (p ++ pathname)))) :=
          breakAt_append ':' scheme _ hcolon
        rw [hba]
        dsimp only
        simp only [hA, hB, hsp, if_true]
        have hs2 : (hostname ++ ':' :: (p ++ pathname)).takeWhile
              (fun c => decide ¬(c = '/' ∨ c = '?')) = hostname ++ ':' :: p ∧
            (hostname ++ ':' :: (p ++ pathname)).dropWhile
              (fun c => decide ¬(c = '/' ∨ c = '?')) = pathname := by
          have hs := takeWhile_dropWhile_split (fun c => decide ¬(c = '/' ∨ c = '?'))
            (hostname ++ ':' :: p) pathname
            (by
              intro x hx
              rcases List.mem_append.mp hx with hx | hx
              · have := hHost x hx
                simp [this.1, this.2.2.1]
              · exact hpmem x hx)
            (by
              intro y hy
              rw [hpr] at hy
              injection hy with hy
              subst hy
              decide)
          rw [List.append_assoc, List.cons_append] at hs
          exact hs
        rw [hs2.1, hs2.2]
        rw [hauth]
        dsimp only
        rw [if_neg hH1]
        rw [if_neg hP1, if_pos hP2, if_neg hP3]
        dsimp only
        rw [hpr]
        have hbq : breakAt '?' ('/' :: pr) = ('/' :: pr, none) := by
          rw [← hpr]
          exact breakAt_not_mem '?' pathname hPathQ
        rw [hbq]
        rfl
      | some q =>
        simp only [serializeURL, hsp, if_true, List.append_nil, List.cons_append,
          List.nil_append, List.append_assoc, parsePreFragment]
        have hba : breakAt ':'
            (scheme ++ ':' :: '/' :: '/' ::
              (hostname ++ ':' :: (p ++ (pathname ++ '?' :: q)))) =
            (scheme,
              some ('/' :: '/' :: (hostname ++ ':' :: (p ++ (pathname ++ '?' :: q))))) :=
          breakAt_append ':' scheme _ hcolon
        rw [hba]
        dsimp only
        simp only [hA, hB, hsp, if_true]
        have hs3 : (hostname ++ ':' :: (p ++ (pathname ++ '?' :: q))).takeWhile
              (fun c => decide ¬(c = '/' ∨ c = '?')) = hostname ++ ':' :: p ∧
            (hostname ++ ':' :: (p ++ (pathname ++ '?' :: q))).dropWhile
              (fun c => decide ¬(c = '/' ∨ c = '?')) = pathname ++ '?' :: q := by
          have hs := takeWhile_dropWhile_split (fun c => decide ¬(c = '/' ∨ c = '?'))
            (hostname ++ ':' :: p) (pathname ++ '?' :: q)
            (by
              intro x hx
              rcases List.mem_append.mp hx with hx | hx
              · have := hHost x hx
                simp [this.1, this.2.2.1]
              · exact hpmem x hx)
            (by
              intro y hy
              rw [hpr] at hy
              simp only [List.cons_append, List.head?_cons] at hy
              injection hy with hy
              subst hy
              decide)
          rw [List.append_assoc, List.cons_append] at hs
          exact hs
        rw [hs3.1, hs3.2]
        rw [hauth]
        dsimp only
        rw [if_neg hH1]
        rw [if_neg hP1, if_pos hP2, if_neg hP3]
        dsimp only
        rw [hpr]
        simp only [List.cons_append]
        have hbq : breakAt '?' ('/' :: (pr ++ '?' :: q)) = ('/' :: pr, some q) := by
          have hb := breakAt_append '?' pathname q hPathQ
          rw [hpr] at hb
          simpa using hb
        rw [hbq]
        rfl
  · rw [if_neg hsp] at h
    simp only [Bool.and_eq_true, decide_eq_true_eq, Bool.not_eq_true'] at h
    obtain ⟨⟨⟨hA, hB⟩, hC⟩, ⟨⟨hH0, hPort⟩, hPath2⟩, hPath3⟩ := h
    rw [Bool.not_eq_true] at hPath2 hPath3
    have hPathQ : '?' ∉ pathname := contains_false_not_mem _ _ hPath2
    have hcolon : ':' ∉ scheme := colon_not_mem_scheme scheme hA
    subst hH0
    subst hPort
    cases query with
    | none =>
      simp only [serializeURL, if_neg hsp, List.append_nil, List.cons_append,
        List.nil_append, List.append_assoc, parsePreFragment]
      have hba : breakAt ':' (scheme ++ ':' :: pathname) = (scheme, some pathname) :=
        breakAt_append ':' scheme _ hcolon
      rw [hba]
      dsimp only
      simp only [hA, hB, if_true]
      rw [if_neg hsp]
      rw [breakAt_not_mem '?' pathname hPathQ]
    | some q =>
      simp only [serializeURL, if_neg hsp, List.append_nil, List.cons_append,
        List.nil_append, List.append_assoc, parsePreFragment]
      have hba : breakAt ':' (scheme ++ ':' :: (pathname ++ '?' :: q)) =
          (scheme, some (pathname ++ '?' :: q)) :=
        breakAt_append ':' scheme _ hcolon
      rw [hba]
      dsimp only
      simp only [hA, hB, if_true]
      rw [if_neg hsp]
      rw [breakAt_append '?' pathname q hPathQ]

theorem breakAt_fst_mem (c : Char) (s : JStr) (x : Char) (hx : x ∈ (breakAt c s).1) :
    x ∈ s := by
  induction s with
  | nil => cases hx
  | cons y ys ih =>
    simp only [breakAt] at hx
    by_cases hy : y = c
    · rw [if_pos hy] at hx
      cases hx
    · rw [if_neg hy] at hx
      rcases List.mem_cons.mp hx with hx | hx
      · exact hx ▸ List.mem_cons_self _ _
      · exact List.mem_cons_of_mem _ (ih hx)

theorem breakAt_snd_mem (c : Char) (s r : JStr) (hr : (breakAt c s).2 = some r)
    (x : Char) (hx : x ∈ r) : x ∈ s := by
  induction s with
  | nil => simp [breakAt] at hr
  | cons y ys ih =>
    simp only [breakAt] at hr
    by_cases hy : y = c
    · rw [if_pos hy] at hr
      simp only at hr
      injection hr with hr
      exact List.mem_cons_of_mem _ (hr ▸ hx)
    · rw [if_neg hy] at hr
      exact List.mem_cons_of_mem _ (ih hr)

theorem breakAt_fst_no_sep (c : Char) (s : JStr) : c ∉ (breakAt c s).1 := by
  induction s with
  | nil => simp [breakAt]
  | cons y ys ih =>
    simp only [breakAt]
    by_cases hy : y = c
    · rw [if_pos hy]
      simp
    · rw [if_neg hy]
      intro hmem
      rcases List.mem_cons.mp hmem with h | h
      · exact hy h.symm
      · exact ih h

theorem breakAt_cons_ne (c x : Char) (xs : JStr) (h : ¬ x = c) :
    breakAt c (x :: xs) = (x :: (breakAt c xs).1, (breakAt c xs).2) := by
  simp only [breakAt, if_neg h]

theorem dropWhile_head_false (p : Char → Bool) (s : JStr) (x : Char) (xs : JStr)
    (h : s.dropWhile p = x :: xs) : p x = false := by
  induction s with
  | nil => cases h
  | cons y ys ih =>
    rw [List.dropWhile_cons] at h
    by_cases hy : p y = true
    · rw [if_pos hy] at h
      exact ih h
    · rw [if_neg hy] at h
      injection h with h1 _
      subst h1
      exact Bool.not_eq_true _ ▸ hy

theorem mem_takeWhile_mem (p : Char → Bool) (s : JStr) (x : Char)
    (hx : x ∈ s.takeWhile p) : x ∈ s :=
  (List.takeWhile_sublist p).mem hx

theorem mem_dropWhile_mem (p : Char → Bool) (s : JStr) (x : Char)
    (hx : x ∈ s.dropWhile p) : x ∈ s :=
  (List.dropWhile_sublist p).mem hx

theorem not_mem_contains_false (l : JStr) (c : Char) (h : c ∉ l) :
    l.contains c = false := by
  cases hc : l.contains c
  · rfl
  · exact absurd (by simpa [List.elem_iff] using hc) h

theorem WF_special_mk (sch host path : JStr) (port q : Option JStr)
    (hv : validScheme sch = true)
    (hsp : isSpecialScheme (lowerStr sch) = true)
    (hq : (q.getD []).contains '#' = false)
    (hh1 : ¬ host = [])
    (hh2 : ∀ c ∈ host, ¬(c = '/' ∨ c = ':' ∨ c = '?' ∨ c = '#'))
    (hport : ∀ p, port = some p →
      ¬ p = [] ∧ p.all Char.isDigit = true ∧ ¬ p = defaultPort (lowerStr sch))
    (hpath1 : path.head? = some '/')
    (hpath2 : path.contains '?' = false)
    (hpath3 : path.contains '#' = false) :
    URLRec.WF { scheme := lowerStr sch, hostname := host, port := port,
                pathname := path, query := q, fragment := none } := by
  rw [URLRec.WF, URLRec.WFb]
  dsimp only
  rw [if_pos hsp]
  simp only [Bool.and_eq_true, decide_eq_true_eq, Bool.not_eq_true', Bool.not_eq_true]
  refine ⟨⟨⟨validScheme_lowerStr _ hv, lowerStr_idem _⟩, hq⟩,
    ⟨⟨⟨⟨hh1, ?_⟩, ?_⟩, hpath1⟩, hpath2⟩, hpath3⟩
  · rw [List.all_eq_true]
    intro c hc
    have := hh2 c hc
    push_neg at this
    simp only [decide_eq_true_eq, Bool.or_eq_false_iff, decide_eq_false_iff_not]
    exact ⟨⟨⟨this.1, this.2.1⟩, this.2.2.1⟩, this.2.2.2⟩
  · cases port with
    | none => rfl
    | some p =>
      obtain ⟨h1, h2, h3⟩ := hport p rfl
      simp only [Bool.and_eq_true, decide_eq_true_eq, ne_eq]
      exact ⟨⟨h1, h2⟩, h3⟩

theorem WF_opaque_mk (sch path : JStr) (q : Option JStr)
    (hv : validScheme sch = true)
    (hsp : isSpecialScheme (lowerStr sch) = false)
    (hq : (q.getD []).contains '#' = false)
    (hpath2 : path.contains '?' = false)
    (hpath3 : path.contains '#' = false) :
    URLRec.WF { scheme := lowerStr sch, hostname := [], port := none,
                pathname := path, query := q, fragment := none } := by
  rw [URLRec.WF, URLRec.WFb]
  dsimp only
  rw [hsp]
  simp only [Bool.false_eq_true, if_false, Bool.and_eq_true, decide_eq_true_eq,
    Bool.not_eq_true', Bool.not_eq_true]
  exact ⟨⟨⟨validScheme_lowerStr _ hv, lowerStr_idem _⟩, hq⟩,
    ⟨⟨⟨by trivial, by trivial⟩, hpath2⟩, hpath3⟩⟩

theorem pq_facts (tailE : JStr) (pq : JStr × Option JStr)
    (hpq : pq = match tailE with
      | [] => (str "/", (none : Option JStr))
      | '?' :: q => (str "/", some q)
      | x => match breakAt '?' tailE with | (p, q) => (p, q))
    (hM : '#' ∉ tailE)
    (hhd : ∀ x xs, tailE = x :: xs → x = '/' ∨ x = '?') :
    pq.1.head? = some '/' ∧ pq.1.contains '?' = false ∧
      pq.1.contains '#' = false ∧ (pq.2.getD []).contains '#' = false := by
  subst hpq
  split
  · exact ⟨rfl, by decide, by decide, by decide⟩
  · rename_i q
    dsimp only
    refine ⟨rfl, by decide, by decide, ?_⟩
    exact not_mem_contains_false _ _ (fun hm => hM (List.mem_cons_of_mem _ hm))
  · rename_i tE hne1 hne2
    cases tailE with
    | nil => exact absurd rfl hne1
    | cons t ts =>
      have ht : t = '/' := by
        rcases hhd t ts rfl with h | h
        · exact h
        · exact absurd (by rw [h]) (hne2 ts)
      subst ht
      rw [breakAt_cons_ne '?' '/' ts (by decide)]
      dsimp only
      refine ⟨rfl, ?_, ?_, ?_⟩
      · refine not_mem_contains_false _ _ (fun hm => ?_)
        rcases List.mem_cons.mp hm with hm | hm
        · exact absurd hm.symm (by decide)
        · exact breakAt_fst_no_sep '?' ts hm
      · refine not_mem_contains_false _ _ (fun hm => hM ?_)
        rcases List.mem_cons.mp hm with hm | hm
        · rw [hm]
          exact List.mem_cons_self _ _
        · exact List.mem_cons_of_mem _ (breakAt_fst_mem '?' ts _ hm)
      · cases hsq : (breakAt '?' ts).2 with
        | none => simp
        | some r =>
          simp only [Option.getD_some]
          refine not_mem_contains_false _ _ (fun hm => hM ?_)
          exact List.mem_cons_of_mem _ (breakAt_snd_mem '?' ts r hsq _ hm)

theorem WF_special_pq (sch host : JStr) (port : Option JStr) (tailE : JStr)
    (hv : validScheme sch = true)
    (hsp : isSpecialScheme (lowerStr sch) = true)
    (hh1 : ¬ host = [])
    (hh2 : ∀ c ∈ host, ¬(c = '/' ∨ c = ':' ∨ c = '?' ∨ c = '#'))
    (hport : ∀ p, port = some p →
      ¬ p = [] ∧ p.all Char.isDigit = true ∧ ¬ p = defaultPort (lowerStr sch))
    (hM : '#' ∉ tailE)
    (hhd : ∀ x xs, tailE = x :: xs → x = '/' ∨ x = '?') :
    URLRec.WF
      { scheme := lowerStr sch, hostname := host, port := port,
        pathname := (match tailE with
            | [] => (str "/", (none : Option JStr))
            | '?' :: q => (str "/", some q)
            | x => match breakAt '?' tailE with | (p, q) => (p, q)).1,
        query := (match tailE with
            | [] => (str "/", (none : Option JStr))
            | '?' :: q => (str "/", some q)
            | x => match breakAt '?' tailE with | (p, q) => (p, q)).2,
        fragment := none } := by
  obtain ⟨h1, h2, h3, h4⟩ := pq_facts tailE _ rfl hM hhd
  exact WF_special_mk sch host _ port _ hv hsp h4 hh1 hh2 hport h1 h2 h3

theorem parsePre_WF (pre : JStr) (u : URLRec) (hpre : '#' ∉ pre)
    (h : parsePreFragment pre = some u) : u.WF := by
  rw [parsePreFragment] at h
  split at h
  · exact absurd h (by simp)
  · rename_i sch rest heq
    have hschm : ∀ x ∈ sch, x ∈ pre := fun x hx =>
      breakAt_fst_mem ':' pre x (by rw [heq]; exact hx)
    have hrestm : ∀ x ∈ rest, x ∈ pre := fun x hx =>
      breakAt_snd_mem ':' pre rest (by rw [heq]) x hx
    by_cases hv : validScheme sch = true
    · rw [if_pos hv] at h
      dsimp only at h
      by_cases hsp : isSpecialScheme (lowerStr sch) = true
      · rw [if_pos hsp] at h
        split at h
        · rename_i rest'
          have hrm : ∀ x ∈ rest', x ∈ pre := fun x hx =>
            hrestm x (List.mem_cons_of_mem _ (List.mem_cons_of_mem _ hx))
          by_cases hp1 :
              (breakAt ':' (rest'.takeWhile (fun c => decide ¬(c = '/' ∨ c = '?')))).1 = []
          · rw [if_pos hp1] at h
            cases h
          · rw [if_neg hp1] at h
            have hh2 : ∀ c ∈ (breakAt ':'
                (rest'.takeWhile (fun c => decide ¬(c = '/' ∨ c = '?')))).1,
                ¬(c = '/' ∨ c = ':' ∨ c = '?' ∨ c = '#') := by
              intro c hc
              have hcA : c ∈ rest'.takeWhile (fun c => decide ¬(c = '/' ∨ c = '?')) :=
                breakAt_fst_mem ':' _ c hc
              have hcP := List.mem_takeWhile_imp hcA
              simp only [decide_eq_true_eq] at hcP
              have hcPre : c ∈ pre := hrm c (mem_takeWhile_mem _ _ _ hcA)
              intro hor
              rcases hor with h1 | h1 | h1 | h1
              · exact hcP (Or.inl h1)
              · exact breakAt_fst_no_sep ':' _ (h1 ▸ hc)
              · exact hcP (Or.inr h1)
              · exact hpre (h1 ▸ hcPre)
            have htailM : '#' ∉ rest'.dropWhile (fun c => decide ¬(c = '/' ∨ c = '?')) :=
              fun hm => hpre (hrm _ (mem_dropWhile_mem _ _ _ hm))
            have htailHd : ∀ x xs,
                rest'.dropWhile (fun c => decide ¬(c = '/' ∨ c = '?')) = x :: xs →
                x = '/' ∨ x = '?' := by
              intro x xs hx
              have := dropWhile_head_false _ _ _ _ hx
              simp only [decide_eq_false_iff_not, not_not] at this
              exact this
            split at h
            · exact absurd h (by simp)
            · rename_i portv heqPort
              injection h with h
              subst h
              split at heqPort
              · injection heqPort with heqPort
                subst heqPort
                exact WF_special_pq sch _ none _ hv hsp hp1 hh2
                  (fun p hp => nomatch hp) htailM htailHd
              · rename_i p hsq2
                by_cases hpB : p = []
                · rw [if_pos hpB] at heqPort
                  injection heqPort with heqPort
                  subst heqPort
                  exact WF_special_pq sch _ none _ hv hsp hp1 hh2
                    (fun p hp => nomatch hp) htailM htailHd
                · rw [if_neg hpB] at heqPort
                  by_cases hpD : p.all Char.isDigit = true
                  · rw [if_pos hpD] at heqPort
                    by_cases hpDef : p = defaultPort (lowerStr sch)
                    · rw [if_pos hpDef] at heqPort
                      injection heqPort with heqPort
                      subst heqPort
                      exact WF_special_pq sch _ none _ hv hsp hp1 hh2
                        (fun p hp => nomatch hp) htailM htailHd
                    · rw [if_neg hpDef] at heqPort
                      injection heqPort with heqPort
                      subst heqPort
                      exact WF_special_pq sch _ (some p) _ hv hsp hp1 hh2
                        (fun p' hp' => by
                          injection hp' with hp'
                          subst hp'
                          exact ⟨hpB, hpD, hpDef⟩) htailM htailHd
                  · rw [if_neg hpD] at heqPort
                    cases heqPort
        · exact absurd h (by simp)
      · rw [if_neg hsp] at h
        injection h with h
        subst h
        refine WF_opaque_mk sch _ _ hv (Bool.not_eq_true _ ▸ hsp) ?_ ?_ ?_
        · cases hsq : (breakAt '?' rest).2 with
          | none => simp
          | some r =>
            simp only [Option.getD_some]
            exact not_mem_contains_false _ _ (fun hm =>
              hpre (hrestm _ (breakAt_snd_mem '?' rest r hsq _ hm)))
        · exact not_mem_contains_false _ _ (breakAt_fst_no_sep '?' rest)
        · exact not_mem_contains_false _ _ (fun hm =>
            hpre (hrestm _ (breakAt_fst_mem '?' rest _ hm)))
    · rw [if_neg hv] at h
      cases h

theorem parseURL_WF (s : JStr) (u : URLRec) (h : parseURL s = some u) : u.WF := by
  rw [parseURL] at h
  cases hp : parsePreFragment (breakAt '#' s).1 with
  | none => rw [hp] at h; cases h
  | some v =>
    rw [hp] at h
    simp only [Option.map_some'] at h
    injection h with h
    subst h
    have hv := parsePre_WF _ v (breakAt_fst_no_sep '#' s) hp
    rw [URLRec.WF, URLRec.WFb] at hv ⊢
    obtain ⟨vs, vh, vp, vpa, vq, vf⟩ := v
    exact hv

theorem serialize_split_frag (u : URLRec) :
    serializeURL u = serializeURL { u with fragment := none } ++
      (match u.fragment with | none => [] | some f => '#' :: f) := by
  obtain ⟨s, ho, p, pa, q, f⟩ := u
  simp only [serializeURL]
  cases f with
  | none => simp
  | some f => simp [List.append_assoc]

theorem hash_not_mem_serialize (u : URLRec) (h : u.WF) (hf : u.fragment = none) :
    '#' ∉ serializeURL u := by
  obtain ⟨scheme, hostname, port, pathname, query, fragment⟩ := u
  simp only at hf
  subst hf
  rw [URLRec.WF, URLRec.WFb] at h
  intro hm
  rw [serializeURL] at hm
  by_cases hsp : isSpecialScheme scheme = true
  · rw [if_pos hsp] at h
    simp only [Bool.and_eq_true, decide_eq_true_eq, Bool.not_eq_true',
      Bool.not_eq_true] at h
    obtain ⟨⟨⟨hA, hB⟩, hC⟩, ⟨⟨⟨⟨hH1, hH2⟩, hP⟩, hPath1⟩, hPath2⟩, hPath3⟩ := h
    rw [if_pos hsp] at hm
    rcases List.mem_append.mp hm with hm | hm
    · rcases List.mem_append.mp hm with hm | hm
      · rcases List.mem_append.mp hm with hm | hm
        · rcases List.mem_append.mp hm with hm | hm
          · exact hash_not_mem_scheme scheme hA hm
          · rcases List.mem_cons.mp hm with hm | hm
            · exact absurd hm (by decide)
            · rcases List.mem_append.mp hm with hm | hm
              · rcases List.mem_cons.mp hm with hm | hm
                · exact absurd hm (by decide)
                · rcases List.mem_cons.mp hm with hm | hm
                  · exact absurd hm (by decide)
                  · have := List.all_eq_true.mp hH2 '#' hm
                    simp at this
              · cases port with
                | none => simp at hm
                | some p =>
                  rcases List.mem_cons.mp hm with hm | hm
                  · exact absurd hm (by decide)
                  · simp only [Bool.and_eq_true, decide_eq_true_eq] at hP
                    exact digits_not_mem p hP.1.2 '#' (by decide) hm
        · exact contains_false_not_mem _ _ hPath3 hm
      · cases query with
        | none => simp at hm
        | some q =>
          rcases List.mem_cons.mp hm with hm | hm
          · exact absurd hm (by decide)
          · simp only [Option.getD_some] at hC
            exact contains_false_not_mem _ _ hC hm
    · simp at hm
  · rw [if_neg hsp] at h
    simp only [Bool.and_eq_true, decide_eq_true_eq, Bool.not_eq_true',
      Bool.not_eq_true] at h
    obtain ⟨⟨⟨hA, hB⟩, hC⟩, ⟨⟨hH0, hPort⟩, hPath2⟩, hPath3⟩ := h
    rw [Bool.not_eq_true] at hsp
    rw [if_neg (by rw [hsp]; exact Bool.false_ne_true)] at hm
    rcases List.mem_append.mp hm with hm | hm
    · rcases List.mem_append.mp hm with hm | hm
      · rcases List.mem_append.mp hm with hm | hm
        · rcases List.mem_append.mp hm with hm | hm
          · exact hash_not_mem_scheme scheme hA hm
          · rcases List.mem_cons.mp hm with hm | hm
            · exact absurd hm (by decide)
            · simp at hm
        · exact contains_false_not_mem _ _ hPath3 hm
      · cases query with
        | none => simp at hm
        | some q =>
          rcases List.mem_cons.mp hm with hm | hm
          · exact absurd hm (by decide)
          · simp only [Option.getD_some] at hC
            exact contains_false_not_mem _ _ hC hm
    · simp at hm

theorem parse_serialize (u : URLRec) (h : u.WF) : parseURL (serializeURL u) = some u := by
  obtain ⟨scheme, hostname, port, pathname, query, fragment⟩ := u
  cases fragment with
  | none =>
    have hnm := hash_not_mem_serialize _ h rfl
    rw [parseURL]
    rw [breakAt_not_mem '#' _ hnm]
    dsimp only
    rw [parsePre_serialize _ h rfl]
    rfl
  | some f =>
    have hWFn : URLRec.WF
        { scheme := scheme, hostname := hostname, port := port,
          pathname := pathname, query := query, fragment := none } := by
      rw [URLRec.WF, URLRec.WFb] at h ⊢
      exact h
    have hnm := hash_not_mem_serialize _ hWFn rfl
    rw [serialize_split_frag, parseURL]
    dsimp only
    rw [breakAt_append '#' _ f hnm]
    dsimp only
    rw [parsePre_serialize _ hWFn rfl]
    rfl

/-- **C2.**  For every href string, `parseLink` (src/utilities.ts lines 25–35)
splits at the *last* `#` when the string is not a parseable absolute URL — so
the reconstruction `root + (anchor ? "#" + anchor : "")` is exactly the input,
and an anchor is produced precisely when the string contains `#` — and uses
URL-standard fragment parsing when it is parseable, where the reconstruction
serializes the parsed URL modulo an empty fragment and re-parses to the
parsed input's root-plus-fragment record (with an empty fragment dropped). -/
theorem c2_parse_link_reconstruction (href : JStr) :
    (canParseURL href = false →
      Utilities.parseLinkRecon href = href ∧
      ((Utilities.parseLink href).anchor = none ↔ '#' ∉ href)) ∧
    (∀ u, parseURL href = some u →
      Utilities.parseLinkRecon href = serializeURL u.dropEmptyFragment ∧
      parseURL (Utilities.parseLinkRecon href) = some u.dropEmptyFragment) := by
  constructor
  · intro hcp
    have hcond : ¬ canParseURL href = true := by
      rw [hcp]
      exact Bool.false_ne_true
    rcases hb : breakAtLast '#' href with ⟨a, ob⟩
    cases ob with
    | none =>
      obtain ⟨ha, hnm⟩ := breakAtLast_recon_none '#' href a hb
      have hpl : Utilities.parseLink href = { root := href, anchor := none } := by
        rw [Utilities.parseLink, if_pos hcond, hb]
      constructor
      · rw [Utilities.parseLinkRecon, hpl]
        exact List.append_nil href
      · rw [hpl]
        exact ⟨fun _ => hnm, fun _ => rfl⟩
    | some b =>
      obtain ⟨hs, hnb⟩ := breakAtLast_recon '#' href a b hb
      have hpl : Utilities.parseLink href = { root := a, anchor := some b } := by
        rw [Utilities.parseLink, if_pos hcond, hb]
      constructor
      · rw [Utilities.parseLinkRecon, hpl]
        exact hs.symm
      · rw [hpl]
        constructor
        · intro hx
          cases hx
        · intro hx
          exfalso
          exact hx (by
            rw [hs]
            exact List.mem_append.mpr (Or.inr (List.mem_cons_self _ _)))
  · intro u hu
    have hcp : canParseURL href = true := by
      rw [canParseURL, hu]
      rfl
    have hWF := parseURL_WF href u hu
    obtain ⟨scheme, hostname, port, pathname, query, fragment⟩ := u
    cases fragment with
    | none =>
      have hpl : Utilities.parseLink href =
          { root := serializeURL
              { scheme := scheme, hostname := hostname, port := port,
                pathname := pathname, query := query, fragment := none },
            anchor := none } := by
        rw [Utilities.parseLink, if_neg (fun hc => hc hcp), hu]
        dsimp only [URLRec.hash, URLRec.clearHash]
        rw [if_pos rfl]
      have hde : URLRec.dropEmptyFragment
          { scheme := scheme, hostname := hostname, port := port,
            pathname := pathname, query := query, fragment := none } =
          { scheme := scheme, hostname := hostname, port := port,
            pathname := pathname, query := query, fragment := none } := by
        rw [URLRec.dropEmptyFragment, if_neg (by simp)]
      rw [hde]
      have hrec : Utilities.parseLinkRecon href = serializeURL
          { scheme := scheme, hostname := hostname, port := port,
            pathname := pathname, query := query, fragment := none } := by
        rw [Utilities.parseLinkRecon, hpl]
        exact List.append_nil _
      exact ⟨hrec, by rw [hrec]; exact parse_serialize _ hWF⟩
    | some f =>
      cases f with
      | nil =>
        have hWFn : URLRec.WF
            { scheme := scheme, hostname := hostname, port := port,
              pathname := pathname, query := query, fragment := none } := by
          rw [URLRec.WF, URLRec.WFb] at hWF ⊢
          exact hWF
        have hpl : Utilities.parseLink href =
            { root := serializeURL
                { scheme := scheme, hostname := hostname, port := port,
                  pathname := pathname, query := query, fragment := none },
              anchor := none } := by
          rw [Utilities.parseLink, if_neg (fun hc => hc hcp), hu]
          dsimp only [URLRec.hash, URLRec.clearHash]
          rw [if_pos rfl]
        have hde : URLRec.dropEmptyFragment
            { scheme := scheme, hostname := hostname, port := port,
              pathname := pathname, query := query, fragment := some [] } =
            { scheme := scheme, hostname := hostname, port := port,
              pathname := pathname, query := query, fragment := none } := by
          rw [URLRec.dropEmptyFragment, if_pos (by simp)]
        rw [hde]
        have hrec : Utilities.parseLinkRecon href = serializeURL
            { scheme := scheme, hostname := hostname, port := port,
              pathname := pathname, query := query, fragment := none } := by
          rw [Utilities.parseLinkRecon, hpl]
          exact List.append_nil _
        exact ⟨hrec, by rw [hrec]; exact parse_serialize _ hWFn⟩
      | cons x xs =>
        have hpl : Utilities.parseLink href =
            { root := serializeURL
                { scheme := scheme, hostname := hostname, port := port,
                  pathname := pathname, query := query, fragment := none },
              anchor := some (x :: xs) } := by
          rw [Utilities.parseLink, if_neg (fun hc => hc hcp), hu]
          dsimp only [URLRec.hash, URLRec.clearHash]
          rw [if_neg (by simp)]
          rfl
        have hde : URLRec.dropEmptyFragment
            { scheme := scheme, hostname := hostname, port := port,
              pathname := pathname, query := query, fragment := some (x :: xs) } =
            { scheme := scheme, hostname := hostname, port := port,
              pathname := pathname, query := query, fragment := some (x :: xs) } := by
          rw [URLRec.dropEmptyFragment, if_neg (by simp)]
        rw [hde]
        have hrec : Utilities.parseLinkRecon href = serializeURL
            { scheme := scheme, hostname := hostname, port := port,
              pathname := pathname, query := query, fragment := some (x :: xs) } := by
          rw [Utilities.parseLinkRecon, hpl]
          dsimp only
          rw [serialize_split_frag
            { scheme := scheme, hostname := hostname, port := port,
              pathname := pathname, query := query, fragment := some (x :: xs) }]
        exact ⟨hrec, by rw [hrec]; exact parse_serialize _ hWF⟩

/-- Witness for C2: a local-style href reconstructs to itself, and an absolute
URL href round-trips through the reconstruction. -/
theorem c2_parse_link_reconstruction_witness :
    (canParseURL (str "./docs/api.md#intro") = false ∧
      Utilities.parseLinkRecon (str "./docs/api.md#intro") = str "./docs/api.md#intro") ∧
    (parseURL (str "https://grammy.dev/guide#intro") =
        some { scheme := str "https", hostname := str "grammy.dev", port := none,
               pathname := str "/guide", query := none, fragment := some (str "intro") } ∧
      parseURL (Utilities.parseLinkRecon (str "https://grammy.dev/guide#intro")) =
        some (URLRec.dropEmptyFragment
          { scheme := str "https", hostname := str "grammy.dev", port := none,
            pathname := str "/guide", query := none, fragment := some (str "intro") })) :=
  ⟨⟨by decide, ((c2_parse_link_reconstruction _).1 (by decide)).1⟩,
   ⟨by decide, ((c2_parse_link_reconstruction _).2 _ (by decide)).2⟩⟩

/-- **C9.**  `transformURL` rewrites the hostname of every link whose parsed
hostname is exactly `t.me` to `telegram.me` and leaves every other parseable
link's record unchanged (its serialization); `checkExternalUrl` uses exactly
the transformed URL as the fetched URL in every outcome it produces. -/
theorem c9_tme_hostname_rewrite (link : JStr) (u : URLRec)
    (h : parseURL link = some u) :
    (u.hostname = str "t.me" →
      Fetch.transformURL link =
        some (serializeURL { u with hostname := str "telegram.me" })) ∧
    (¬ u.hostname = str "t.me" →
      Fetch.transformURL link = some (serializeURL u)) ∧
    (∀ domAnchors info r,
      Fetch.checkExternalUrl domAnchors link info = some r →
      Fetch.transformURL link = some r.fetchedUrl) := by
  refine ⟨?_, ?_, ?_⟩
  · intro hh
    rw [Fetch.transformURL, h]
    dsimp only [Option.map_some']
    rw [if_pos hh]
  · intro hh
    rw [Fetch.transformURL, h]
    dsimp only [Option.map_some']
    rw [if_neg hh]
  · intro domAnchors info r hr
    rw [Fetch.checkExternalUrl] at hr
    cases ht : Fetch.transformURL link with
    | none => rw [ht] at hr; cases hr
    | some t =>
      rw [ht] at hr
      dsimp only at hr
      repeat' split at hr
      all_goals cases hr
      all_goals rfl

/-- Witness for C9: `https://t.me/grammyjs` is rewritten to the
`telegram.me` equivalent, and `https://example.com/x` is left unchanged. -/
theorem c9_tme_hostname_rewrite_witness :
    Fetch.transformURL (str "https://t.me/grammyjs") =
      some (serializeURL
        { scheme := str "https", hostname := str "telegram.me", port := none,
          pathname := str "/grammyjs", query := none, fragment := none }) ∧
    Fetch.transformURL (str "https://example.com/x") =
      some (serializeURL
        { scheme := str "https", hostname := str "example.com", port := none,
          pathname := str "/x", query := none, fragment := none }) :=
  ⟨(c9_tme_hostname_rewrite (str "https://t.me/grammyjs")
      { scheme := str "https", hostname := str "t.me", port := none,
        pathname := str "/grammyjs", query := none, fragment := none }
      (by decide)).1 (by decide),
   (c9_tme_hostname_rewrite (str "https://example.com/x")
      { scheme := str "https", hostname := str "example.com", port := none,
        pathname := str "/x", query := none, fragment := none }
      (by decide)).2.1 (by decide)⟩

theorem jsStartsWith_append (p x : JStr) : jsStartsWith p (p ++ x) = true := by
  induction p with
  | nil => rfl
  | cons c ct ih => simp [jsStartsWith, ih]

theorem replaceFirst_exact (c : Char) (ct rep x : JStr) :
    replaceFirst (c :: ct) rep ((c :: ct) ++ x) = rep ++ x := by
  rw [List.cons_append, replaceFirst,
    if_pos (by rw [← List.cons_append]; exact jsStartsWith_append _ _)]
  congr 1
  rw [← List.cons_append]
  exact List.drop_left _ _

theorem replaceFirst_skip (c : Char) (ct rep : JStr) (a b : JStr) (h : c ∉ a) :
    replaceFirst (c :: ct) rep (a ++ b) = a ++ replaceFirst (c :: ct) rep b := by
  induction a with
  | nil => simp
  | cons x xs ih =>
    have hcx : ¬ c = x := fun he => h (he ▸ List.mem_cons_self _ _)
    rw [List.cons_append, replaceFirst,
      if_neg (by simp [jsStartsWith, hcx]), ih (fun hm => h (List.mem_cons_of_mem _ hm))]
    rfl

theorem replaceFirst_of_startsWith (c : Char) (ct rep : JStr) (s : JStr)
    (h : jsStartsWith (c :: ct) s = true) :
    replaceFirst (c :: ct) rep s = rep ++ s.drop (c :: ct).length := by
  cases s with
  | nil => cases h
  | cons x xs => rw [replaceFirst, if_pos h]

theorem replace_www_serialize (u : URLRec) (hcolon : ':' ∉ u.scheme)
    (hsp : isSpecialScheme u.scheme = true) :
    replaceFirst (str "://") (str "://www.") (serializeURL u) =
      serializeURL (Fetch.wwwURL u) := by
  obtain ⟨scheme, hostname, port, pathname, query, fragment⟩ := u
  simp only [serializeURL, Fetch.wwwURL, hsp, if_true, List.append_assoc,
    List.cons_append, List.append_nil, List.nil_append]
  rw [show (str "://") = ':' :: '/' :: '/' :: ([] : JStr) from rfl]
  rw [replaceFirst_skip ':' ('/' :: '/' :: []) (str "://www.") scheme _ hcolon]
  rw [replaceFirst_of_startsWith ':' ('/' :: '/' :: []) (str "://www.") _
    (by simp [jsStartsWith])]
  rfl

theorem replace_https_serialize (u : URLRec) (hhttp : u.scheme = str "http")
    (hport : ¬ u.port = some (str "443")) :
    replaceFirst (str "http") (str "https") (serializeURL u) =
      serializeURL (Fetch.httpsURL u) := by
  obtain ⟨scheme, hostname, port, pathname, query, fragment⟩ := u
  simp only at hhttp
  subst hhttp
  have hs1 : isSpecialScheme (str "http") = true := by decide
  have hs2 : isSpecialScheme (str "https") = true := by decide
  simp only [serializeURL, Fetch.httpsURL, hs1, hs2, if_true, if_neg hport,
    List.append_assoc, List.cons_append, List.append_nil, List.nil_append]
  rw [show (str "http") = 'h' :: 't' :: 't' :: 'p' :: ([] : JStr) from rfl]
  rw [replaceFirst_exact]

theorem wwwURL_WF (u : URLRec) (h : u.WF) (hsp : isSpecialScheme u.scheme = true) :
    (Fetch.wwwURL u).WF := by
  obtain ⟨scheme, hostname, port, pathname, query, fragment⟩ := u
  simp only at hsp
  rw [URLRec.WF, URLRec.WFb] at h ⊢
  rw [if_pos hsp] at h
  dsimp only [Fetch.wwwURL]
  rw [if_pos hsp]
  simp only [Bool.and_eq_true, decide_eq_true_eq, Bool.not_eq_true',
    Bool.not_eq_true] at h ⊢
  obtain ⟨⟨⟨hA, hB⟩, hC⟩, ⟨⟨⟨⟨hH1, hH2⟩, hP⟩, hPath1⟩, hPath2⟩, hPath3⟩ := h
  refine ⟨⟨⟨hA, hB⟩, hC⟩, ⟨⟨⟨⟨?_, ?_⟩, hP⟩, hPath1⟩, hPath2⟩, hPath3⟩
  · simp [str]
  · rw [List.all_append]
    rw [hH2]
    simp [str]

theorem httpsURL_WF (u : URLRec) (h : u.WF) (hhttp : u.scheme = str "http")
    (hport : ¬ u.port = some (str "443")) :
    (Fetch.httpsURL u).WF := by
  obtain ⟨scheme, hostname, port, pathname, query, fragment⟩ := u
  simp only at hhttp hport
  subst hhttp
  rw [URLRec.WF, URLRec.WFb] at h ⊢
  rw [if_pos (by decide : isSpecialScheme (str "http") = true)] at h
  dsimp only [Fetch.httpsURL]
  rw [if_neg hport]
  rw [if_pos (by decide : isSpecialScheme (str "https") = true)]
  simp only [Bool.and_eq_true, decide_eq_true_eq, Bool.not_eq_true',
    Bool.not_eq_true] at h ⊢
  obtain ⟨⟨⟨hA, hB⟩, hC⟩, ⟨⟨⟨⟨hH1, hH2⟩, hP⟩, hPath1⟩, hPath2⟩, hPath3⟩ := h
  refine ⟨⟨⟨by decide, by decide⟩, hC⟩, ⟨⟨⟨⟨hH1, hH2⟩, ?_⟩, hPath1⟩, hPath2⟩, hPath3⟩
  cases port with
  | none => rfl
  | some p =>
    simp only [Bool.and_eq_true, decide_eq_true_eq] at hP ⊢
    refine ⟨⟨hP.1.1, hP.1.2⟩, ?_⟩
    intro he
    exact hport (by rw [he]; rfl)

/-- **C5 (amended).**  For every well-formed special-scheme `from` URL (no
explicit `:443` port), `isValidRedirection` runs the known-pair override
lookup only once, on the original pair; only the *general* decision table is
re-tested on the `www.`-prefixed and the `https`-upgraded `from` URL
(each pass additionally gated on its host/protocol side condition). -/
theorem c5_redirection_passes (fromU toU : URLRec) (hWF : fromU.WF)
    (hsp : isSpecialScheme fromU.scheme = true)
    (hport : ¬ fromU.port = some (str "443")) :
    Fetch.isValidRedirection fromU toU =
      (decide (assoc VALID_REDIRECTIONS (serializeURL fromU) =
          some (serializeURL toU)) ||
       (Fetch.generalRedirect fromU toU ||
        (decide (str "www." ++ fromU.host = toU.host) &&
          Fetch.generalRedirect (Fetch.wwwURL fromU) toU) ||
        (decide (fromU.protocol = str "http:") &&
          decide (toU.protocol = str "https:") &&
          Fetch.generalRedirect (Fetch.httpsURL fromU) toU))) := by
  by_cases hkp : assoc VALID_REDIRECTIONS (serializeURL fromU) =
      some (serializeURL toU)
  · rw [Fetch.isValidRedirection, if_pos hkp]
    simp [hkp]
  · rw [Fetch.isValidRedirection, if_neg hkp]
    have hWF' := hWF
    rw [URLRec.WF, URLRec.WFb] at hWF'
    simp only [Bool.and_eq_true] at hWF'
    have hA : validScheme fromU.scheme = true := hWF'.1.1.1
    have hcolon := colon_not_mem_scheme _ hA
    have hwww : parseURL (replaceFirst (str "://") (str "://www.")
        (serializeURL fromU)) = some (Fetch.wwwURL fromU) := by
      rw [replace_www_serialize fromU hcolon hsp]
      exact parse_serialize _ (wwwURL_WF fromU hWF hsp)
    rw [hwww]
    have hkd : (decide (assoc VALID_REDIRECTIONS (serializeURL fromU) =
        some (serializeURL toU))) = false := decide_eq_false hkp
    rw [hkd, Bool.false_or]
    by_cases hpr : fromU.protocol = str "http:"
    · have hscheme : fromU.scheme = str "http" := by
        have := congrArg List.dropLast hpr
        rwa [URLRec.protocol, List.dropLast_concat,
          show (str "http:").dropLast = str "http" from rfl] at this
      have hhttps : parseURL (replaceFirst (str "http") (str "https")
          (serializeURL fromU)) = some (Fetch.httpsURL fromU) := by
        rw [replace_https_serialize fromU hscheme hport]
        exact parse_serialize _ (httpsURL_WF fromU hWF hscheme hport)
      rw [hhttps]
    · have hg : (decide (fromU.protocol = str "http:")) = false :=
        decide_eq_false hpr
      rw [hg]
      simp only [Bool.false_and]

/-- Counterexample to C5 as stated: for `http://nodejs.org/` redirecting to
`https://nodejs.org/en`, re-testing the *whole* decision table — including the
known-pair lookup — on the `https`-upgraded `from` URL succeeds (the table maps
`https://nodejs.org/` to `https://nodejs.org/en`), but the code's
`isValidRedirection`, which consults the known-pair table only on the original
pair and re-runs only the `general` table in the extra passes, rejects it. -/
theorem c5_redirection_counterexample :
    Fetch.isValidRedirectionClaimed
        { scheme := str "http", hostname := str "nodejs.org", port := none,
          pathname := str "/", query := none, fragment := none }
        { scheme := str "https", hostname := str "nodejs.org", port := none,
          pathname := str "/en", query := none, fragment := none } = true ∧
    Fetch.isValidRedirection
        { scheme := str "http", hostname := str "nodejs.org", port := none,
          pathname := str "/", query := none, fragment := none }
        { scheme := str "https", hostname := str "nodejs.org", port := none,
          pathname := str "/en", query := none, fragment := none } = false := by
  decide

/-- Witness for the amended C5 theorem at the counterexample pair: the code's
result decomposes into known-pair-once plus general-only extra passes. -/
theorem c5_redirection_passes_witness :
    Fetch.isValidRedirection
        { scheme := str "http", hostname := str "nodejs.org", port := none,
          pathname := str "/", query := none, fragment := none }
        { scheme := str "https", hostname := str "nodejs.org", port := none,
          pathname := str "/en", query := none, fragment := none } =
      (decide (assoc VALID_REDIRECTIONS (serializeURL
          { scheme := str "http", hostname := str "nodejs.org", port := none,
            pathname := str "/", query := none, fragment := none }) =
          some (serializeURL
          { scheme := str "https", hostname := str "nodejs.org", port := none,
            pathname := str "/en", query := none, fragment := none })) ||
       (Fetch.generalRedirect
          { scheme := str "http", hostname := str "nodejs.org", port := none,
            pathname := str "/", query := none, fragment := none }
          { scheme := str "https", hostname := str "nodejs.org", port := none,
            pathname := str "/en", query := none, fragment := none } ||
        (decide (str "www." ++ URLRec.host
            { scheme := str "http", hostname := str "nodejs.org", port := none,
              pathname := str "/", query := none, fragment := none } =
            URLRec.host
            { scheme := str "https", hostname := str "nodejs.org", port := none,
              pathname := str "/en", query := none, fragment := none }) &&
          Fetch.generalRedirect (Fetch.wwwURL
            { scheme := str "http", hostname := str "nodejs.org", port := none,
              pathname := str "/", query := none, fragment := none })
            { scheme := str "https", hostname := str "nodejs.org", port := none,
              pathname := str "/en", query := none, fragment := none }) ||
        (decide (URLRec.protocol
            { scheme := str "http", hostname := str "nodejs.org", port := none,
              pathname := str "/", query := none, fragment := none } =
            str "http:") &&
          decide (URLRec.protocol
            { scheme := str "https", hostname := str "nodejs.org", port := none,
              pathname := str "/en", query := none, fragment := none } =
            str "https:") &&
          Fetch.generalRedirect (Fetch.httpsURL
            { scheme := str "http", hostname := str "nodejs.org", port := none,
              pathname := str "/", query := none, fragment := none })
            { scheme := str "https", hostname := str "nodejs.org", port := none,
              pathname := str "/en", query := none, fragment := none }))) :=
  c5_redirection_passes
    { scheme := str "http", hostname := str "nodejs.org", port := none,
      pathname := str "/", query := none, fragment := none }
    { scheme := str "https", hostname := str "nodejs.org", port := none,
      pathname := str "/en", query := none, fragment := none }
    (by decide) (by decide) (by decide)

theorem splitChar_ne_nil (c : Char) (s : JStr) : splitChar c s ≠ [] := by
  cases s with
  | nil => simp [splitChar]
  | cons x xs =>
    simp only [splitChar]
    by_cases hx : x = c
    · rw [if_pos hx]
      simp
    · rw [if_neg hx]
      cases h : splitChar c xs with
      | nil => simp
      | cons a rest => simp

theorem join_split (c : Char) (s : JStr) : joinChar c (splitChar c s) = s := by
  induction s with
  | nil => rfl
  | cons x xs ih =>
    simp only [splitChar]
    by_cases hx : x = c
    · rw [if_pos hx]
      obtain ⟨a, rest, h⟩ : ∃ a rest, splitChar c xs = a :: rest := by
        cases h : splitChar c xs with
        | nil => exact absurd h (splitChar_ne_nil c xs)
        | cons a rest => exact ⟨a, rest, rfl⟩
      rw [h]
      rw [h] at ih
      show [] ++ c :: joinChar c (a :: rest) = x :: xs
      rw [List.nil_append, ih, hx]
    · rw [if_neg hx]
      cases h : splitChar c xs with
      | nil => exact absurd h (splitChar_ne_nil c xs)
      | cons a rest =>
        rw [h] at ih
        cases rest with
        | nil =>
          show x :: a = x :: xs
          rw [show joinChar c [a] = a from rfl] at ih
          rw [ih]
        | cons b rest' =>
          show (x :: a) ++ c :: joinChar c (b :: rest') = x :: xs
          rw [show joinChar c (a :: b :: rest') = a ++ c :: joinChar c (b :: rest')
            from rfl] at ih
          rw [List.cons_append, ih]

theorem join_append (c : Char) (a : List JStr) (b : JStr) (bs : List JStr) (h : a ≠ []) :
    joinChar c (a ++ b :: bs) = joinChar c a ++ c :: joinChar c (b :: bs) := by
  induction a with
  | nil => exact absurd rfl h
  | cons x xs ih =>
    cases xs with
    | nil =>
      show x ++ c :: joinChar c (b :: bs) = joinChar c [x] ++ c :: joinChar c (b :: bs)
      rfl
    | cons y ys =>
      show x ++ c :: joinChar c ((y :: ys) ++ b :: bs) =
        (x ++ c :: joinChar c (y :: ys)) ++ c :: joinChar c (b :: bs)
      rw [ih (by simp), List.append_assoc, List.cons_append]

theorem lexLe_refl (a : JStr) : GroupLinks.lexLe a a = true := by
  induction a with
  | nil => rfl
  | cons x xs ih => simp [GroupLinks.lexLe, ih]

theorem lexLe_of_isPrefix (a b : JStr) (h : a <+: b) : GroupLinks.lexLe a b = true := by
  induction a generalizing b with
  | nil => rfl
  | cons x xs ih =>
    cases b with
    | nil => exact absurd (List.IsPrefix.length_le h) (by simp)
    | cons y ys =>
      obtain ⟨hxy, hp⟩ := List.cons_prefix_cons.mp h
      simp [GroupLinks.lexLe, hxy, ih ys hp]

theorem lexLe_append_cons_self (a : JStr) (x : Char) (r : JStr) :
    GroupLinks.lexLe (a ++ x :: r) a = false := by
  induction a with
  | nil => rfl
  | cons h t ih => simp [GroupLinks.lexLe, ih]

instance : IsTotal JStr GroupLinks.lexLeP := by
  constructor
  intro a b
  rw [GroupLinks.lexLeP, GroupLinks.lexLeP]
  induction a generalizing b with
  | nil => exact Or.inl rfl
  | cons x xs ih =>
    cases b with
    | nil => exact Or.inr rfl
    | cons y ys =>
      by_cases hxy : x = y
      · subst hxy
        simp only [GroupLinks.lexLe, if_pos rfl]
        exact ih ys
      · rcases lt_or_gt_of_ne hxy with hlt | hlt
        · exact Or.inl (by simp [GroupLinks.lexLe, hxy, hlt])
        · refine Or.inr ?_
          have hyx : ¬ y = x := fun h => hxy h.symm
          simp [GroupLinks.lexLe, hyx, hlt]

instance : IsTrans JStr GroupLinks.lexLeP := by
  constructor
  intro a b c hab hbc
  rw [GroupLinks.lexLeP] at hab hbc ⊢
  induction a generalizing b c with
  | nil => rfl
  | cons x xs ih =>
    cases b with
    | nil => exact absurd hab (by simp [GroupLinks.lexLe])
    | cons y ys =>
      cases c with
      | nil => exact absurd hbc (by simp [GroupLinks.lexLe])
      | cons z zs =>
        by_cases hxy : x = y
        · subst hxy
          rw [GroupLinks.lexLe, if_pos rfl] at hab
          by_cases hyz : x = z
          · subst hyz
            rw [GroupLinks.lexLe, if_pos rfl] at hbc ⊢
            exact ih ys zs hab hbc
          · rw [GroupLinks.lexLe, if_neg hyz] at hbc ⊢
            exact hbc
        · rw [GroupLinks.lexLe, if_neg hxy] at hab
          rw [decide_eq_true_eq] at hab
          by_cases hyz : y = z
          · subst hyz
            rw [GroupLinks.lexLe, if_neg hxy]
            simp [hab]
          · rw [GroupLinks.lexLe, if_neg hyz] at hbc
            rw [decide_eq_true_eq] at hbc
            have hxz : x < z := lt_trans hab hbc
            rw [GroupLinks.lexLe, if_neg (ne_of_lt hxz)]
            simp [hxz]

theorem sorted_rel_getLast {α : Type} (r : α → α → Prop) :
    ∀ (l : List α), l.Sorted r → ∀ x ∈ l, ∀ y, l.getLast? = some y →
      x = y ∨ r x y := by
  intro l
  induction l with
  | nil => intro _ x hx; cases hx
  | cons a t ih =>
    intro hs x hx y hy
    obtain ⟨hhead, htail⟩ := List.sorted_cons.mp hs
    cases t with
    | nil =>
      simp only [List.getLast?_singleton] at hy
      injection hy with hy
      rcases List.mem_singleton.mp hx with hx
      exact Or.inl (hx.trans hy)
    | cons b t' =>
      rw [List.getLast?_cons_cons] at hy
      rcases List.mem_cons.mp hx with hx | hx
      · subst hx
        exact Or.inr (hhead y (List.mem_of_getLast?_eq_some hy))
      · exact ih htail x hx y hy

theorem currentSegs_spec (bs : List JStr) : ∀ (ps : List JStr),
    ((List.range bs.length).filterMap (fun i =>
        match bs.get? i with
        | some seg => if ps.get? i = some seg then some seg else none
        | none => none) = bs ∧ bs <+: ps) ∨
    ((((List.range bs.length).filterMap (fun i =>
        match bs.get? i with
        | some seg => if ps.get? i = some seg then some seg else none
        | none => none)).length = bs.length → False) ∧ ¬ bs <+: ps) := by
  induction bs with
  | nil =>
    intro ps
    exact Or.inl ⟨rfl, List.nil_prefix⟩
  | cons b bs' ih =>
    intro ps
    cases ps with
    | nil =>
      refine Or.inr ⟨?_, ?_⟩
      · rw [List.filterMap_eq_nil.mpr (fun i _ => by
          cases hgi : (b :: bs').get? i <;> simp [hgi])]
        simp
      · intro hp
        have := List.IsPrefix.length_le hp
        simp at this
    | cons q ps' =>
      rw [List.length_cons, List.range_succ_eq_map, List.filterMap_cons,
        List.filterMap_map]
      have hcomp : List.filterMap ((fun i => match (b :: bs').get? i with
          | some seg => if (q :: ps').get? i = some seg then some seg else none
          | none => none) ∘ Nat.succ) (List.range bs'.length) =
          List.filterMap (fun i => match bs'.get? i with
          | some seg => if ps'.get? i = some seg then some seg else none
          | none => none) (List.range bs'.length) := by
        refine List.filterMap_congr ?_
        intro i hi
        simp only [Function.comp, List.get?_cons_succ]
      by_cases hqb : q = b
      · simp only [List.get?_cons_zero]
        rw [if_pos (by rw [hqb])]
        rw [hcomp]
        rcases ih ps' with ⟨hcur, hpre⟩ | ⟨hlen, hpre⟩
        · exact Or.inl ⟨by rw [hcur], List.cons_prefix_cons.mpr ⟨hqb.symm ▸ rfl, hpre⟩⟩
        · refine Or.inr ⟨?_, ?_⟩
          · intro h
            rw [List.length_cons] at h
            exact hlen (Nat.succ_injective h)
          · intro hp
            exact hpre (List.cons_prefix_cons.mp hp).2
      · simp only [List.get?_cons_zero]
        rw [if_neg (fun he => hqb (Option.some_injective _ he))]
        refine Or.inr ⟨?_, ?_⟩
        · rw [hcomp]
          intro hlen
          have := List.length_filterMap_le (fun i => match bs'.get? i with
            | some seg => if ps'.get? i = some seg then some seg else none
            | none => none) (List.range bs'.length)
          rw [hlen, List.length_range] at this
          omega
        · intro hp
          exact hqb ((List.cons_prefix_cons.mp hp).1.symm)

theorem foldl_matching_last (p : JStr) :
    ∀ (l : List JStr) (acc : List JStr),
      l.foldl (fun acc b => if splitChar '/' b <+: splitChar '/' p
          then splitChar '/' b else acc) acc =
      (match (l.filter (fun b =>
          decide (splitChar '/' b <+: splitChar '/' p))).getLast? with
       | some b0 => splitChar '/' b0
       | none => acc) := by
  intro l
  induction l with
  | nil => intro acc; rfl
  | cons x xs ih =>
    intro acc
    rw [List.foldl_cons, ih]
    by_cases hx : splitChar '/' x <+: splitChar '/' p
    · rw [if_pos hx]
      rw [List.filter_cons_of_pos (by simpa using hx)]
      cases hf : xs.filter (fun b =>
          decide (splitChar '/' b <+: splitChar '/' p)) with
      | nil => simp
      | cons y ys =>
        rw [List.getLast?_cons_cons]
        rfl
    · rw [if_neg hx, List.filter_cons_of_neg (by simpa using hx)]

theorem getBranchesGo_pages (pages : Nat → List JStr) (k : Nat)
    (hshort : (pages k).length < 100)
    (hlong : ∀ i, 1 ≤ i → i < k → 100 ≤ (pages i).length) :
    ∀ (fuel page : Nat), 1 ≤ page → page ≤ k → k - page < fuel →
      GroupLinks.getBranchesGo pages page fuel =
        (((List.range' page (k - page + 1)).map pages).join,
          List.range' page (k - page + 1)) := by
  intro fuel
  induction fuel with
  | zero => intro page _ _ h; omega
  | succ fuel ih =>
    intro page hp1 hpk hfuel
    rw [GroupLinks.getBranchesGo]
    by_cases hpage : page = k
    · subst hpage
      rw [if_pos hshort, Nat.sub_self]
      simp
    · have hlt : page < k := lt_of_le_of_ne hpk hpage
      rw [if_neg (Nat.not_lt.mpr (hlong page hp1 hlt))]
      rw [ih (page + 1) (by omega) (by omega) (by omega)]
      have hr : List.range' page (k - page + 1) =
          page :: List.range' (page + 1) (k - (page + 1) + 1) := by
        have he : k - page + 1 = (k - (page + 1) + 1) + 1 := by omega
        rw [he]
        rfl
      rw [hr]
      simp

/-- **C7.**  The group resolver's branch component is the longest branch name
that is a segment-wise path-prefix-match against the path (the sorted fold
keeps the last — lexicographically largest — matching branch, and matching
branches are mutually prefix-comparable, so the lexicographically largest one
is the longest); and `getBranches` fetches page by page, starting at page 1,
exactly until the first page that returns fewer than the page size (100). -/
theorem c7_branch_resolution (p : JStr) (B : List JStr)
    (pages : Nat → List JStr) (k fuel : Nat) (hk : 1 ≤ k)
    (hshort : (pages k).length < 100)
    (hlong : ∀ i, 1 ≤ i → i < k → 100 ≤ (pages i).length)
    (hfuel : k ≤ fuel) :
    ((∀ b ∈ B, ¬ GroupLinks.branchMatches p b) →
      (GroupLinks.parseGithubFilepathWithBranch p B).branch = none) ∧
    (∀ b ∈ B, GroupLinks.branchMatches p b →
      ∃ b0, (GroupLinks.parseGithubFilepathWithBranch p B).branch = some b0 ∧
        b0 ∈ B ∧ GroupLinks.branchMatches p b0 ∧
        ∀ b' ∈ B, GroupLinks.branchMatches p b' → b'.length ≤ b0.length) ∧
    GroupLinks.getBranches pages fuel =
      (((List.range' 1 k).map pages).join, List.range' 1 k) := by
  have hstep : (GroupLinks.parseGithubFilepathWithBranch p B).branch =
      (match ((B.insertionSort GroupLinks.lexLeP).filter (fun b =>
          decide (splitChar '/' b <+: splitChar '/' p))).getLast? with
       | some b0 => some b0
       | none => none) := by
    rw [GroupLinks.parseGithubFilepathWithBranch]
    dsimp only
    have hfe := List.foldl_ext
      (fun finalSegments branch =>
        if (splitChar '/' branch).length =
            ((List.range (splitChar '/' branch).length).filterMap (fun i =>
              match (splitChar '/' branch).get? i with
              | some seg => if (splitChar '/' p).get? i = some seg
                            then some seg else none
              | none => none)).length
        then (List.range (splitChar '/' branch).length).filterMap (fun i =>
              match (splitChar '/' branch).get? i with
              | some seg => if (splitChar '/' p).get? i = some seg
                            then some seg else none
              | none => none)
        else finalSegments)
      (fun acc b => if splitChar '/' b <+: splitChar '/' p
          then splitChar '/' b else acc)
      ([] : List JStr)
      (l := B.insertionSort GroupLinks.lexLeP)
      (by
        intro acc b _
        dsimp only
        rcases currentSegs_spec (splitChar '/' b) (splitChar '/' p) with
          ⟨hcur, hpre⟩ | ⟨hlen, hpre⟩
        · rw [if_pos (by rw [hcur]), if_pos hpre, hcur]
        · rw [if_neg (fun h => hlen h.symm), if_neg hpre])
    rw [hfe, foldl_matching_last p (B.insertionSort GroupLinks.lexLeP) []]
    cases hL : ((B.insertionSort GroupLinks.lexLeP).filter (fun b =>
        decide (splitChar '/' b <+: splitChar '/' p))).getLast? with
    | none => rfl
    | some b0 =>
      have hne := splitChar_ne_nil '/' b0
      rw [if_pos (by
        simp only [gt_iff_lt, List.length_pos]
        exact hne)]
      rw [join_split]
  refine ⟨?_, ?_, ?_⟩
  · intro hnone
    rw [hstep]
    have hfil : (B.insertionSort GroupLinks.lexLeP).filter (fun b =>
        decide (splitChar '/' b <+: splitChar '/' p)) = [] := by
      rw [List.filter_eq_nil_iff]
      intro b hb
      have hbB : b ∈ B := (List.perm_insertionSort GroupLinks.lexLeP B).mem_iff.mp hb
      simpa using hnone b hbB
    rw [hfil]
    rfl
  · intro b hbB hbm
    rw [hstep]
    have hbSL : b ∈ B.insertionSort GroupLinks.lexLeP :=
      (List.perm_insertionSort GroupLinks.lexLeP B).mem_iff.mpr hbB
    have hbF : b ∈ (B.insertionSort GroupLinks.lexLeP).filter (fun b =>
        decide (splitChar '/' b <+: splitChar '/' p)) :=
      List.mem_filter.mpr ⟨hbSL, by simpa using hbm⟩
    cases hL : ((B.insertionSort GroupLinks.lexLeP).filter (fun b =>
        decide (splitChar '/' b <+: splitChar '/' p))).getLast? with
    | none =>
      rw [List.getLast?_eq_none_iff] at hL
      rw [hL] at hbF
      cases hbF
    | some b0 =>
      have hb0F := List.mem_of_getLast?_eq_some hL
      have hb0SL := (List.mem_filter.mp hb0F).1
      have hb0m : GroupLinks.branchMatches p b0 := by
        have := (List.mem_filter.mp hb0F).2
        simpa using this
      refine ⟨b0, rfl,
        (List.perm_insertionSort GroupLinks.lexLeP B).mem_iff.mp hb0SL, hb0m, ?_⟩
      intro b' hb'B hb'm
      have hb'F : b' ∈ (B.insertionSort GroupLinks.lexLeP).filter (fun b =>
          decide (splitChar '/' b <+: splitChar '/' p)) :=
        List.mem_filter.mpr
          ⟨(List.perm_insertionSort GroupLinks.lexLeP B).mem_iff.mpr hb'B,
           by simpa using hb'm⟩
      have hsorted : ((B.insertionSort GroupLinks.lexLeP).filter (fun b =>
          decide (splitChar '/' b <+: splitChar '/' p))).Sorted GroupLinks.lexLeP :=
        (List.sorted_insertionSort GroupLinks.lexLeP B).filter _
      rcases sorted_rel_getLast GroupLinks.lexLeP _ hsorted b' hb'F b0 hL with
        heq | hrel
      · rw [heq]
      · rcases List.prefix_or_prefix_of_prefix hb'm hb0m with hp | hp
        · obtain ⟨t, ht⟩ := hp
          cases t with
          | nil =>
            rw [List.append_nil] at ht
            have : b' = b0 := by
              rw [← join_split '/' b', ← join_split '/' b0, ht]
            rw [this]
          | cons s ts =>
            have hb0eq : b0 = b' ++ '/' :: joinChar '/' (s :: ts) := by
              rw [← join_split '/' b0, ← ht,
                join_append '/' _ s ts (splitChar_ne_nil '/' b'), join_split]
            rw [hb0eq]
            simp
        · obtain ⟨t, ht⟩ := hp
          cases t with
          | nil =>
            rw [List.append_nil] at ht
            have : b0 = b' := by
              rw [← join_split '/' b0, ← join_split '/' b', ht]
            rw [this]
          | cons s ts =>
            have hb'eq : b' = b0 ++ '/' :: joinChar '/' (s :: ts) := by
              rw [← join_split '/' b', ← ht,
                join_append '/' _ s ts (splitChar_ne_nil '/' b0), join_split]
            rw [GroupLinks.lexLeP, hb'eq, lexLe_append_cons_self] at hrel
            cases hrel
  · rw [GroupLinks.getBranches]
    have := getBranchesGo_pages pages k hshort hlong fuel 1 le_rfl hk (by omega)
    rw [this]
    have hke : k - 1 + 1 = k := by omega
    rw [hke]

/-- Witness for C7: among branches `dev`, `main/docs`, `main`, the resolver
picks `main/docs` (the longest match) for path `main/docs/mod.ts`, and a
single short page stops pagination at page 1. -/
theorem c7_branch_resolution_witness :
    (∃ b0, (GroupLinks.parseGithubFilepathWithBranch (str "main/docs/mod.ts")
        [str "dev", str "main/docs", str "main"]).branch = some b0 ∧
      b0 ∈ [str "dev", str "main/docs", str "main"] ∧
      GroupLinks.branchMatches (str "main/docs/mod.ts") b0 ∧
      ∀ b' ∈ [str "dev", str "main/docs", str "main"],
        GroupLinks.branchMatches (str "main/docs/mod.ts") b' →
        b'.length ≤ b0.length) ∧
    GroupLinks.getBranches (fun i => if i = 1 then [str "b1"] else []) 1 =
      (((List.range' 1 1).map (fun i => if i = 1 then [str "b1"] else [])).join,
        List.range' 1 1) :=
  ⟨(c7_branch_resolution (str "main/docs/mod.ts")
      [str "dev", str "main/docs", str "main"]
      (fun i => if i = 1 then [str "b1"] else []) 1 1 (by decide) (by decide)
      (fun i h1 h2 => absurd (Nat.lt_of_lt_of_le h2 h1) (Nat.lt_irrefl _))
      (by decide)).2.1 (str "main") (by decide) (by decide),
   (c7_branch_resolution (str "main/docs/mod.ts")
      [str "dev", str "main/docs", str "main"]
      (fun i => if i = 1 then [str "b1"] else []) 1 1 (by decide) (by decide)
      (fun i h1 h2 => absurd (Nat.lt_of_lt_of_le h2 h1) (Nat.lt_irrefl _))
      (by decide)).2.2⟩

theorem updateRec_stack (fp : List JStr) (o n : JStr) (r : Fixer.IssueWithStack) :
    (Fixer.updateRec fp o n r).stack = r.stack := by
  rw [Fixer.updateRec]
  split <;> rfl

theorem sizeRecs_map_updateRec (fp : List JStr) (o n : JStr)
    (l : List Fixer.IssueWithStack) :
    Fixer.sizeRecs (l.map (Fixer.updateRec fp o n)) = Fixer.sizeRecs l := by
  rw [Fixer.sizeRecs, Fixer.sizeRecs, List.map_map]
  congr 1
  refine List.map_congr_left ?_
  intro r _
  simp [Function.comp, updateRec_stack]

theorem sizeRecs_append (a b : List Fixer.IssueWithStack) :
    Fixer.sizeRecs (a ++ b) = Fixer.sizeRecs a + Fixer.sizeRecs b := by
  rw [Fixer.sizeRecs, Fixer.sizeRecs, Fixer.sizeRecs, List.map_append,
    List.sum_append]

theorem totalStackSize_sizeRecs (g : Fixer.Grouped) :
    Fixer.totalStackSize g = (g.map (fun tg => Fixer.sizeRecs tg.recs)).sum := rfl

theorem totalStackSize_append (a b : Fixer.Grouped) :
    Fixer.totalStackSize (a ++ b) = Fixer.totalStackSize a + Fixer.totalStackSize b := by
  rw [totalStackSize_sizeRecs, totalStackSize_sizeRecs, totalStackSize_sizeRecs,
    List.map_append, List.sum_append]

theorem updateGroup_size (fp : List JStr) (o n : JStr) (tg : Fixer.TypedGroup) :
    Fixer.sizeRecs (Fixer.updateGroup fp o n tg).recs = Fixer.sizeRecs tg.recs := by
  rw [Fixer.updateGroup]
  split
  · dsimp only
    rw [sizeRecs_map_updateRec]
  · rfl

theorem totalStackSize_map_updateGroup (fp : List JStr) (o n : JStr)
    (g : Fixer.Grouped) :
    Fixer.totalStackSize (g.map (Fixer.updateGroup fp o n)) =
      Fixer.totalStackSize g := by
  rw [totalStackSize_sizeRecs, totalStackSize_sizeRecs, List.map_map]
  congr 1
  refine List.map_congr_left ?_
  intro tg _
  simp [Function.comp, updateGroup_size]

theorem applyUpdatesGroup_size (us : List Fixer.RefUpdate) :
    ∀ (tg : Fixer.TypedGroup),
      Fixer.sizeRecs (Fixer.applyUpdatesGroup us tg).recs = Fixer.sizeRecs tg.recs := by
  induction us with
  | nil => intro tg; rfl
  | cons u us ih =>
    intro tg
    rw [Fixer.applyUpdatesGroup, List.foldl_cons]
    have := ih (Fixer.updateGroup u.1 u.2.1 u.2.2 tg)
    rw [Fixer.applyUpdatesGroup] at this
    rw [this, updateGroup_size]

theorem totalStackSize_map_applyUpdates (us : List Fixer.RefUpdate)
    (g : Fixer.Grouped) :
    Fixer.totalStackSize (g.map (Fixer.applyUpdatesGroup us)) =
      Fixer.totalStackSize g := by
  rw [totalStackSize_sizeRecs, totalStackSize_sizeRecs, List.map_map]
  congr 1
  refine List.map_congr_left ?_
  intro tg _
  simp [Function.comp, applyUpdatesGroup_size]

theorem recsNonempty_map_updateRec (fp : List JStr) (o n : JStr)
    (l : List Fixer.IssueWithStack) (h : Fixer.RecsNonempty l) :
    Fixer.RecsNonempty (l.map (Fixer.updateRec fp o n)) := by
  intro r hr
  obtain ⟨r', hr', rfl⟩ := List.mem_map.mp hr
  rw [updateRec_stack]
  exact h r' hr'

theorem recsNonempty_append (a b : List Fixer.IssueWithStack)
    (ha : Fixer.RecsNonempty a) (hb : Fixer.RecsNonempty b) :
    Fixer.RecsNonempty (a ++ b) := by
  intro r hr
  rcases List.mem_append.mp hr with h | h
  · exact ha r h
  · exact hb r h

theorem sizeRecs_cons (r : Fixer.IssueWithStack) (l : List Fixer.IssueWithStack) :
    Fixer.sizeRecs (r :: l) = r.stack.length + Fixer.sizeRecs l := by
  rw [Fixer.sizeRecs, Fixer.sizeRecs, List.map_cons, List.sum_cons]

theorem processRecs_conservation (close : JStr → JStr → Bool) :
    ∀ (n : Nat) (todo : List Fixer.IssueWithStack), todo.length = n →
    ∀ (before : Fixer.Grouped) (done : List Fixer.IssueWithStack) (cnt : Nat),
      Fixer.totalStackSize (Fixer.processRecs close before done todo cnt).before +
        Fixer.sizeRecs (Fixer.processRecs close before done todo cnt).recs +
        (Fixer.processRecs close before done todo cnt).cnt =
      Fixer.totalStackSize before + Fixer.sizeRecs done + Fixer.sizeRecs todo + cnt ∧
      cnt ≤ (Fixer.processRecs close before done todo cnt).cnt := by
  intro n
  induction n using Nat.strong_induction_on with
  | _ n ih =>
    intro todo hlen before done cnt
    cases todo with
    | nil =>
      rw [Fixer.processRecs]
      constructor
      · show Fixer.totalStackSize before + Fixer.sizeRecs done + cnt =
          Fixer.totalStackSize before + Fixer.sizeRecs done + Fixer.sizeRecs [] + cnt
        rw [show Fixer.sizeRecs [] = 0 from rfl]
        omega
      · exact le_refl cnt
    | cons r rest =>
      subst hlen
      rw [Fixer.processRecs]
      cases hfs : Fixer.getFixedString close r.issue with
      | none =>
        dsimp only
        obtain ⟨hc, hm⟩ := ih rest.length (by simp) rest rfl before (done ++ [r]) cnt
        rw [sizeRecs_append] at hc
        rw [sizeRecs_cons]
        constructor
        · rw [hc, show Fixer.sizeRecs [r] = r.stack.length + 0 from rfl]
          omega
        · exact hm
      | some p =>
        obtain ⟨old, new⟩ := p
        dsimp only
        obtain ⟨hc, hm⟩ := ih rest.length (by simp)
          (rest.map (Fixer.updateRec ((r.stack.filter (fun st : Fixer.Stack =>
            ! jsStartsWith (str "ref/") st.filepath)).map
              (fun st : Fixer.Stack => st.filepath)) old new))
          (by rw [List.length_map])
          (before.map (Fixer.updateGroup ((r.stack.filter (fun st : Fixer.Stack =>
            ! jsStartsWith (str "ref/") st.filepath)).map
              (fun st : Fixer.Stack => st.filepath)) old new))
          ((done ++ (if (r.stack.filter (fun st : Fixer.Stack =>
              jsStartsWith (str "ref/") st.filepath)).isEmpty then []
            else [{ r with stack := r.stack.filter (fun st : Fixer.Stack =>
              jsStartsWith (str "ref/") st.filepath) }])).map
            (Fixer.updateRec ((r.stack.filter (fun st : Fixer.Stack =>
              ! jsStartsWith (str "ref/") st.filepath)).map
                (fun st : Fixer.Stack => st.filepath)) old new))
          (cnt + (r.stack.length - (r.stack.filter (fun st : Fixer.Stack =>
            jsStartsWith (str "ref/") st.filepath)).length))
        rw [totalStackSize_map_updateGroup, sizeRecs_map_updateRec,
          sizeRecs_map_updateRec, sizeRecs_append] at hc
        have hflen : (r.stack.filter (fun st =>
            jsStartsWith (str "ref/") st.filepath)).length ≤ r.stack.length :=
          List.length_filter_le _ _
        have hsif : Fixer.sizeRecs (if (r.stack.filter (fun st =>
            jsStartsWith (str "ref/") st.filepath)).isEmpty then []
          else [{ r with stack := r.stack.filter (fun st =>
            jsStartsWith (str "ref/") st.filepath) }]) =
          (r.stack.filter (fun st => jsStartsWith (str "ref/") st.filepath)).length := by
          split
          · rename_i hemp
            rw [List.isEmpty_iff] at hemp
            rw [hemp]
            rfl
          · simp [Fixer.sizeRecs]
        refine ⟨?_, ?_⟩
        · rw [hc, hsif, sizeRecs_cons]
          omega
        · exact le_trans (Nat.le_add_right cnt _) hm

theorem totalStackSize_cons (tg : Fixer.TypedGroup) (g : Fixer.Grouped) :
    Fixer.totalStackSize (tg :: g) =
      Fixer.sizeRecs tg.recs + Fixer.totalStackSize g := by
  rw [totalStackSize_sizeRecs, totalStackSize_sizeRecs, List.map_cons,
    List.sum_cons]

theorem processGroups_conservation (close : JStr → JStr → Bool) :
    ∀ (n : Nat) (todo : Fixer.Grouped), todo.length = n →
    ∀ (done : Fixer.Grouped) (cnt : Nat),
      Fixer.totalStackSize (Fixer.processGroups close done todo cnt).1 +
        (Fixer.processGroups close done todo cnt).2 =
      Fixer.totalStackSize done + Fixer.totalStackSize todo + cnt ∧
      cnt ≤ (Fixer.processGroups close done todo cnt).2 := by
  intro n
  induction n using Nat.strong_induction_on with
  | _ n ih =>
    intro todo hlen done cnt
    cases todo with
    | nil =>
      rw [Fixer.processGroups]
      constructor
      · show Fixer.totalStackSize done + cnt =
          Fixer.totalStackSize done + Fixer.totalStackSize [] + cnt
        rw [show Fixer.totalStackSize [] = 0 from rfl]
        omega
      · exact le_refl cnt
    | cons g rest =>
      subst hlen
      rw [Fixer.processGroups]
      split
      · obtain ⟨hc1, _⟩ :=
          processRecs_conservation close g.recs.length g.recs rfl done [] 0
        obtain ⟨hc2, hm2⟩ := ih rest.length (by simp)
          (rest.map (Fixer.applyUpdatesGroup
            (Fixer.processRecs close done [] g.recs 0).updates))
          (by rw [List.length_map])
          ((Fixer.processRecs close done [] g.recs 0).before ++
            (if (Fixer.processRecs close done [] g.recs 0).recs.isEmpty then []
             else [{ gtype := g.gtype,
                     recs := (Fixer.processRecs close done [] g.recs 0).recs }]))
          (cnt + (Fixer.processRecs close done [] g.recs 0).cnt)
        rw [totalStackSize_append, totalStackSize_map_applyUpdates] at hc2
        have hif : Fixer.totalStackSize
            (if (Fixer.processRecs close done [] g.recs 0).recs.isEmpty then []
             else [{ gtype := g.gtype,
                     recs := (Fixer.processRecs close done [] g.recs 0).recs }]) =
            Fixer.sizeRecs (Fixer.processRecs close done [] g.recs 0).recs := by
          split
          · rename_i hemp
            rw [List.isEmpty_iff] at hemp
            rw [hemp]
            rfl
          · rw [totalStackSize_cons]
            rfl
        rw [hif] at hc2
        rw [show Fixer.sizeRecs [] = 0 from rfl] at hc1
        rw [totalStackSize_cons]
        constructor
        · rw [hc2]
          omega
        · exact le_trans (Nat.le_add_right cnt _) hm2
      · obtain ⟨hc2, hm2⟩ := ih rest.length (by simp) rest rfl (done ++ [g]) cnt
        rw [totalStackSize_append] at hc2
        rw [totalStackSize_cons]
        constructor
        · rw [hc2, show Fixer.totalStackSize [g] =
            Fixer.sizeRecs g.recs + 0 from (totalStackSize_cons g []).trans rfl]
          omega
        · exact hm2

theorem updateGroup_recsNonempty (fp : List JStr) (o n : JStr)
    (tg : Fixer.TypedGroup) (h : Fixer.RecsNonempty tg.recs) :
    Fixer.RecsNonempty (Fixer.updateGroup fp o n tg).recs := by
  rw [Fixer.updateGroup]
  split
  · exact recsNonempty_map_updateRec fp o n _ h
  · exact h

theorem SN_map_updateGroup (fp : List JStr) (o n : JStr) (G : Fixer.Grouped)
    (h : Fixer.StacksNonempty G) :
    Fixer.StacksNonempty (G.map (Fixer.updateGroup fp o n)) := by
  intro tg htg
  obtain ⟨tg', htg', rfl⟩ := List.mem_map.mp htg
  exact updateGroup_recsNonempty fp o n tg' (fun r hr => h tg' htg' r hr)

theorem GN_map_updateGroup (fp : List JStr) (o n : JStr) (G : Fixer.Grouped)
    (h : Fixer.GroupsNonempty G) :
    Fixer.GroupsNonempty (G.map (Fixer.updateGroup fp o n)) := by
  intro tg htg
  obtain ⟨tg', htg', rfl⟩ := List.mem_map.mp htg
  rw [Fixer.updateGroup]
  split
  · intro hnil
    dsimp only at hnil
    exact h tg' htg' (List.map_eq_nil.mp hnil)
  · exact h tg' htg'

theorem applyUpdatesGroup_recsNonempty (us : List Fixer.RefUpdate) :
    ∀ (tg : Fixer.TypedGroup), Fixer.RecsNonempty tg.recs →
      Fixer.RecsNonempty (Fixer.applyUpdatesGroup us tg).recs := by
  induction us with
  | nil => intro tg h; exact h
  | cons u us ih =>
    intro tg h
    rw [Fixer.applyUpdatesGroup, List.foldl_cons]
    have := ih (Fixer.updateGroup u.1 u.2.1 u.2.2 tg)
      (updateGroup_recsNonempty u.1 u.2.1 u.2.2 tg h)
    rw [Fixer.applyUpdatesGroup] at this
    exact this

theorem applyUpdatesGroup_recs_ne_nil (us : List Fixer.RefUpdate) :
    ∀ (tg : Fixer.TypedGroup), tg.recs ≠ [] →
      (Fixer.applyUpdatesGroup us tg).recs ≠ [] := by
  induction us with
  | nil => intro tg h; exact h
  | cons u us ih =>
    intro tg h
    rw [Fixer.applyUpdatesGroup, List.foldl_cons]
    have hne : (Fixer.updateGroup u.1 u.2.1 u.2.2 tg).recs ≠ [] := by
      rw [Fixer.updateGroup]
      split
      · intro hnil
        dsimp only at hnil
        exact h (List.map_eq_nil.mp hnil)
      · exact h
    have := ih (Fixer.updateGroup u.1 u.2.1 u.2.2 tg) hne
    rw [Fixer.applyUpdatesGroup] at this
    exact this

theorem SN_map_applyUpdates (us : List Fixer.RefUpdate) (G : Fixer.Grouped)
    (h : Fixer.StacksNonempty G) :
    Fixer.StacksNonempty (G.map (Fixer.applyUpdatesGroup us)) := by
  intro tg htg
  obtain ⟨tg', htg', rfl⟩ := List.mem_map.mp htg
  exact applyUpdatesGroup_recsNonempty us tg' (fun r hr => h tg' htg' r hr)

theorem GN_map_applyUpdates (us : List Fixer.RefUpdate) (G : Fixer.Grouped)
    (h : Fixer.GroupsNonempty G) :
    Fixer.GroupsNonempty (G.map (Fixer.applyUpdatesGroup us)) := by
  intro tg htg
  obtain ⟨tg', htg', rfl⟩ := List.mem_map.mp htg
  exact applyUpdatesGroup_recs_ne_nil us tg' (h tg' htg')

theorem SN_append (a b : Fixer.Grouped) (ha : Fixer.StacksNonempty a)
    (hb : Fixer.StacksNonempty b) : Fixer.StacksNonempty (a ++ b) := by
  intro tg htg
  rcases List.mem_append.mp htg with h | h
  · exact ha tg h
  · exact hb tg h

theorem GN_append (a b : Fixer.Grouped) (ha : Fixer.GroupsNonempty a)
    (hb : Fixer.GroupsNonempty b) : Fixer.GroupsNonempty (a ++ b) := by
  intro tg htg
  rcases List.mem_append.mp htg with h | h
  · exact ha tg h
  · exact hb tg h

theorem processRecs_preserves (close : JStr → JStr → Bool) :
    ∀ (n : Nat) (todo : List Fixer.IssueWithStack), todo.length = n →
    ∀ (before : Fixer.Grouped) (done : List Fixer.IssueWithStack) (cnt : Nat),
      Fixer.StacksNonempty before → Fixer.GroupsNonempty before →
      Fixer.RecsNonempty done → Fixer.RecsNonempty todo →
      Fixer.StacksNonempty (Fixer.processRecs close before done todo cnt).before ∧
      Fixer.GroupsNonempty (Fixer.processRecs close before done todo cnt).before ∧
      Fixer.RecsNonempty (Fixer.processRecs close before done todo cnt).recs := by
  intro n
  induction n using Nat.strong_induction_on with
  | _ n ih =>
    intro todo hlen before done cnt hsn hgn hrd hrt
    cases todo with
    | nil =>
      rw [Fixer.processRecs]
      exact ⟨hsn, hgn, hrd⟩
    | cons r rest =>
      subst hlen
      rw [Fixer.processRecs]
      have hrr : r.stack ≠ [] := hrt r (List.mem_cons_self _ _)
      have hrt' : Fixer.RecsNonempty rest :=
        fun x hx => hrt x (List.mem_cons_of_mem _ hx)
      cases hfs : Fixer.getFixedString close r.issue with
      | none =>
        dsimp only
        exact ih rest.length (by simp) rest rfl before (done ++ [r]) cnt hsn hgn
          (recsNonempty_append done [r] hrd
            (fun x hx => by rw [List.mem_singleton.mp hx]; exact hrr)) hrt'
      | some p =>
        obtain ⟨old, new⟩ := p
        dsimp only
        refine ih rest.length (by simp) _ (List.length_map rest _) _ _ _
          (SN_map_updateGroup _ old new before hsn)
          (GN_map_updateGroup _ old new before hgn)
          (recsNonempty_map_updateRec _ old new _
            (recsNonempty_append done _ hrd ?_)) 
          (recsNonempty_map_updateRec _ old new rest hrt')
        intro x hx
        split at hx
        · cases hx
        · rw [List.mem_singleton.mp hx]
          rename_i hemp
          intro hnil
          dsimp only at hnil
          rw [hnil] at hemp
          exact hemp rfl

theorem processGroups_preserves (close : JStr → JStr → Bool) :
    ∀ (n : Nat) (todo : Fixer.Grouped), todo.length = n →
    ∀ (done : Fixer.Grouped) (cnt : Nat),
      Fixer.StacksNonempty done → Fixer.GroupsNonempty done →
      Fixer.StacksNonempty todo → Fixer.GroupsNonempty todo →
      Fixer.StacksNonempty (Fixer.processGroups close done todo cnt).1 ∧
      Fixer.GroupsNonempty (Fixer.processGroups close done todo cnt).1 := by
  intro n
  induction n using Nat.strong_induction_on with
  | _ n ih =>
    intro todo hlen done cnt hsd hgd hst hgt
    cases todo with
    | nil =>
      rw [Fixer.processGroups]
      exact ⟨hsd, hgd⟩
    | cons g rest =>
      subst hlen
      rw [Fixer.processGroups]
      have hst' : Fixer.StacksNonempty rest :=
        fun tg htg => hst tg (List.mem_cons_of_mem _ htg)
      have hgt' : Fixer.GroupsNonempty rest :=
        fun tg htg => hgt tg (List.mem_cons_of_mem _ htg)
      split
      · obtain ⟨hsb, hgb, hrr⟩ := processRecs_preserves close g.recs.length g.recs
          rfl done [] 0 hsd hgd (fun x hx => absurd hx (List.not_mem_nil x))
          (fun r hr => hst g (List.mem_cons_self _ _) r hr)
        refine ih rest.length (by simp) _ (List.length_map rest _) _ _
          (SN_append _ _ hsb ?_) (GN_append _ _ hgb ?_)
          (SN_map_applyUpdates _ rest hst') (GN_map_applyUpdates _ rest hgt')
        · intro tg htg
          split at htg
          · cases htg
          · rw [List.mem_singleton.mp htg]
            exact fun r hr => hrr r hr
        · intro tg htg
          split at htg
          · cases htg
          · rw [List.mem_singleton.mp htg]
            rename_i hemp
            intro hnil
            dsimp only at hnil
            rw [hnil] at hemp
            exact hemp rfl
      · exact ih rest.length (by simp) rest rfl (done ++ [g]) cnt
          (SN_append done [g] hsd (fun tg htg => by
            rw [List.mem_singleton.mp htg]
            exact fun r hr => hst g (List.mem_cons_self _ _) r hr))
          (GN_append done [g] hgd (fun tg htg => by
            rw [List.mem_singleton.mp htg]
            exact hgt g (List.mem_cons_self _ _)))
          hst' hgt'

theorem updateRec_nil_id (o n : JStr) (r : Fixer.IssueWithStack)
    (h : r.stack ≠ []) : Fixer.updateRec [] o n r = r := by
  obtain ⟨x, xs, hx⟩ := List.exists_cons_of_ne_nil h
  rw [Fixer.updateRec, if_pos (by rw [hx]; rfl)]

theorem map_updateRec_nil_id (o n : JStr) (l : List Fixer.IssueWithStack)
    (h : Fixer.RecsNonempty l) : l.map (Fixer.updateRec [] o n) = l :=
  (List.map_congr_left (fun r hr => updateRec_nil_id o n r (h r hr))).trans
    (List.map_id l)

theorem updateGroup_nil_id (o n : JStr) (tg : Fixer.TypedGroup)
    (h : Fixer.RecsNonempty tg.recs) : Fixer.updateGroup [] o n tg = tg := by
  rw [Fixer.updateGroup]
  split
  · rw [map_updateRec_nil_id o n tg.recs h]
  · rfl

theorem map_updateGroup_nil_id (o n : JStr) (G : Fixer.Grouped)
    (h : Fixer.StacksNonempty G) : G.map (Fixer.updateGroup [] o n) = G :=
  (List.map_congr_left (fun tg htg =>
    updateGroup_nil_id o n tg (fun r hr => h tg htg r hr))).trans (List.map_id G)

theorem applyUpdates_trivial_id (us : List Fixer.RefUpdate)
    (h : ∀ u ∈ us, u.1 = []) :
    ∀ (tg : Fixer.TypedGroup), Fixer.RecsNonempty tg.recs →
      Fixer.applyUpdatesGroup us tg = tg := by
  induction us with
  | nil => intro tg _; rfl
  | cons u us ih =>
    intro tg hrn
    rw [Fixer.applyUpdatesGroup, List.foldl_cons]
    rw [show Fixer.updateGroup u.1 u.2.1 u.2.2 tg = tg by
      rw [h u (List.mem_cons_self _ _)]
      exact updateGroup_nil_id u.2.1 u.2.2 tg hrn]
    have := ih (fun v hv => h v (List.mem_cons_of_mem _ hv)) tg hrn
    rw [Fixer.applyUpdatesGroup] at this
    exact this

theorem map_applyUpdates_trivial_id (us : List Fixer.RefUpdate)
    (h : ∀ u ∈ us, u.1 = []) (G : Fixer.Grouped)
    (hsn : Fixer.StacksNonempty G) : G.map (Fixer.applyUpdatesGroup us) = G :=
  (List.map_congr_left (fun tg htg =>
    applyUpdates_trivial_id us h tg (fun r hr => hsn tg htg r hr))).trans
    (List.map_id G)

theorem processRecs_zero_id (close : JStr → JStr → Bool) :
    ∀ (n : Nat) (todo : List Fixer.IssueWithStack), todo.length = n →
    ∀ (before : Fixer.Grouped) (done : List Fixer.IssueWithStack) (cnt : Nat),
      Fixer.StacksNonempty before →
      Fixer.RecsNonempty done → Fixer.RecsNonempty todo →
      (Fixer.processRecs close before done todo cnt).cnt = cnt →
      (Fixer.processRecs close before done todo cnt).before = before ∧
      (Fixer.processRecs close before done todo cnt).recs = done ++ todo ∧
      ∀ u ∈ (Fixer.processRecs close before done todo cnt).updates, u.1 = [] := by
  intro n
  induction n using Nat.strong_induction_on with
  | _ n ih =>
    intro todo hlen before done cnt hsn hrd hrt hz
    cases todo with
    | nil =>
      rw [Fixer.processRecs]
      exact ⟨rfl, (List.append_nil done).symm, fun u hu => absurd hu (List.not_mem_nil u)⟩
    | cons r rest =>
      subst hlen
      have hrr : r.stack ≠ [] := hrt r (List.mem_cons_self _ _)
      have hrt' : Fixer.RecsNonempty rest :=
        fun x hx => hrt x (List.mem_cons_of_mem _ hx)
      rw [Fixer.processRecs] at hz ⊢
      cases hfs : Fixer.getFixedString close r.issue with
      | none =>
        rw [hfs] at hz
        dsimp only at hz ⊢
        have hrd' : Fixer.RecsNonempty (done ++ [r]) :=
          recsNonempty_append done [r] hrd
            (fun x hx => by rw [List.mem_singleton.mp hx]; exact hrr)
        obtain ⟨h1, h2, h3⟩ := ih rest.length (by simp) rest rfl before
          (done ++ [r]) cnt hsn hrd' hrt' hz
        refine ⟨h1, ?_, h3⟩
        rw [h2]
        simp
      | some p =>
        obtain ⟨old, new⟩ := p
        rw [hfs] at hz
        dsimp only at hz ⊢
        have hmono := (processRecs_conservation close rest.length
          (rest.map (Fixer.updateRec ((r.stack.filter (fun st : Fixer.Stack =>
            ! jsStartsWith (str "ref/") st.filepath)).map
              (fun st : Fixer.Stack => st.filepath)) old new))
          (List.length_map rest _)
          (before.map (Fixer.updateGroup ((r.stack.filter (fun st : Fixer.Stack =>
            ! jsStartsWith (str "ref/") st.filepath)).map
              (fun st : Fixer.Stack => st.filepath)) old new))
          ((done ++ (if (r.stack.filter (fun st : Fixer.Stack =>
              jsStartsWith (str "ref/") st.filepath)).isEmpty then []
            else [{ r with stack := r.stack.filter (fun st : Fixer.Stack =>
              jsStartsWith (str "ref/") st.filepath) }])).map
            (Fixer.updateRec ((r.stack.filter (fun st : Fixer.Stack =>
              ! jsStartsWith (str "ref/") st.filepath)).map
                (fun st : Fixer.Stack => st.filepath)) old new))
          (cnt + (r.stack.length - (r.stack.filter (fun st : Fixer.Stack =>
            jsStartsWith (str "ref/") st.filepath)).length))).2
        have hflen : (r.stack.filter (fun st : Fixer.Stack =>
            jsStartsWith (str "ref/") st.filepath)).length ≤ r.stack.length :=
          List.length_filter_le _ _
        have hc0 : r.stack.length - (r.stack.filter (fun st : Fixer.Stack =>
            jsStartsWith (str "ref/") st.filepath)).length = 0 := by omega
        have hall : ∀ st ∈ r.stack, jsStartsWith (str "ref/") st.filepath = true :=
          List.filter_length_eq_length.mp (by omega)
        have hfil : r.stack.filter (fun st : Fixer.Stack =>
            jsStartsWith (str "ref/") st.filepath) = r.stack :=
          List.filter_eq_self.mpr hall
        have hfp : (r.stack.filter (fun st : Fixer.Stack =>
            ! jsStartsWith (str "ref/") st.filepath)).map
              (fun st : Fixer.Stack => st.filepath) = [] := by
          rw [List.filter_eq_nil_iff.mpr (fun st hst => by
            rw [hall st hst]
            exact Bool.not_eq_true _ ▸ rfl)]
          rfl
        rw [hfp, hc0, Nat.add_zero, hfil] at hz ⊢
        rw [if_neg (fun him => hrr (List.isEmpty_iff.mp him))] at hz ⊢
        have heta : ({ r with stack := r.stack } : Fixer.IssueWithStack) = r := rfl
        rw [heta] at hz ⊢
        rw [map_updateGroup_nil_id old new before hsn] at hz ⊢
        have hrd' : Fixer.RecsNonempty (done ++ [r]) :=
          recsNonempty_append done [r] hrd
            (fun x hx => by rw [List.mem_singleton.mp hx]; exact hrr)
        rw [map_updateRec_nil_id old new (done ++ [r]) hrd',
          map_updateRec_nil_id old new rest hrt'] at hz ⊢
        obtain ⟨h1, h2, h3⟩ := ih rest.length (by simp) rest rfl before
          (done ++ [r]) cnt hsn hrd' hrt' hz
        refine ⟨h1, ?_, ?_⟩
        · rw [h2]
          simp
        · intro u hu
          rcases List.mem_cons.mp hu with hu | hu
          · rw [hu]
          · exact h3 u hu

theorem processGroups_zero_id (close : JStr → JStr → Bool) :
    ∀ (n : Nat) (todo : Fixer.Grouped), todo.length = n →
    ∀ (done : Fixer.Grouped) (cnt : Nat),
      Fixer.StacksNonempty done → Fixer.GroupsNonempty done →
      Fixer.StacksNonempty todo → Fixer.GroupsNonempty todo →
      (Fixer.processGroups close done todo cnt).2 = cnt →
      (Fixer.processGroups close done todo cnt).1 = done ++ todo := by
  intro n
  induction n using Nat.strong_induction_on with
  | _ n ih =>
    intro todo hlen done cnt hsd hgd hst hgt hz
    cases todo with
    | nil =>
      rw [Fixer.processGroups]
      exact (List.append_nil done).symm
    | cons g rest =>
      subst hlen
      have hst' : Fixer.StacksNonempty rest :=
        fun tg htg => hst tg (List.mem_cons_of_mem _ htg)
      have hgt' : Fixer.GroupsNonempty rest :=
        fun tg htg => hgt tg (List.mem_cons_of_mem _ htg)
      have hsg : Fixer.RecsNonempty g.recs :=
        fun r hr => hst g (List.mem_cons_self _ _) r hr
      have hgg : g.recs ≠ [] := hgt g (List.mem_cons_self _ _)
      rw [Fixer.processGroups] at hz ⊢
      split at hz
      · rename_i hfix
        rw [if_pos hfix]
        dsimp only at hz ⊢
        have hmono2 := (processGroups_conservation close rest.length
          (rest.map (Fixer.applyUpdatesGroup
            (Fixer.processRecs close done [] g.recs 0).updates))
          (List.length_map rest _)
          ((Fixer.processRecs close done [] g.recs 0).before ++
            (if (Fixer.processRecs close done [] g.recs 0).recs.isEmpty then []
             else [{ gtype := g.gtype,
                     recs := (Fixer.processRecs close done [] g.recs 0).recs }]))
          (cnt + (Fixer.processRecs close done [] g.recs 0).cnt)).2
        have hres0 : (Fixer.processRecs close done [] g.recs 0).cnt = 0 := by
          omega
        obtain ⟨h1, h2, h3⟩ := processRecs_zero_id close g.recs.length g.recs rfl
          done [] 0 hsd (fun x hx => absurd hx (List.not_mem_nil x)) hsg hres0
        rw [List.nil_append] at h2
        rw [h1, h2, hres0, Nat.add_zero] at hz ⊢
        rw [if_neg (fun him => hgg (List.isEmpty_iff.mp him))] at hz ⊢
        have heta : ({ gtype := g.gtype, recs := g.recs } : Fixer.TypedGroup) = g := rfl
        rw [heta] at hz ⊢
        rw [map_applyUpdates_trivial_id _ h3 rest hst'] at hz ⊢
        have hsd' : Fixer.StacksNonempty (done ++ [g]) :=
          SN_append done [g] hsd (fun tg htg => by
            rw [List.mem_singleton.mp htg]; exact hsg)
        have hgd' : Fixer.GroupsNonempty (done ++ [g]) :=
          GN_append done [g] hgd (fun tg htg => by
            rw [List.mem_singleton.mp htg]; exact hgg)
        have := ih rest.length (by simp) rest rfl (done ++ [g]) cnt
          hsd' hgd' hst' hgt' hz
        rw [this]
        simp
      · rename_i hfix
        rw [if_neg hfix]
        have hsd' : Fixer.StacksNonempty (done ++ [g]) :=
          SN_append done [g] hsd (fun tg htg => by
            rw [List.mem_singleton.mp htg]; exact hsg)
        have hgd' : Fixer.GroupsNonempty (done ++ [g]) :=
          GN_append done [g] hgd (fun tg htg => by
            rw [List.mem_singleton.mp htg]; exact hgg)
        have := ih rest.length (by simp) rest rfl (done ++ [g]) cnt
          hsd' hgd' hst' hgt' hz
        rw [this]
        simp

theorem fixRound_conservation (close : JStr → JStr → Bool) (g : Fixer.Grouped) :
    Fixer.totalStackSize (Fixer.fixRound close g).1 + (Fixer.fixRound close g).2 =
      Fixer.totalStackSize g := by
  have := (processGroups_conservation close g.length g rfl [] 0).1
  rw [show Fixer.totalStackSize [] = 0 from rfl] at this
  rw [Fixer.fixRound]
  omega

theorem fixRound_preserves (close : JStr → JStr → Bool) (g : Fixer.Grouped)
    (hsn : Fixer.StacksNonempty g) (hgn : Fixer.GroupsNonempty g) :
    Fixer.StacksNonempty (Fixer.fixRound close g).1 ∧
    Fixer.GroupsNonempty (Fixer.fixRound close g).1 := by
  have := processGroups_preserves close g.length g rfl [] 0
    (fun tg htg => absurd htg (List.not_mem_nil tg))
    (fun tg htg => absurd htg (List.not_mem_nil tg)) hsn hgn
  rw [Fixer.fixRound]
  exact this

theorem fixRound_zero_id (close : JStr → JStr → Bool) (g : Fixer.Grouped)
    (hsn : Fixer.StacksNonempty g) (hgn : Fixer.GroupsNonempty g)
    (hz : (Fixer.fixRound close g).2 = 0) : (Fixer.fixRound close g).1 = g := by
  have := processGroups_zero_id close g.length g rfl [] 0
    (fun tg htg => absurd htg (List.not_mem_nil tg))
    (fun tg htg => absurd htg (List.not_mem_nil tg)) hsn hgn
    (by rw [Fixer.fixRound] at hz; exact hz)
  rw [Fixer.fixRound, this, List.nil_append]

theorem fixRunGo_fixed (close : JStr → JStr → Bool) :
    ∀ (fuel : Nat) (g : Fixer.Grouped),
      Fixer.StacksNonempty g → Fixer.GroupsNonempty g →
      Fixer.totalStackSize g < fuel →
      Fixer.fixRound close (Fixer.fixRunGo close fuel g).1 =
        ((Fixer.fixRunGo close fuel g).1, 0) := by
  intro fuel
  induction fuel with
  | zero => intro g _ _ h; omega
  | succ fuel ih =>
    intro g hsn hgn hfuel
    rw [Fixer.fixRunGo]
    by_cases hz : (Fixer.fixRound close g).2 = 0
    · rw [if_pos hz]
      dsimp only
      have hid := fixRound_zero_id close g hsn hgn hz
      rw [hid]
      rw [show Fixer.fixRound close g =
        ((Fixer.fixRound close g).1, (Fixer.fixRound close g).2) from rfl, hid, hz]
    · rw [if_neg hz]
      dsimp only
      have hcons := fixRound_conservation close g
      obtain ⟨hsn', hgn'⟩ := fixRound_preserves close g hsn hgn
      exact ih (Fixer.fixRound close g).1 hsn' hgn' (by omega)

/-- **C3.**  The auto-fixer iterates rounds until a round makes zero fixes,
and at that point it has reached a fixed point: on the tree a complete run
returns, one more round makes zero fixes and leaves the tree unchanged, so a
second complete run performs zero rewrites.  (The hypotheses hold of every
`grouped` map the checker builds: every record is created with at least one
stack entry and every group with at least one record, and the fixer deletes a
record or group the moment it empties.) -/
theorem c3_fixer_idempotent (close : JStr → JStr → Bool) (g : Fixer.Grouped)
    (hsn : Fixer.StacksNonempty g) (hgn : Fixer.GroupsNonempty g) :
    Fixer.fixRound close (Fixer.fixRun close g).1 =
      ((Fixer.fixRun close g).1, 0) ∧
    Fixer.fixRun close (Fixer.fixRun close g).1 =
      ((Fixer.fixRun close g).1, 0) := by
  have h1 : Fixer.fixRound close (Fixer.fixRun close g).1 =
      ((Fixer.fixRun close g).1, 0) := by
    rw [Fixer.fixRun]
    exact fixRunGo_fixed close (Fixer.totalStackSize g + 1) g hsn hgn
      (by omega)
  refine ⟨h1, ?_⟩
  generalize hs : (Fixer.fixRun close g).1 = s at h1 ⊢
  rw [Fixer.fixRun, Fixer.fixRunGo]
  dsimp only
  rw [h1]
  rfl

/-- Witness for C3: a single redirected-issue record with one occurrence is
fixed in one round, and a second complete run of the fixer makes zero
rewrites on the resulting tree. -/
theorem c3_fixer_idempotent_witness :
    Fixer.fixRound (fun _ _ => false)
      (Fixer.fixRun (fun _ _ => false)
        [{ gtype := IssueType.redirected,
           recs := [{ issue := Issue.redirected (str "http://a/") (str "http://b/"),
                      stack := [{ filepath := str "docs/x.md",
                                  locations := [] }] }] }]).1 =
      ((Fixer.fixRun (fun _ _ => false)
        [{ gtype := IssueType.redirected,
           recs := [{ issue := Issue.redirected (str "http://a/") (str "http://b/"),
                      stack := [{ filepath := str "docs/x.md",
                                  locations := [] }] }] }]).1, 0) ∧
    Fixer.fixRun (fun _ _ => false)
      (Fixer.fixRun (fun _ _ => false)
        [{ gtype := IssueType.redirected,
           recs := [{ issue := Issue.redirected (str "http://a/") (str "http://b/"),
                      stack := [{ filepath := str "docs/x.md",
                                  locations := [] }] }] }]).1 =
      ((Fixer.fixRun (fun _ _ => false)
        [{ gtype := IssueType.redirected,
           recs := [{ issue := Issue.redirected (str "http://a/") (str "http://b/"),
                      stack := [{ filepath := str "docs/x.md",
                                  locations := [] }] }] }]).1, 0) :=
  c3_fixer_idempotent (fun _ _ => false)
    [{ gtype := IssueType.redirected,
       recs := [{ issue := Issue.redirected (str "http://a/") (str "http://b/"),
                  stack := [{ filepath := str "docs/x.md",
                              locations := [] }] }] }]
    (by unfold Fixer.StacksNonempty; decide)
    (by unfold Fixer.GroupsNonempty; decide)
